import Mathlib

/-!
# miniShell, unpackString, FindAnagrams, calendarServer and unixSort

Shallow embeddings of `src/miniShell/main.go`, `src/unpackString/unpack.go`,
`src/findAnagramms/main.go`, `src/calendarServer/calendar.go` and
`src/unixSort/main.go`, each in a namespace of its own: first the definitions,
then the theorems.

## miniShell: the command-line compiler, the conditional gate, the orchestrator

A Go `string` is a sequence of
bytes; it is modelled as a list of byte values (`Nat`, each below 256 in a real
string).  The scanners only ever compare bytes for equality, so no arithmetic
on bytes is involved.  A Go `error` result is an `Option` holding the message
(`none` is `nil`); a `nil` slice is the empty list.
-/

namespace MiniShell

/-- A Go string: its bytes in order. -/
abbrev Str := List Nat

/-- The bytes of an ASCII literal (one byte per character). -/
def bytes (s : String) : Str := s.toList.map Char.toNat

/-! ## splitArgs (main.go, lines 231-272) -/

/-- The local variables of the loop of `splitArgs`. -/
structure ArgState where
  res : List Str
  cur : Str
  inSq : Bool
  inDq : Bool
  esc : Bool
deriving DecidableEq, Repr

/-- The variables of `splitArgs` before the loop. -/
def ArgState.init : ArgState :=
  { res := [], cur := [], inSq := false, inDq := false, esc := false }

/-- One iteration of the loop of `splitArgs` on the byte `c`
(92 backslash, 39 single quote, 34 double quote, 32 space, 9 tab). -/
def splitArgsStep (st : ArgState) (c : Nat) : ArgState :=
  if st.esc then
    { st with cur := st.cur ++ [c], esc := false }
  else if c = 92 then
    { st with esc := true }
  else if c = 39 ∧ st.inDq = false then
    { st with inSq := !st.inSq }
  else if c = 34 ∧ st.inSq = false then
    { st with inDq := !st.inDq }
  else if (c = 32 ∨ c = 9) ∧ st.inSq = false ∧ st.inDq = false then
    if st.cur.length > 0 then
      { st with res := st.res ++ [st.cur], cur := [] }
    else
      st
  else
    { st with cur := st.cur ++ [c] }

/-- The loop of `splitArgs` run over the bytes `s` from the state `st`. -/
def splitArgsLoop (st : ArgState) (s : Str) : ArgState :=
  s.foldl splitArgsStep st

/-- The function `splitArgs`: the tokens and the error. -/
def splitArgs (s : Str) : List Str × Option String :=
  let st := splitArgsLoop ArgState.init s
  if st.inSq || st.inDq then
    ([], some "unclosed quote")
  else if st.cur.length > 0 then
    (st.res ++ [st.cur], none)
  else
    (st.res, none)

/-! ## splitByConditionals (main.go, lines 105-141) -/

/-- The local variables of the loop of `splitByConditionals`. -/
structure CondState where
  segments : List Str
  ops : List Str
  cur : Str
  inSq : Bool
  inDq : Bool
deriving DecidableEq, Repr

/-- The variables of `splitByConditionals` before the loop. -/
def CondState.init : CondState :=
  { segments := [], ops := [], cur := [], inSq := false, inDq := false }

/-- The loop of `splitByConditionals` over the bytes still to be read, `s[i:]`.
The test `i+1 < len(s)` holds exactly when two bytes are left, and the `i++` of
an operator branch drops the second of them (38 is `&`, 124 is `|`). -/
def splitByConditionalsLoop : Str → CondState → CondState
  | [], st => st
  | [c], st =>
    if c = 39 ∧ st.inDq = false then
      { st with inSq := !st.inSq, cur := st.cur ++ [c] }
    else if c = 34 ∧ st.inSq = false then
      { st with inDq := !st.inDq, cur := st.cur ++ [c] }
    else
      { st with cur := st.cur ++ [c] }
  | c :: d :: rest, st =>
    if c = 39 ∧ st.inDq = false then
      splitByConditionalsLoop (d :: rest) { st with inSq := !st.inSq, cur := st.cur ++ [c] }
    else if c = 34 ∧ st.inSq = false then
      splitByConditionalsLoop (d :: rest) { st with inDq := !st.inDq, cur := st.cur ++ [c] }
    else if st.inSq = false ∧ st.inDq = false ∧ c = 38 ∧ d = 38 then
      splitByConditionalsLoop rest
        { st with segments := st.segments ++ [st.cur], cur := [], ops := st.ops ++ [[38, 38]] }
    else if st.inSq = false ∧ st.inDq = false ∧ c = 124 ∧ d = 124 then
      splitByConditionalsLoop rest
        { st with segments := st.segments ++ [st.cur], cur := [], ops := st.ops ++ [[124, 124]] }
    else
      splitByConditionalsLoop (d :: rest) { st with cur := st.cur ++ [c] }

/-- The function `splitByConditionals`: the segments and the operators between them. -/
def splitByConditionals (s : Str) : List Str × List Str :=
  let st := splitByConditionalsLoop s CondState.init
  (st.segments ++ [st.cur], st.ops)

/-! ## splitByPipe (main.go, lines 170-196) -/

/-- The ASCII white space of `strings.TrimSpace`: tab, line feed, vertical tab,
form feed, carriage return, space. -/
def isAsciiSpace (c : Nat) : Bool :=
  c = 9 || c = 10 || c = 11 || c = 12 || c = 13 || c = 32

/-- The number of bytes of the white-space rune with which `s` starts, or 0
when `s` does not start with one.  The white space of `unicode.IsSpace` is the
ASCII white space and the runes U+0085 and U+00A0 (UTF-8 `C2 85`, `C2 A0`),
U+1680 (`E1 9A 80`), U+2000 to U+200A, U+2028, U+2029 and U+202F (`E2 80 80`
to `E2 80 8A`, `E2 80 A8`, `E2 80 A9`, `E2 80 AF`), U+205F (`E2 81 9F`) and
U+3000 (`E3 80 80`).  Bytes that are not a valid encoding decode to the rune
U+FFFD, which is no white space. -/
def spaceRuneLen : Str → Nat
  | [] => 0
  | [c] => if isAsciiSpace c then 1 else 0
  | [c, d] =>
    if isAsciiSpace c then 1
    else if c = 194 ∧ (d = 133 ∨ d = 160) then 2
    else 0
  | c :: d :: e :: _ =>
    if isAsciiSpace c then 1
    else if c = 194 ∧ (d = 133 ∨ d = 160) then 2
    else if c = 225 ∧ d = 154 ∧ e = 128 then 3
    else if c = 226 ∧ d = 128 ∧ ((128 ≤ e ∧ e ≤ 138) ∨ e = 168 ∨ e = 169 ∨ e = 175) then 3
    else if c = 226 ∧ d = 129 ∧ e = 159 then 3
    else if c = 227 ∧ d = 128 ∧ e = 128 then 3
    else 0

/-- The same for the end of a string, given with its bytes in reverse order:
the number of bytes of the white-space rune with which the string ends, or 0.
(The library decodes the last rune from the nearest byte before the last one
that starts a rune; the bytes between are continuation bytes, so the last rune
is a white space exactly when the string ends with one of the encodings.) -/
def spaceRuneLenRev : Str → Nat
  | [] => 0
  | [c] => if isAsciiSpace c then 1 else 0
  | [d, c] =>
    if isAsciiSpace d then 1
    else if c = 194 ∧ (d = 133 ∨ d = 160) then 2
    else 0
  | e :: d :: c :: _ =>
    if isAsciiSpace e then 1
    else if d = 194 ∧ (e = 133 ∨ e = 160) then 2
    else if c = 225 ∧ d = 154 ∧ e = 128 then 3
    else if c = 226 ∧ d = 128 ∧ ((128 ≤ e ∧ e ≤ 138) ∨ e = 168 ∨ e = 169 ∨ e = 175) then 3
    else if c = 226 ∧ d = 129 ∧ e = 159 then 3
    else if c = 227 ∧ d = 128 ∧ e = 128 then 3
    else 0

/-- The bytes left when the runes that `len` finds at the start are dropped one
after the other, at most `fuel` of them. -/
def dropRunes (len : Str → Nat) : Nat → Str → Str
  | 0, s => s
  | fuel + 1, s => if len s = 0 then s else dropRunes len fuel (s.drop (len s))

/-- The library function `strings.TrimSpace`: the white-space runes at the
start are removed, then those at the end. -/
def trimSpace (s : Str) : Str :=
  let t := dropRunes spaceRuneLen s.length s
  (dropRunes spaceRuneLenRev t.length t.reverse).reverse

/-- The local variables of the loop of `splitByPipe`. -/
structure PipeState where
  res : List Str
  cur : Str
  inSq : Bool
  inDq : Bool
deriving DecidableEq, Repr

/-- The variables of `splitByPipe` before the loop. -/
def PipeState.init : PipeState :=
  { res := [], cur := [], inSq := false, inDq := false }

/-- One iteration of the loop of `splitByPipe` on the byte `c`, with `trim`
standing for `strings.TrimSpace`. -/
def splitByPipeStep (trim : Str → Str) (st : PipeState) (c : Nat) : PipeState :=
  if c = 39 ∧ st.inDq = false then
    { st with inSq := !st.inSq, cur := st.cur ++ [c] }
  else if c = 34 ∧ st.inSq = false then
    { st with inDq := !st.inDq, cur := st.cur ++ [c] }
  else if c = 124 ∧ st.inSq = false ∧ st.inDq = false then
    { st with res := st.res ++ [trim st.cur], cur := [] }
  else
    { st with cur := st.cur ++ [c] }

/-- The loop of `splitByPipe` run over the bytes `s` from the state `st`. -/
def splitByPipeLoop (trim : Str → Str) (st : PipeState) (s : Str) : PipeState :=
  s.foldl (splitByPipeStep trim) st

/-- The function `splitByPipe`, with `trim` standing for `strings.TrimSpace`. -/
def splitByPipeWith (trim : Str → Str) (s : Str) : List Str :=
  let st := splitByPipeLoop trim PipeState.init s
  st.res ++ [trim st.cur]

/-- The function `splitByPipe`. -/
def splitByPipe (s : Str) : List Str := splitByPipeWith trimSpace s

/-! ## parseCommand (main.go, lines 200-227) -/

/-- The four results of `parseCommand`. -/
structure Parsed where
  args : List Str
  inFile : Str
  outFile : Str
  err : Option String
deriving DecidableEq, Repr

/-- The local variables of the loop of `parseCommand`. -/
structure ParseState where
  clean : List Str
  inFile : Str
  outFile : Str
deriving DecidableEq, Repr

/-- The loop of `parseCommand` over the tokens still to be read, `toks[i:]`,
and the return after it (62 is `>`, 60 is `<`).  The test `i+1 >= len(toks)`
holds exactly when the operator is the last token. -/
def parseCommandLoop : List Str → ParseState → Parsed
  | [], st => { args := st.clean, inFile := st.inFile, outFile := st.outFile, err := none }
  | t :: rest, st =>
    if t = [62] then
      match rest with
      | [] => { args := [], inFile := [], outFile := [], err := some "no filename after >" }
      | f :: rest' => parseCommandLoop rest' { st with outFile := f }
    else if t = [60] then
      match rest with
      | [] => { args := [], inFile := [], outFile := [], err := some "no filename after <" }
      | f :: rest' => parseCommandLoop rest' { st with inFile := f }
    else
      parseCommandLoop rest { st with clean := st.clean ++ [t] }

/-- The function `parseCommand`. -/
def parseCommand (cmd : Str) : Parsed :=
  match splitArgs cmd with
  | (_, some e) => { args := [], inFile := [], outFile := [], err := some e }
  | (toks, none) => parseCommandLoop toks { clean := [], inFile := [], outFile := [] }

/-! ## The segment loop of main (main.go, lines 61-80) -/

/-- The variables of the segment loop: the state of the world the commands act
on, the running exit code, and a record of the calls of `runSegment` made so
far (the index of the segment and the exit code the call returned). -/
structure GateState (σ : Type) where
  world : σ
  lastExit : Int
  calls : List (Nat × Int)

/-- The body of the segment loop for segment `i` with text `seg`.  The
function `run` stands for `runSegment`: from the world and the segment text it
gives the exit code and the new world.  The index `i - 1` is within `ops` for
the lists `splitByConditionals` returns. -/
def segmentStep {σ : Type} (run : σ → Str → Int × σ) (ops : List Str)
    (st : GateState σ) (i : Nat) (seg : Str) : GateState σ :=
  if 0 < i ∧ ops[i - 1]? = some [38, 38] ∧ st.lastExit ≠ 0 then
    st
  else if 0 < i ∧ ops[i - 1]? = some [124, 124] ∧ st.lastExit = 0 then
    st
  else
    let r := run st.world (trimSpace seg)
    { world := r.2, lastExit := r.1, calls := st.calls ++ [(i, r.1)] }

/-- The segment loop run over the segments `segs`, the first of which has index `i`. -/
def segmentLoopFrom {σ : Type} (run : σ → Str → Int × σ) (ops : List Str) :
    Nat → List Str → GateState σ → GateState σ
  | _, [], st => st
  | i, seg :: rest, st => segmentLoopFrom run ops (i + 1) rest (segmentStep run ops st i seg)

/-- The segment loop of `main` on the results of `splitByConditionals`. -/
def segmentLoop {σ : Type} (run : σ → Str → Int × σ) (segments ops : List Str) (w : σ) :
    GateState σ :=
  segmentLoopFrom run ops 0 segments { world := w, lastExit := 0, calls := [] }

/-- The processing of one line by `main` after trimming and expansion. -/
def processLine {σ : Type} (run : σ → Str → Int × σ) (line : Str) (w : σ) : GateState σ :=
  segmentLoop run (splitByConditionals line).1 (splitByConditionals line).2 w

/-! ## The quote regions of the specification (section 4.1) -/

/-- Where a scan stands with respect to the quoted regions. -/
inductive Region where
  | outside
  | single
  | double
deriving DecidableEq, Repr

/-- The effect of one unescaped byte on the region, in the words of the
specification: a single quote, when not inside a double quote, toggles a
region; a double quote, when not inside a single quote, does the same. -/
def Region.next : Region → Nat → Region
  | Region.outside, c => if c = 39 then Region.single else if c = 34 then Region.double
      else Region.outside
  | Region.single, c => if c = 39 then Region.outside else Region.single
  | Region.double, c => if c = 34 then Region.outside else Region.double

/-- The region in which a left-to-right scan of `s` ends when it starts in the
region `r`: an unescaped backslash makes the byte after it literal, so that
byte delimits nothing. -/
def specRegionAfter : Region → Str → Region
  | r, [] => r
  | r, [c] => if c = 92 then r else r.next c
  | r, c :: d :: rest =>
    if c = 92 then specRegionAfter r rest else specRegionAfter (r.next c) (d :: rest)

/-- The region the flags of `splitArgs` stand for. -/
def ArgState.region (st : ArgState) : Region :=
  if st.inSq then Region.single else if st.inDq then Region.double else Region.outside

/-- The flags of `splitArgs` follow the regions of the specification along the
scan of `s`, and are never both set. -/
def RegionAgrees (s : Str) : Prop :=
  ∀ st : ArgState, st.esc = false → (st.inSq = true → st.inDq = false) →
    (splitArgsLoop st s).region = specRegionAfter st.region s ∧
    ((splitArgsLoop st s).inSq = true → (splitArgsLoop st s).inDq = false)

/-! ## The redirections of the specification (section 4.2, step 3) -/

/-- The literal tokens `<` and `>`. -/
def isRedirOp (t : Str) : Bool := t = [60] || t = [62]

/-- The arguments of a stage in the words of the specification: scanning the
tokens from the left, a token `<` or `>` and the token right after it are taken
out, and the remaining tokens are the arguments. -/
def specArgs : List Str → List Str
  | [] => []
  | [t] => if isRedirOp t then [] else [t]
  | t :: f :: rest => if isRedirOp t then specArgs rest else t :: specArgs (f :: rest)

/-- The redirections of a stage in the words of the specification: each
operator token with the token it consumes, in the order of the scan. -/
def specRedirs : List Str → List (Str × Str)
  | [] => []
  | [_] => []
  | t :: f :: rest => if isRedirOp t then (t, f) :: specRedirs rest else specRedirs (f :: rest)

/-- An operator token stands last, with no token after it to consume. -/
def specTrailingOp : List Str → Bool
  | [] => false
  | [t] => isRedirOp t
  | t :: f :: rest => if isRedirOp t then specTrailingOp rest else specTrailingOp (f :: rest)

/-- The file an operator `op` leaves in force after the redirections `rs`,
starting from `d`: every redirection by `op` sets it. -/
def fileOf (op : Str) : List (Str × Str) → Str → Str
  | [], d => d
  | (o, f) :: rs, d => fileOf op rs (if o = op then f else d)

/-- The result of the loop of `parseCommand` on `toks` from `st`, described by
the redirections of the specification. -/
def ParseAgrees (toks : List Str) : Prop :=
  ∀ st : ParseState,
    (specTrailingOp toks = true →
      (parseCommandLoop toks st).err.isSome = true ∧ (parseCommandLoop toks st).args = [] ∧
      (parseCommandLoop toks st).inFile = [] ∧ (parseCommandLoop toks st).outFile = []) ∧
    (specTrailingOp toks = false →
      parseCommandLoop toks st
        = ⟨st.clean ++ specArgs toks, fileOf [60] (specRedirs toks) st.inFile,
            fileOf [62] (specRedirs toks) st.outFile, none⟩)

/-! ## The split that the flags of splitByConditionals compute -/

/-- The loop of `splitByConditionals` as a function of the region its two flags
stand for: the first segment, then each operator with the segment after it.
While the flags are both off two equal bytes `&&` or `||` are an operator,
found from the left and not overlapping; every other byte belongs to the
segment being read and moves the flags, a quote byte after a backslash like
any other quote byte.  This is the code seen from its flags, not the regions
of section 4.1, in which an escaped quote delimits nothing. -/
def flagConditionals : Region → Str → Str × List (Str × Str)
  | _, [] => ([], [])
  | _, [c] => ([c], [])
  | r, c :: d :: rest =>
    if r = Region.outside ∧ c = d ∧ (c = 38 ∨ c = 124) then
      ([], ([c, d], (flagConditionals r rest).1) :: (flagConditionals r rest).2)
    else
      (c :: (flagConditionals (r.next c) (d :: rest)).1,
        (flagConditionals (r.next c) (d :: rest)).2)

/-- The region the flags of `splitByConditionals` stand for. -/
def CondState.region (st : CondState) : Region :=
  if st.inSq then Region.single else if st.inDq then Region.double else Region.outside

/-- The loop of `splitByConditionals` on `s` adds to its state what
`flagConditionals` splits `s` into. -/
def CondAgrees (s : Str) : Prop :=
  ∀ st : CondState, (st.inSq = true → st.inDq = false) →
    (splitByConditionalsLoop s st).segments ++ [(splitByConditionalsLoop s st).cur]
      = st.segments ++ (st.cur ++ (flagConditionals st.region s).1)
          :: (flagConditionals st.region s).2.map Prod.snd ∧
    (splitByConditionalsLoop s st).ops
      = st.ops ++ (flagConditionals st.region s).2.map Prod.fst

/-! ## The stages that the flags of splitByPipe count -/

/-- The number of bytes `|` of `s` read while the two flags of `splitByPipe`
are off, from the region `r` the flags stand for; every quote byte moves the
flags, a quote byte after a backslash like any other.  This is the code seen
from its flags, not the regions of section 4.1. -/
def flagPipeCount : Region → Str → Nat
  | _, [] => 0
  | r, c :: rest =>
    (if r = Region.outside ∧ c = 124 then 1 else 0) + flagPipeCount (r.next c) rest

/-- The region the flags of `splitByPipe` stand for. -/
def PipeState.region (st : PipeState) : Region :=
  if st.inSq then Region.single else if st.inDq then Region.double else Region.outside

/-! ## The quoted regions in the two splits (section 4.2 with section 4.1) -/

/-- Byte `i` of `s` lies outside the quoted regions of the specification: the
scan of the bytes before it, in which an unescaped backslash makes the byte
after it literal, ends outside every region. -/
def specOutsideAt (s : Str) (i : Nat) : Bool :=
  decide (specRegionAfter Region.outside (s.take i) = Region.outside)

/-- The number of bytes `|` of `s` that lie outside the quoted regions of the
specification. -/
def specPipesOutside (s : Str) : Nat :=
  ((List.range s.length).filter (fun i => decide (s[i]? = some 124) && specOutsideAt s i)).length

/-- The places of `s` at which the two bytes `&&` or `||` stand outside the
quoted regions of the specification. -/
def specOperatorsOutside (s : Str) : List Nat :=
  (List.range s.length).filter (fun i =>
    (decide (s[i]? = some 38 ∧ s[i + 1]? = some 38)
      || decide (s[i]? = some 124 ∧ s[i + 1]? = some 124)) && specOutsideAt s i)

/-! ## The conditional gate (section 4.2) -/

/-- The variables of the segment loop when it reaches segment `i`, that is
after the segments before `i` have been processed. -/
def gateBefore {σ : Type} (run : σ → Str → Int × σ) (segments ops : List Str) (w : σ)
    (i : Nat) : GateState σ :=
  segmentLoopFrom run ops 0 (segments.take i) { world := w, lastExit := 0, calls := [] }

/-- Segment `i` was executed: `runSegment` was called in iteration `i`. -/
def executed {σ : Type} (st : GateState σ) (i : Nat) : Prop :=
  i ∈ st.calls.map Prod.fst

/-- A `runSegment` for examples: the command `false` exits with 1, every other
command with 0, and the world records the commands run. -/
def runExample (w : List Str) (seg : Str) : Int × List Str :=
  (if seg = bytes "false" then 1 else 0, w ++ [seg])

instance executedDecidable {σ : Type} (st : GateState σ) (i : Nat) : Decidable (executed st i) :=
  inferInstanceAs (Decidable (i ∈ st.calls.map Prod.fst))

end MiniShell

namespace MiniShell

/-! ## runSegment (main.go, lines 145-167) -/

/-- The way a call of `runSegment` ends: it reports a parse error and returns
exit 1 with the error, or returns exit 0 with no error, or returns what the
call `runBuiltin(args, inFile, outFile)` returns, or returns what the call
`runPipeline(parts)` returns. -/
inductive Dispatch where
  | parseError (e : String)
  | nothing
  | builtin (args : List Str) (inFile outFile : Str)
  | pipeline (parts : List Str)
deriving DecidableEq, Repr

/-- The names of the `switch` of `runSegment`: cd, pwd, echo, kill, ps. -/
def isBuiltin (a : Str) : Bool :=
  a = bytes "cd" || a = bytes "pwd" || a = bytes "echo" || a = bytes "kill" || a = bytes "ps"

/-- The function `runSegment`, up to the call it ends with, with `trim`
standing for `strings.TrimSpace`. -/
def runSegmentWith (trim : Str → Str) (segment : Str) : Dispatch :=
  match splitByPipeWith trim segment with
  | [p] =>
    match (parseCommand p).err with
    | some e => Dispatch.parseError e
    | none =>
      match (parseCommand p).args with
      | [] => Dispatch.nothing
      | a :: rest =>
        if isBuiltin a then
          Dispatch.builtin (a :: rest) (parseCommand p).inFile (parseCommand p).outFile
        else
          Dispatch.pipeline [p]
  | parts => Dispatch.pipeline parts

/-- The function `runSegment`. -/
def runSegment (segment : Str) : Dispatch := runSegmentWith trimSpace segment

end MiniShell

namespace MiniShell

/-! ## The operating system seen by runBuiltin and runPipeline

The two functions act on the operating system.  Each call they make is
recorded as an event, in order, and what the call returns is taken from an
arbitrary environment `OS`. -/

/-- A standard stream handed to a command: the stream of the shell itself, an
opened file, or an end of pipe number `i`. -/
inductive Stream where
  | inherited
  | file (f : Str)
  | pipeRead (i : Nat)
  | pipeWrite (i : Nat)
deriving DecidableEq, Repr

/-- The command built for one stage: `exec.Command(args[0], args[1:]...)` with
its standard streams and the process group asked for (0: a group of its own). -/
structure Cmd where
  args : List Str
  stdin : Stream
  stdout : Stream
  pgid : Int
deriving DecidableEq, Repr

/-- The calls on the operating system, and the assignments to `fgPgID`. -/
inductive Event where
  | report (msg : String)
  | openFile (f : Str)
  | createFile (f : Str)
  | closeFile (f : Str)
  | write (out : Stream) (data : Str)
  | chdir (dir : Str)
  | kill (pid : Int)
  | runPs (stdin stdout : Stream)
  | pipe (i : Nat)
  | start (i : Nat) (cmd : Cmd) (pid : Option Int)
  | closeReader (i : Nat)
  | closeWriter (i : Nat)
  | setFg (v : Int)
  | wait (i : Nat)
deriving DecidableEq, Repr

/-- A `syscall.WaitStatus` of a process that has ended: it exited with a code,
or it was killed by a signal. -/
inductive WaitStatus where
  | exited (code : Nat)
  | signaled (signal : Nat)
deriving DecidableEq, Repr

/-- The method `ExitStatus` of `syscall.WaitStatus`: the exit code (one byte)
of a process that exited, and -1 for a process that did not exit. -/
def WaitStatus.ExitStatus : WaitStatus → Int
  | WaitStatus.exited code => ((code % 256 : Nat) : Int)
  | WaitStatus.signaled _ => -1

/-- What `p.Wait()` returns: nil, an `*exec.ExitError` whose `Sys()` is the
`syscall.WaitStatus` given (the process exited with a code other than 0, or
was killed by a signal), an `*exec.ExitError` of another kind, or another
error. -/
inductive WaitResult where
  | success
  | exitError (err : String) (status : WaitStatus)
  | exitOther (err : String)
  | failed (err : String)
deriving DecidableEq, Repr

/-- The environment: what each call returns.  An `Option` is the error of the
call (`none`: no error). -/
structure OS where
  openErr : Str → Option String
  createErr : Str → Option String
  pipeErr : Nat → Option String
  startRes : Nat → Except String Int
  waitRes : Nat → WaitResult
  home : Str
  chdirErr : Str → Option String
  getwd : Except String Str
  atoi : Str → Except String Int
  killErr : Int → Option String
  psErr : Option String

/-- The outcome of a call of `runBuiltin` or `runPipeline`: the events in
order, the value of `fgPgID` on return, and the two results. -/
structure Run where
  events : List Event
  fg : Int
  exit : Int
  err : Option String
deriving DecidableEq, Repr

/-! ## runBuiltin (main.go, lines 276-375) -/

/-- The library function `strings.Join`. -/
def stringsJoin (elems : List Str) (sep : Str) : Str := sep.intercalate elems

/-- The `switch` of `runBuiltin` on non-empty `args`, with the streams `sin`
and `out` resolved: the events and the two results (10 is the line feed that
`fmt.Fprintln` adds). -/
def builtinSwitch (os : OS) (a : Str) (rest : List Str) (sin out : Stream) :
    List Event × Int × Option String :=
  if a = bytes "cd" then
    let dir :=
      match rest with
      | [] => if os.home = [] then bytes "/" else os.home
      | d :: _ => d
    match os.chdirErr dir with
    | some e => ([Event.chdir dir, Event.report ("cd: " ++ e)], 1, some e)
    | none => ([Event.chdir dir], 0, none)
  else if a = bytes "pwd" then
    match os.getwd with
    | Except.error e => ([Event.report ("pwd: " ++ e)], 1, some e)
    | Except.ok wd => ([Event.write out (wd ++ [10])], 0, none)
  else if a = bytes "echo" then
    ([Event.write out (stringsJoin rest [32] ++ [10])], 0, none)
  else if a = bytes "kill" then
    match rest with
    | [] => ([Event.report "kill: pid required"], 1, some "pid required")
    | p :: _ =>
      match os.atoi p with
      | Except.error e => ([Event.report "kill: bad pid"], 1, some e)
      | Except.ok pid =>
        match os.killErr pid with
        | some e => ([Event.kill pid, Event.report ("kill: " ++ e)], 1, some e)
        | none => ([Event.kill pid], 0, none)
  else if a = bytes "ps" then
    match os.psErr with
    | some e => ([Event.runPs sin out, Event.report ("ps: " ++ e)], 1, some e)
    | none => ([Event.runPs sin out], 0, none)
  else
    ([], 127, some "unknown builtin")

/-- The part of `runBuiltin` after the input is resolved: `sin` is the input
stream and `closeIn` the deferred close of the input file. -/
def runBuiltinFrom (os : OS) (fg : Int) (args : List Str) (outFile : Str)
    (evIn : List Event) (sin : Stream) (closeIn : List Event) : Option Run :=
  if outFile ≠ [] then
    match os.createErr outFile with
    | some e =>
      some ⟨evIn ++ [Event.createFile outFile, Event.report ("open output: " ++ e)] ++ closeIn,
        fg, 1, some e⟩
    | none =>
      match args with
      | [] => none
      | a :: rest =>
        let r := builtinSwitch os a rest sin (Stream.file outFile)
        some ⟨evIn ++ [Event.createFile outFile] ++ r.1 ++ [Event.closeFile outFile] ++ closeIn,
          fg, r.2.1, r.2.2⟩
  else
    match args with
    | [] => none
    | a :: rest =>
      let r := builtinSwitch os a rest sin Stream.inherited
      some ⟨evIn ++ r.1 ++ closeIn, fg, r.2.1, r.2.2⟩

/-- The function `runBuiltin`.  The result is `none` when the call panics,
which it does on `args[0]` for empty `args`. -/
def runBuiltin (os : OS) (fg : Int) (args : List Str) (inFile outFile : Str) : Option Run :=
  if inFile ≠ [] then
    match os.openErr inFile with
    | some e => some ⟨[Event.openFile inFile, Event.report ("open input: " ++ e)], fg, 1, some e⟩
    | none =>
      runBuiltinFrom os fg args outFile [Event.openFile inFile] (Stream.file inFile)
        [Event.closeFile inFile]
  else
    runBuiltinFrom os fg args outFile [] Stream.inherited []

/-- The bytes written to the stream `out` by the events, in order. -/
def written (out : Stream) : List Event → Str
  | [] => []
  | Event.write o data :: es => if o = out then data ++ written out es else written out es
  | _ :: es => written out es

/-- An environment for examples: every call succeeds, stage `i` gets the
process id `100 + i` and exits with status `i`. -/
def osExample : OS where
  openErr := fun _ => none
  createErr := fun _ => none
  pipeErr := fun _ => none
  startRes := fun i => Except.ok (100 + (i : Int))
  waitRes := fun i =>
    if i = 0 then WaitResult.success else WaitResult.exitError "exit status" (WaitStatus.exited i)
  home := bytes "/root"
  chdirErr := fun _ => none
  getwd := Except.ok (bytes "/tmp")
  atoi := fun _ => Except.error "invalid syntax"
  killErr := fun _ => none
  psErr := none

/-- An environment in which every call succeeds and every process ends well,
except that the process of stage 1 is killed by signal 9. -/
def osKilled : OS where
  openErr := fun _ => none
  createErr := fun _ => none
  pipeErr := fun _ => none
  startRes := fun i => Except.ok (100 + (i : Int))
  waitRes := fun i =>
    if i = 1 then WaitResult.exitError "signal: killed" (WaitStatus.signaled 9)
    else WaitResult.success
  home := bytes "/root"
  chdirErr := fun _ => none
  getwd := Except.ok (bytes "/tmp")
  atoi := fun _ => Except.error "invalid syntax"
  killErr := fun _ => none
  psErr := none

end MiniShell

namespace MiniShell

/-! ## runPipeline (main.go, lines 379-554) -/

/-- The local type `cmdSpec` of `runPipeline`. -/
structure CmdSpec where
  args : List Str
  inFile : Str
  outFile : Str
deriving DecidableEq, Repr

/-- An early return of `runPipeline`: the events so far and the two results. -/
structure Early where
  events : List Event
  exit : Int
  err : Option String
deriving DecidableEq, Repr

/-- The first loop of `runPipeline`: the stages still to be parsed and the
specs already stored.  It returns early on a parse error and on a stage
without arguments. -/
def parseStages : List Str → List CmdSpec → Except Early (List CmdSpec)
  | [], specs => Except.ok specs
  | p :: rest, specs =>
    match (parseCommand p).err with
    | some e => Except.error ⟨[Event.report ("parse error: " ++ e)], 1, some e⟩
    | none =>
      if (parseCommand p).args.length = 0 then
        Except.error ⟨[], 0, none⟩
      else
        parseStages rest
          (specs ++ [⟨(parseCommand p).args, (parseCommand p).inFile, (parseCommand p).outFile⟩])

/-- The second loop of `runPipeline`, creating the pipes with the given
numbers: it returns early when `os.Pipe()` fails. -/
def makePipes (os : OS) : List Nat → List Event → Except Early (List Event)
  | [], ev => Except.ok ev
  | i :: rest, ev =>
    match os.pipeErr i with
    | some e => Except.error ⟨ev ++ [Event.pipe i], 1, some e⟩
    | none => makePipes os rest (ev ++ [Event.pipe i])

/-- The variables of the third loop of `runPipeline`: the events so far, the
deferred closes (the last deferred first), `firstPid`, and `procs` as the list
of the stages started. -/
structure StartState where
  events : List Event
  deferred : List Event
  firstPid : Int
  procs : List Nat
deriving DecidableEq, Repr

/-- The standard input of stage `i` and the file to open for it, if any. -/
def stageStdin (i : Nat) (spec : CmdSpec) : Stream :=
  if i = 0 then
    if spec.inFile ≠ [] then Stream.file spec.inFile else Stream.inherited
  else
    Stream.pipeRead (i - 1)

/-- The standard output of stage `i` of `n`. -/
def stageStdout (n i : Nat) (spec : CmdSpec) : Stream :=
  if i + 1 = n then
    if spec.outFile ≠ [] then Stream.file spec.outFile else Stream.inherited
  else
    Stream.pipeWrite i

/-- The body of the third loop after the streams of stage `i` are set: the
call of `cmd.Start()` and what follows it. -/
def startStage (os : OS) (n i : Nat) (spec : CmdSpec) (st : StartState) :
    Except Early StartState :=
  let cmd : Cmd := ⟨spec.args, stageStdin i spec, stageStdout n i spec,
    if i = 0 then 0 else st.firstPid⟩
  match os.startRes i with
  | Except.error e =>
    Except.error
      ⟨st.events ++ [Event.start i cmd none, Event.report ("start: " ++ e)] ++ st.deferred,
        1, some e⟩
  | Except.ok pid =>
    if i = 0 then
      Except.ok
        ⟨st.events ++ [Event.start i cmd (some pid)]
            ++ (if n > 1 then [Event.closeWriter 0] else []),
          st.deferred, pid, st.procs ++ [i]⟩
    else
      Except.ok
        ⟨st.events ++ [Event.start i cmd (some pid)]
            ++ (if i + 1 < n then [Event.closeWriter i] else []),
          st.deferred, st.firstPid, st.procs ++ [i]⟩

/-- The body of the third loop from the setting of the standard output on. -/
def outputThenStart (os : OS) (n i : Nat) (spec : CmdSpec) (st : StartState) :
    Except Early StartState :=
  if i + 1 = n ∧ spec.outFile ≠ [] then
    match os.createErr spec.outFile with
    | some e =>
      Except.error
        ⟨st.events ++ [Event.createFile spec.outFile, Event.report ("create output: " ++ e)]
            ++ st.deferred, 1, some e⟩
    | none =>
      startStage os n i spec
        ⟨st.events ++ [Event.createFile spec.outFile],
          Event.closeFile spec.outFile :: st.deferred, st.firstPid, st.procs⟩
  else
    startStage os n i spec st

/-- The body of the third loop of `runPipeline` for stage `i` of `n`. -/
def stageStep (os : OS) (n i : Nat) (spec : CmdSpec) (st : StartState) :
    Except Early StartState :=
  if spec.args.length = 0 then
    Except.ok st
  else if i = 0 ∧ spec.inFile ≠ [] then
    match os.openErr spec.inFile with
    | some e =>
      Except.error
        ⟨st.events ++ [Event.openFile spec.inFile, Event.report ("open input: " ++ e)]
            ++ st.deferred, 1, some e⟩
    | none =>
      outputThenStart os n i spec
        ⟨st.events ++ [Event.openFile spec.inFile],
          Event.closeFile spec.inFile :: st.deferred, st.firstPid, st.procs⟩
  else
    outputThenStart os n i spec st

/-- The third loop of `runPipeline` over the specs from stage `i` on. -/
def startStages (os : OS) (n : Nat) : Nat → List CmdSpec → StartState → Except Early StartState
  | _, [], st => Except.ok st
  | i, spec :: rest, st =>
    match stageStep os n i spec st with
    | Except.error r => Except.error r
    | Except.ok st1 => startStages os n (i + 1) rest st1

/-- The exit status `runPipeline` takes from a result of `p.Wait()`. -/
def WaitResult.exit : WaitResult → Int
  | WaitResult.success => 0
  | WaitResult.exitError _ status => status.ExitStatus
  | WaitResult.exitOther _ => 1
  | WaitResult.failed _ => 1

/-- The error `runPipeline` takes from a result of `p.Wait()`. -/
def WaitResult.err : WaitResult → Option String
  | WaitResult.success => none
  | WaitResult.exitError e _ => some e
  | WaitResult.exitOther e => some e
  | WaitResult.failed e => some e

/-- The variables of the wait loop of `runPipeline`. -/
structure WaitState where
  events : List Event
  lastExit : Int
  lastErr : Option String
deriving DecidableEq, Repr

/-- The wait loop of `runPipeline` over the started stages `procs`. -/
def waitAll (os : OS) : List Nat → WaitState → WaitState
  | [], st => st
  | p :: rest, st =>
    waitAll os rest ⟨st.events ++ [Event.wait p], (os.waitRes p).exit, (os.waitRes p).err⟩

/-- The two loops closing the parent's copies of the `m` pipes: all the read
ends, then all the write ends. -/
def closePipes (m : Nat) : List Event :=
  (List.range m).map Event.closeReader ++ (List.range m).map Event.closeWriter

/-- The function `runPipeline`, entered with `fgPgID = fg`.  The result is
`none` when the call panics, which it does for an empty `parts` on making a
slice of length `n-1`. -/
def runPipeline (os : OS) (fg : Int) (parts : List Str) : Option Run :=
  match parseStages parts [] with
  | Except.error r => some ⟨r.events, fg, r.exit, r.err⟩
  | Except.ok specs =>
    if parts.length = 0 then
      none
    else
      match makePipes os (List.range (parts.length - 1)) [] with
      | Except.error r => some ⟨r.events, fg, r.exit, r.err⟩
      | Except.ok ev =>
        match startStages os parts.length 0 specs ⟨ev, [], 0, []⟩ with
        | Except.error r => some ⟨r.events, fg, r.exit, r.err⟩
        | Except.ok st =>
          let w := waitAll os st.procs
            ⟨st.events ++ closePipes (parts.length - 1) ++ [Event.setFg st.firstPid], 0, none⟩
          some ⟨w.events ++ [Event.setFg 0] ++ st.deferred, 0, w.lastExit, w.lastErr⟩

/-- The value of `fgPgID` after the events, when it was `fg` before them. -/
def fgAfter (fg : Int) : List Event → Int
  | [] => fg
  | Event.setFg v :: es => fgAfter v es
  | _ :: es => fgAfter fg es

/-- The calls of `p.Wait()` among the events, each with the value `fgPgID` has
when the call is made. -/
def fgAtWaits (fg : Int) : List Event → List (Nat × Int)
  | [] => []
  | Event.setFg v :: es => fgAtWaits v es
  | Event.wait i :: es => (i, fg) :: fgAtWaits fg es
  | _ :: es => fgAtWaits fg es

/-- The event is a call of `p.Wait()`. -/
def Event.isWait : Event → Bool
  | Event.wait _ => true
  | _ => false

/-- The event is an assignment to `fgPgID`. -/
def Event.isSetFg : Event → Bool
  | Event.setFg _ => true
  | _ => false

/-- The environment `osExample` in which starting stage 1 fails. -/
def osStartFails : OS :=
  { osExample with
    startRes := fun i => if i = 1 then Except.error "executable file not found"
      else Except.ok (100 + (i : Int)) }

end MiniShell

namespace MiniShell

/-- The stage an event starts: `some j` for a successful `cmd.Start()` of stage `j`. -/
def Event.started : Event → Option Nat
  | Event.start j _ (some _) => some j
  | _ => none

/-- The event is neither a wait nor an assignment to `fgPgID`, and if it starts
a stage, that stage is `i`. -/
def Event.fresh (i : Nat) (e : Event) : Prop :=
  e.isWait = false ∧ e.isSetFg = false ∧ ∀ j, e.started = some j → j = i

/-- The event is neither a wait nor an assignment to `fgPgID`, and starts no stage. -/
def Event.quiet (e : Event) : Prop :=
  e.isWait = false ∧ e.isSetFg = false ∧ e.started = none

/-- The state `st1` adds to `st` only events that are fresh for stage `i`. -/
def StartState.addsFresh (i : Nat) (st st1 : StartState) : Prop :=
  (∀ e ∈ st1.events ++ st1.deferred, e ∈ st.events ++ st.deferred ∨ e.fresh i) ∧
  (∀ e ∈ st.events, e ∈ st1.events)

/-- The early return `r` adds to `st` only quiet events. -/
def Early.addsQuiet (st : StartState) (r : Early) : Prop :=
  ∀ e ∈ r.events, e ∈ st.events ++ st.deferred ∨ e.quiet

end MiniShell

namespace MiniShell

/-- The outcome of `runPipeline` on the stages `ls < a` and `wc > f` in the
environment `osExample`. -/
def pipelineExampleRun : Run :=
  ⟨[Event.pipe 0, Event.openFile (bytes "a"),
      Event.start 0 ⟨[bytes "ls"], Stream.file (bytes "a"), Stream.pipeWrite 0, 0⟩ (some 100),
      Event.closeWriter 0, Event.createFile (bytes "f"),
      Event.start 1 ⟨[bytes "wc"], Stream.pipeRead 0, Stream.file (bytes "f"), 100⟩ (some 101),
      Event.closeReader 0, Event.closeWriter 0, Event.setFg 100, Event.wait 0,
      Event.wait 1, Event.setFg 0, Event.closeFile (bytes "f"), Event.closeFile (bytes "a")],
    0, 1, some "exit status"⟩

/-- The run of the stages `ls` and `cat` in the environment `osKilled`: both
stages are started and waited for, and the exit status returned is -1. -/
def killedLastRun : Run :=
  ⟨[Event.pipe 0,
      Event.start 0 ⟨[bytes "ls"], Stream.inherited, Stream.pipeWrite 0, 0⟩ (some 100),
      Event.closeWriter 0,
      Event.start 1 ⟨[bytes "cat"], Stream.pipeRead 0, Stream.inherited, 100⟩ (some 101),
      Event.closeReader 0, Event.closeWriter 0, Event.setFg 100, Event.wait 0,
      Event.wait 1, Event.setFg 0],
    0, -1, some "signal: killed"⟩

end MiniShell

namespace MiniShell

/-- The event is a write to a stream. -/
def Event.isWrite : Event → Bool
  | Event.write _ _ => true
  | _ => false

/-- The output stream `runBuiltin` resolves for `outFile`. -/
def resolvedOut (outFile : Str) : Stream :=
  if outFile = [] then Stream.inherited else Stream.file outFile

end MiniShell

/-!
# unpackString

A shallow embedding of `src/unpackString/unpack.go`.  The function works on
`[]rune(s)` and returns `string(result)`; a string is given here by its runes
(code points), and so is the result.
-/

namespace UnpackString

/-- The runes of a string: its code points in order. -/
abbrev Runes := List Nat

/-- The runes of a literal. -/
def runes (s : String) : Runes := s.toList.map Char.toNat

/-- The test `strconv.Atoi(string(curr))` succeeds: a one-rune string is a
number exactly when the rune is an ASCII digit `0`..`9` (48..57). -/
def isDigit (curr : Nat) : Bool := decide (48 ≤ curr) && decide (curr ≤ 57)

/-- The number `strconv.Atoi(string(curr))` gives for a digit. -/
def digitValue (curr : Nat) : Int := (curr : Int) - 48

/-- The loop of `unpackString` over the runes still to be read, with the
buffer `result` (92 is the backslash).  The inner loop appends `repeatedRune`
for `j = 0, ..., num - 2`, so not at all when `num` is 0 or 1. -/
def unpackLoop : Runes → Runes → Runes × Option String
  | [], result => (result, none)
  | curr :: rest, result =>
    if isDigit curr then
      match result.getLast? with
      | none => ([], some "invalid input(no letters before digits)")
      | some repeatedRune =>
        if repeatedRune = 92 then
          unpackLoop rest (result.dropLast ++ [curr])
        else
          unpackLoop rest (result ++ List.replicate (digitValue curr - 1).toNat repeatedRune)
    else
      unpackLoop rest (result ++ [curr])

/-- The function `unpackString`: the string returned and the error. -/
def unpackString (s : Runes) : Runes × Option String :=
  if s.length = 0 then (s, none) else unpackLoop s []

/-- The strings of the form `c1 k1 ... cn kn`: each item is a rune `c` with an
optional digit rune `k` after it. -/
def packed : List (Nat × Option Nat) → Runes
  | [] => []
  | (c, none) :: rest => c :: packed rest
  | (c, some k) :: rest => c :: k :: packed rest

/-- The unpacking the specification asks for: each `c` repeated once when no
digit follows it, and as many times as the digit says otherwise. -/
def specUnpack : List (Nat × Option Nat) → Runes
  | [] => []
  | (c, none) :: rest => c :: specUnpack rest
  | (c, some k) :: rest => List.replicate (k - 48) c ++ specUnpack rest

end UnpackString

/-!
# FindAnagrams

A shallow embedding of `src/findAnagramms/main.go`.  The words are Go strings;
all the function does with a word is to compare it with other words and to
take its runes, so the type of the words and the conversion `[]rune(s)` are
parameters.  A Go map is given by the value it holds under each key, if any.
-/

namespace FindAnagramms

/-- The runes of a literal: the conversion `[]rune(s)` on valid UTF-8. -/
def runesOf (s : String) : List Nat := s.toList.map Char.toNat

/-- The assignment `m[k] = v` on a Go map. -/
def mapSet {κ ν : Type} [DecidableEq κ] (m : κ → Option ν) (k : κ) (v : ν) : κ → Option ν :=
  fun x => if x = k then some v else m x

/-- The variable `sortedKey`: the runes of the word sorted into increasing
order by `sort.Slice`.  (The arrangement of a list of numbers in increasing
order is unique, so the sorting algorithm does not matter; the string
`string(sortedRunes)` is given by its runes.) -/
def sortedKey {α : Type} (runes : α → List Nat) (s : α) : List Nat :=
  (runes s).insertionSort (fun a b => a ≤ b)

/-- The two maps of `FindAnagrams`. -/
structure State (α : Type) where
  set : α → Option (List α)
  tempSet : List Nat → Option α

/-- The two maps before the loop: both empty. -/
def State.init {α : Type} : State α := ⟨fun _ => none, fun _ => none⟩

/-- The body of the loop of `FindAnagrams` for the word `s`. -/
def step {α : Type} [DecidableEq α] (runes : α → List Nat) (st : State α) (s : α) : State α :=
  if (runes s).length ≤ 1 then
    st
  else
    match st.tempSet (sortedKey runes s) with
    | some originalKey =>
      match st.set originalKey with
      | some group => { st with set := mapSet st.set originalKey (group ++ [s]) }
      | none => { st with set := mapSet st.set originalKey [s, originalKey] }
    | none => { st with tempSet := mapSet st.tempSet (sortedKey runes s) s }

/-- The function `FindAnagrams`: the map it returns. -/
def FindAnagrams {α : Type} [DecidableEq α] (runes : α → List Nat) (ss : List α) :
    α → Option (List α) :=
  (ss.foldl (step runes) State.init).set

/-! ## The anagram classes of the specification -/

/-- The occurrences in `ss`, in input order, of the words of more than one rune
that have the same multiset of runes as `k`. -/
def occurrences {α : Type} (runes : α → List Nat) (ss : List α) (k : α) : List α :=
  ss.filter (fun w => decide (1 < (runes w).length) && decide ((runes w).Perm (runes k)))

/-- The words of `xs` of more than one rune whose sorted key is `key`. -/
def members {α : Type} (runes : α → List Nat) (xs : List α) (key : List Nat) : List α :=
  xs.filter (fun w => decide (1 < (runes w).length) && decide (sortedKey runes w = key))

/-- What the two maps hold after the words `xs`: `tempSet` has the first member
of each key, and `set` has, under the first member of each key with at least
two members, the members of that key in some order. -/
def Inv {α : Type} (runes : α → List Nat) (xs : List α) (st : State α) : Prop :=
  (∀ key, st.tempSet key = (members runes xs key).head?) ∧
  (∀ k group, st.set k = some group →
    (members runes xs (sortedKey runes k)).head? = some k ∧
    2 ≤ (members runes xs (sortedKey runes k)).length ∧
    group.Perm (members runes xs (sortedKey runes k))) ∧
  (∀ k, st.set k = none →
    ¬((members runes xs (sortedKey runes k)).head? = some k ∧
      2 ≤ (members runes xs (sortedKey runes k)).length))

end FindAnagramms

namespace MiniShell

/-- The outcome of `runPipeline` on the stages `ls` and `nosuchcmd` in the
environment `osStartFails`. -/
def startFailureRun : Run :=
  ⟨[Event.pipe 0,
      Event.start 0 ⟨[bytes "ls"], Stream.inherited, Stream.pipeWrite 0, 0⟩ (some 100),
      Event.closeWriter 0,
      Event.start 1 ⟨[bytes "nosuchcmd"], Stream.pipeRead 0, Stream.inherited, 100⟩ none,
      Event.report "start: executable file not found"],
    0, 1, some "executable file not found"⟩

end MiniShell

namespace MiniShell

/-- The text `ops[0] + segments[1] + ops[1] + segments[2] + ...`, the list
`segs` holding the segments after the first. -/
def reassembleRest : List Str → List Str → Str
  | op :: ops, seg :: segs => op ++ seg ++ reassembleRest ops segs
  | _, _ => []

/-- The text `segments[0] + ops[0] + segments[1] + ... + ops[n-1] + segments[n]`. -/
def reassemble (segments ops : List Str) : Str :=
  match segments with
  | [] => []
  | first :: rest => first ++ reassembleRest ops rest

/-- The split by the flags loses nothing of `s` and records only the two
operators. -/
def FlagReassembles (s : Str) : Prop :=
  ∀ r : Region,
    (flagConditionals r s).1
        ++ reassembleRest ((flagConditionals r s).2.map Prod.fst)
            ((flagConditionals r s).2.map Prod.snd) = s ∧
    ∀ p ∈ (flagConditionals r s).2, p.1 = [38, 38] ∨ p.1 = [124, 124]

end MiniShell

/-!
# calendarServer

A shallow embedding of `src/calendarServer/calendar.go`.  The map
`map[int]*Event` is a finite map from keys to events (each stored pointer
points to a copy owned by the map alone, so the events are taken by value).
Every method holds the mutex for all it does with the calendar, so a method is
one step on the calendar.  A Go `int` is modelled by an unbounded integer: the
only arithmetic is `nextID++`, which is the successor of the integers as long
as `nextID` is below `maxInt`, the largest `int`; from `nextID = 1` it cannot
reach `maxInt` in fewer than 2^63 - 2 calls.  What is stated about one call on
an arbitrary calendar is stated for `nextID < maxInt`.
-/

namespace CalendarServer

/-- A Go string: its bytes in order. -/
abbrev Str := List Nat

/-- The bytes of an ASCII literal (one byte per character). -/
def bytes (s : String) : Str := s.toList.map Char.toNat

/-- The type `Event`. -/
structure Event where
  ID : Int
  UserID : Str
  Title : Str
  Description : Str
  Date : Str
deriving DecidableEq, Repr

/-- The type `Calendar` (without its mutex). -/
structure Calendar where
  events : AList (fun _ : Int => Event)
  nextID : Int

/-- The largest value of a Go `int` (64 bits). -/
def maxInt : Int := 2 ^ 63 - 1

/-- The calendar of `main` and of the tests: no events, `nextID: 1`. -/
def Calendar.fresh : Calendar := ⟨∅, 1⟩

/-- The method `CreateEvent`: the calendar after the call, the id and the error.
The statement `c.nextID++` is the successor for `c.nextID < maxInt`; at
`maxInt` the code wraps to the smallest `int`, which this definition does not
follow. -/
def CreateEvent (c : Calendar) (event : Event) : Calendar × Int × Option String :=
  if event.UserID = [] then
    (c, 0, some "user ID is required")
  else
    (⟨c.events.insert c.nextID { event with ID := c.nextID }, c.nextID + 1⟩, c.nextID, none)

/-- The method `UpdateEvent`: the calendar after the call and the error. -/
def UpdateEvent (c : Calendar) (event : Event) : Calendar × Option String :=
  if event.ID = 0 then
    (c, some "event ID is required")
  else
    match c.events.lookup event.ID with
    | none => (c, some "event not found")
    | some _ => (⟨c.events.insert event.ID event, c.nextID⟩, none)

/-- The method `DeleteEvent`: the calendar after the call and the error. -/
def DeleteEvent (c : Calendar) (id : Int) : Calendar × Option String :=
  match c.events.lookup id with
  | none => (c, some "event not found")
  | some _ => (⟨c.events.erase id, c.nextID⟩, none)

/-- A call of one of the three methods that change the calendar. -/
inductive Call where
  | create (event : Event)
  | update (event : Event)
  | delete (id : Int)
deriving DecidableEq, Repr

/-- The calendar after a call. -/
def Calendar.after (c : Calendar) : Call → Calendar
  | Call.create event => (CreateEvent c event).1
  | Call.update event => (UpdateEvent c event).1
  | Call.delete id => (DeleteEvent c id).1

/-- The calendar after a sequence of calls. -/
def Calendar.afterAll (c : Calendar) (calls : List Call) : Calendar :=
  calls.foldl Calendar.after c

/-- The ids returned by the successful calls of `CreateEvent` in a sequence of
calls made from the calendar `c`, in order. -/
def returnedIds : Calendar → List Call → List Int
  | _, [] => []
  | c, Call.create event :: rest =>
    match (CreateEvent c event).2.2 with
    | none => (CreateEvent c event).2.1 :: returnedIds (CreateEvent c event).1 rest
    | some _ => returnedIds (CreateEvent c event).1 rest
  | c, call :: rest => returnedIds (c.after call) rest

/-- Every stored key is at least 1 and below `nextID`, and the event stored
under a key has that key as its ID. -/
def Calendar.wellFormed (c : Calendar) : Prop :=
  ∀ k e, c.events.lookup k = some e → 1 ≤ k ∧ k < c.nextID ∧ e.ID = k

end CalendarServer


/-!
# unixSort: the comparison of two keys

A shallow embedding of `compareKeys`, `monthValue`, `parseHuman` and
`parseNumeric` of `src/unixSort/main.go`.  The type `float64`, its `<` and
`*`, and the library functions `strconv.ParseFloat` and `strings.TrimSpace`
are parameters of the embedding, collected in `Lib`; `strings.TrimRight`,
the comparison of strings and the lowering of ASCII letters are defined here.
-/

namespace UnixSort

/-- A Go string: its bytes in order. -/
abbrev Str := List Nat

/-- The bytes of an ASCII literal (one byte per character). -/
def bytes (s : String) : Str := s.toList.map Char.toNat

/-- The fields of `SortFlags` that `compareKeys` reads, and the others. -/
structure SortFlags where
  Column : Int
  Numeric : Bool
  Reverse : Bool
  Unique : Bool
  Month : Bool
  IgnoreWS : Bool
  Check : Bool
  HumanNum : Bool
  File : Str
deriving DecidableEq, Repr

/-- What the functions use of the Go library: the type `V` stands for
`float64`. -/
structure Lib (V : Type) where
  /-- The function `strings.TrimSpace`. -/
  trimSpace : Str → Str
  /-- The function `strconv.ParseFloat(s, 64)`; `none` is an error. -/
  parseFloat : Str → Option V
  /-- The product of two `float64` values. -/
  mul : V → V → V
  /-- The constant `1eN` of type `float64` (`pow10 0` is `1.0`). -/
  pow10 : Nat → V
  /-- The comparison `x < y` of two `float64` values; `x > y` is `lt y x`. -/
  lt : V → V → Bool

/-- The library function `strings.TrimRight(s, " \t")`: the trailing spaces and
tabs are removed. -/
def trimRight (s : Str) : Str :=
  (s.reverse.dropWhile (fun c => c = 32 || c = 9)).reverse

/-- One byte of `strings.ToLower`: an ASCII capital becomes the small letter.
(On a string with a byte outside ASCII the library lowers runes; no result of
that is one of the twelve month names unless the ASCII bytes alone give it, as
no month name has an `i` or a `k`, the only ASCII letters that are the lower
case of a rune outside ASCII.) -/
def toLowerByte (c : Nat) : Nat := if 65 ≤ c ∧ c ≤ 90 then c + 32 else c

/-- One byte of `strings.ToUpper`, applied to an ASCII letter only. -/
def toUpperByte (c : Nat) : Nat := if 97 ≤ c ∧ c ≤ 122 then c - 32 else c

/-- The comparison `a < b` of two Go strings: byte by byte, a proper beginning
of a string being smaller than the string. -/
def strLt : Str → Str → Bool
  | [], [] => false
  | [], _ :: _ => true
  | _ :: _, [] => false
  | x :: xs, y :: ys => if x < y then true else if y < x then false else strLt xs ys

/-! ## parseNumeric, parseHuman, monthValue (main.go, lines 93-181) -/

/-- The function `parseNumeric`; `none` is the result `(0, false)`. -/
def parseNumeric {V : Type} (L : Lib V) (s : Str) : Option V :=
  let s := L.trimSpace s
  if s = [] then none
  else
    match L.parseFloat s with
    | some v => some v
    | none => none

/-- The function `parseHuman`; `none` is the result `(0, false)`. -/
def parseHuman {V : Type} (L : Lib V) (s : Str) : Option V :=
  let s := L.trimSpace s
  if s = [] then none
  else
    let n := s.length
    let last := s.getLast?.getD 0
    let bm : Str × V :=
      if (97 ≤ last ∧ last ≤ 122) ∨ (65 ≤ last ∧ last ≤ 90) then
        if toUpperByte last = 75 then (L.trimSpace (s.take (n - 1)), L.pow10 3)
        else if toUpperByte last = 77 then (L.trimSpace (s.take (n - 1)), L.pow10 6)
        else if toUpperByte last = 71 then (L.trimSpace (s.take (n - 1)), L.pow10 9)
        else if toUpperByte last = 84 then (L.trimSpace (s.take (n - 1)), L.pow10 12)
        else (s, L.pow10 0)
      else (s, L.pow10 0)
    match L.parseFloat bm.1 with
    | some v => some (L.mul v bm.2)
    | none => none

/-- The function `monthValue`; `none` is the result `(0, false)`. -/
def monthValue {V : Type} (L : Lib V) (s : Str) : Option Int :=
  let s := L.trimSpace s
  if s = [] then none
  else
    let s := if 3 ≤ s.length then s.take 3 else s
    let l := s.map toLowerByte
    if l = bytes "jan" then some 1
    else if l = bytes "feb" then some 2
    else if l = bytes "mar" then some 3
    else if l = bytes "apr" then some 4
    else if l = bytes "may" then some 5
    else if l = bytes "jun" then some 6
    else if l = bytes "jul" then some 7
    else if l = bytes "aug" then some 8
    else if l = bytes "sep" then some 9
    else if l = bytes "oct" then some 10
    else if l = bytes "nov" then some 11
    else if l = bytes "dec" then some 12
    else none

/-! ## compareKeys (main.go, lines 183-241) -/

/-- The key that `compareKeys` compares: with `-b` the trailing spaces and tabs
are removed first (lines 186-189). -/
def trimmedKey (flags : SortFlags) (a : Str) : Str :=
  if flags.IgnoreWS then trimRight a else a

/-- The block of the `Month` flag (lines 192-204): the result it returns, or
`none` when control passes below it. -/
def byMonth {V : Type} (L : Lib V) (flags : SortFlags) (a b : Str) : Option Int :=
  if flags.Month then
    match monthValue L a, monthValue L b with
    | some ma, some mb => some (if ma < mb then -1 else if ma > mb then 1 else 0)
    | _, _ => none
  else none

/-- The block of the `HumanNum` flag (lines 206-218). -/
def byHuman {V : Type} (L : Lib V) (flags : SortFlags) (a b : Str) : Option Int :=
  if flags.HumanNum then
    match parseHuman L a, parseHuman L b with
    | some va, some vb => some (if L.lt va vb then -1 else if L.lt vb va then 1 else 0)
    | _, _ => none
  else none

/-- The block of the `Numeric` flag (lines 220-232). -/
def byNumeric {V : Type} (L : Lib V) (flags : SortFlags) (a b : Str) : Option Int :=
  if flags.Numeric then
    match parseNumeric L a, parseNumeric L b with
    | some va, some vb => some (if L.lt va vb then -1 else if L.lt vb va then 1 else 0)
    | _, _ => none
  else none

/-- The function `compareKeys`: the first block that returns decides, and the
comparison of the strings is last. -/
def compareKeys {V : Type} (L : Lib V) (a b : Str) (flags : SortFlags) : Int :=
  let a := trimmedKey flags a
  let b := trimmedKey flags b
  match byMonth L flags a b with
  | some r => r
  | none =>
    match byHuman L flags a b with
    | some r => r
    | none =>
      match byNumeric L flags a b with
      | some r => r
      | none => if strLt a b then -1 else if strLt b a then 1 else 0

/-- A library for evaluating `compareKeys` on ASCII keys under the `Month`
flag: `strings.TrimSpace` as modelled for miniShell, and integers written in
decimal digits in place of `float64`. -/
def asciiLib : Lib Int where
  trimSpace := MiniShell.trimSpace
  parseFloat := fun s =>
    if s ≠ [] ∧ s.all (fun c => decide (48 ≤ c ∧ c ≤ 57)) = true then
      some (s.foldl (fun n c => 10 * n + ((c : Int) - 48)) 0)
    else none
  mul := fun x y => x * y
  pow10 := fun n => 10 ^ n
  lt := fun x y => decide (x < y)

/-- The flags with only `Month` set. -/
def monthOnly : SortFlags :=
  ⟨0, false, false, false, true, false, false, false, []⟩

end UnixSort


namespace UnixSort

/-- The rule `p` recognises all of the keys `a`, `b`, `c` or none of them. -/
def AllOrNone {β : Type} (p : Str → Option β) (a b c : Str) : Prop :=
  (p a).isSome = (p b).isSome ∧ (p b).isSome = (p c).isSome

/-- The comparison `lt` does not separate `x` and `z` without separating one
of them from `y`, on the values that `p` gives for the keys `a`, `b`, `c`
(for `float64` this holds when none of the three values is a NaN). -/
def OrderedOn {V : Type} (lt : V → V → Bool) (p : Str → Option V) (a b c : Str) : Prop :=
  ∀ x y z, p a = some x → p b = some y → p c = some z →
    lt z x = true → lt z y = true ∨ lt y x = true

/-- The outcomes of one block on the three pairs of keys: three results of
which the third is at most 0 when the first two are, or no result at all. -/
def BlockTrans (r1 r2 r3 : Option Int) : Prop :=
  (∃ x y z, r1 = some x ∧ r2 = some y ∧ r3 = some z ∧ (x ≤ 0 → y ≤ 0 → z ≤ 0)) ∨
  (r1 = none ∧ r2 = none ∧ r3 = none)

end UnixSort



namespace CalendarServer

/-! ## The dates of the library `time`

The queries use `time.Parse`, `time.Date`, `Time.AddDate` and `Time.Format`
with the layout `2006-01-02` only, so a `time.Time` is modelled by its civil
date in the proleptic Gregorian calendar (the time of day is always 0 and the
location UTC). -/

/-- A `time.Time` at midnight UTC: its year, month and day. -/
structure Time where
  year : Int
  month : Int
  day : Int
deriving DecidableEq, Repr

/-- Leap years of the Gregorian calendar. -/
def isLeap (y : Int) : Bool := y % 4 = 0 && (y % 100 != 0 || y % 400 = 0)

/-- The number of days of month `m` of year `y`. -/
def daysIn (y m : Int) : Int :=
  if m = 2 then (if isLeap y then 29 else 28)
  else if m = 4 ∨ m = 6 ∨ m = 9 ∨ m = 11 then 30
  else 31

/-- The day after `t`. -/
def nextDay (t : Time) : Time :=
  if t.day < daysIn t.year t.month then ⟨t.year, t.month, t.day + 1⟩
  else if t.month < 12 then ⟨t.year, t.month + 1, 1⟩
  else ⟨t.year + 1, 1, 1⟩

/-- The day before `t`. -/
def prevDay (t : Time) : Time :=
  if 1 < t.day then ⟨t.year, t.month, t.day - 1⟩
  else if 1 < t.month then ⟨t.year, t.month - 1, daysIn t.year (t.month - 1)⟩
  else ⟨t.year - 1, 12, 31⟩

/-- The day `n` days after `t` (before `t` when `n` is negative). -/
def shiftDays (t : Time) (n : Int) : Time :=
  if 0 ≤ n then Nat.iterate nextDay n.toNat t else Nat.iterate prevDay (-n).toNat t

/-- The library function `time.Date(y, m, d, 0, 0, 0, 0, time.UTC)`: a month
outside 1..12 carries into the year, then a day outside the month carries into
the months (October 32 is November 1, and day 0 is the last day of the month
before). -/
def timeDate (y m d : Int) : Time :=
  shiftDays ⟨y + (m - 1) / 12, (m - 1) % 12 + 1, 1⟩ (d - 1)

/-- The method `Time.AddDate`: the three numbers are added to the year, the
month and the day, and the result is normalised as `time.Date` does. -/
def Time.AddDate (t : Time) (years months days : Int) : Time :=
  timeDate (t.year + years) (t.month + months) (t.day + days)

/-- An ASCII digit. -/
def isDigit (c : Nat) : Bool := decide (48 ≤ c) && decide (c ≤ 57)

/-- The value of two ASCII digits. -/
def num2 (a b : Nat) : Int := 10 * ((a : Int) - 48) + ((b : Int) - 48)

/-- The library function `time.Parse("2006-01-02", s)`; `none` is an error.
The string has four digits, a hyphen, two digits, a hyphen and two digits, and
nothing else; the month is in 1..12 and the day in the month. -/
def timeParse : Str → Option Time
  | [y1, y2, y3, y4, h1, m1, m2, h2, d1, d2] =>
    if isDigit y1 && isDigit y2 && isDigit y3 && isDigit y4 && isDigit m1 && isDigit m2
        && isDigit d1 && isDigit d2 && decide (h1 = 45) && decide (h2 = 45) then
      let y := 100 * num2 y1 y2 + num2 y3 y4
      let m := num2 m1 m2
      let d := num2 d1 d2
      if 1 ≤ m ∧ m ≤ 12 ∧ 1 ≤ d ∧ d ≤ daysIn y m then some ⟨y, m, d⟩ else none
    else none
  | _ => none

/-- The decimal digits of `n`, at most `fuel` of them. -/
def decimalFuel : Nat → Nat → Str
  | 0, _ => []
  | fuel + 1, n => if n < 10 then [48 + n] else decimalFuel fuel (n / 10) ++ [48 + n % 10]

/-- The helper `appendInt` of the library `time`: the decimal digits of `x`,
with zeros in front up to `width` digits, after a minus sign when `x` is
negative. -/
def appendInt (x : Int) (width : Nat) : Str :=
  let ds := decimalFuel (x.natAbs + 1) x.natAbs
  (if x < 0 then [45] else []) ++ List.replicate (width - ds.length) 48 ++ ds

/-- The method `Time.Format("2006-01-02")`. -/
def Time.Format (t : Time) : Str :=
  appendInt t.year 4 ++ [45] ++ appendInt t.month 2 ++ [45] ++ appendInt t.day 2

/-! ## The queries (calendar.go, lines 93-141) -/

/-- The comparison `a <= b` of two Go strings. -/
def strLe (a b : Str) : Bool := !UnixSort.strLt b a

/-- The events of the map in the order of the loop `for _, event := range
c.events`.  The order of such a loop is not fixed by the language; the model
takes the order of the entries, and the statements about the result hold for
the events returned whatever their order. -/
def Calendar.stored (c : Calendar) : List Event :=
  c.events.entries.map (fun kv => kv.2)

/-- The method `GetEventsForWeek`: the slice returned (empty when it is `nil`)
and the error. -/
def GetEventsForWeek (c : Calendar) (date userID : Str) : List Event × Option String :=
  match timeParse date with
  | none => ([], some "invalid date format")
  | some startDate =>
    let endDate := startDate.AddDate 0 0 6
    let endDateStr := endDate.Format
    (c.stored.filter (fun event =>
        decide (event.UserID = userID) && strLe date event.Date && strLe event.Date endDateStr),
      none)

/-- The method `GetEventsForMonth`: the slice returned (empty when it is
`nil`) and the error. -/
def GetEventsForMonth (c : Calendar) (date userID : Str) : List Event × Option String :=
  match timeParse date with
  | none => ([], some "invalid date format")
  | some startDate =>
    let firstOfMonth := timeDate startDate.year startDate.month 1
    let lastOfMonth := firstOfMonth.AddDate 0 1 (-1)
    let startDateStr := firstOfMonth.Format
    let endDateStr := lastOfMonth.Format
    (c.stored.filter (fun event =>
        decide (event.UserID = userID) && strLe startDateStr event.Date
          && strLe event.Date endDateStr),
      none)

end CalendarServer



namespace CalendarServer

/-- The string `YYYY-MM-DD` of a year below 10000, a month and a day below
100, digit by digit. -/
def dateStr (y m d : Nat) : Str :=
  [48 + y / 1000, 48 + y / 100 % 10, 48 + y / 10 % 10, 48 + y % 10, 45,
    48 + m / 10, 48 + m % 10, 45, 48 + d / 10, 48 + d % 10]

/-- The event date `s` is a valid date of the year and month of `t`. -/
def inMonthOf (t : Time) (s : Str) : Bool :=
  match timeParse s with
  | some te => decide (te.year = t.year ∧ te.month = t.month)
  | none => false

end CalendarServer


namespace CalendarServer

/-- The calendar of `TestGetEventsForMonth`: five events created on the fresh
calendar. -/
def monthTestCalendar : Calendar :=
  Calendar.fresh.afterAll
    [Call.create ⟨0, bytes "user1", bytes "Dec 1", [], bytes "2023-12-01"⟩,
      Call.create ⟨0, bytes "user1", bytes "Dec 15", [], bytes "2023-12-15"⟩,
      Call.create ⟨0, bytes "user1", bytes "Dec 31", [], bytes "2023-12-31"⟩,
      Call.create ⟨0, bytes "user1", bytes "Jan 1", [], bytes "2024-01-01"⟩,
      Call.create ⟨0, bytes "user2", bytes "Other User", [], bytes "2023-12-15"⟩]

/-- The calendar of `TestGetEventsForWeek`. -/
def weekTestCalendar : Calendar :=
  Calendar.fresh.afterAll
    [Call.create ⟨0, bytes "user1", bytes "Day 1", [], bytes "2023-12-31"⟩,
      Call.create ⟨0, bytes "user1", bytes "Day 3", [], bytes "2024-01-02"⟩,
      Call.create ⟨0, bytes "user1", bytes "Day 7", [], bytes "2024-01-06"⟩,
      Call.create ⟨0, bytes "user1", bytes "Day 8", [], bytes "2024-01-07"⟩,
      Call.create ⟨0, bytes "user2", bytes "Other User", [], bytes "2024-01-02"⟩]

/-- A calendar with one event of `user1` on 26 December 9999. -/
def yearEndCalendar : Calendar :=
  Calendar.fresh.afterAll
    [Call.create ⟨0, bytes "user1", bytes "Last week", [], bytes "9999-12-26"⟩]

end CalendarServer



namespace CalendarServer

/-- A date of the calendar: the month is in 1..12 and the day in the month. -/
def Time.valid (t : Time) : Prop :=
  0 ≤ t.year ∧ 1 ≤ t.month ∧ t.month ≤ 12 ∧ 1 ≤ t.day ∧ t.day ≤ daysIn t.year t.month

/-- A number that orders the dates as the calendar does. -/
def Time.key (t : Time) : Int := t.year * 10000 + t.month * 100 + t.day

/-- The event date `s` is one of the 7 days that start with the day `t`. -/
def inWeekOf (t : Time) (s : Str) : Bool :=
  match timeParse s with
  | some te => decide (te ∈ (List.range 7).map (fun (i : Nat) => shiftDays t (i : Int)))
  | none => false

end CalendarServer


/-! # Theorems -/

namespace MiniShell

/-! ## Lemmas on splitArgs -/

theorem splitArgsLoop_cons (st : ArgState) (c : Nat) (s : Str) :
    splitArgsLoop st (c :: s) = splitArgsLoop (splitArgsStep st c) s := rfl

theorem splitArgsLoop_append (st : ArgState) (s t : Str) :
    splitArgsLoop st (s ++ t) = splitArgsLoop (splitArgsLoop st s) t := by
  simp [splitArgsLoop, List.foldl_append]

/-- Inside a quoted region opened by the byte `d`, bytes other than the
backslash and `d` are appended to the current token. -/
theorem splitArgsLoop_inside (d : Nat) (hd : d = 39 ∨ d = 34) (q : Str)
    (hq : ∀ c ∈ q, c ≠ 92 ∧ c ≠ d) (res : List Str) (cur : Str) :
    splitArgsLoop ⟨res, cur, decide (d = 39), decide (d = 34), false⟩ q
      = ⟨res, cur ++ q, decide (d = 39), decide (d = 34), false⟩ := by
  induction q generalizing cur with
  | nil => simp [splitArgsLoop]
  | cons c q ih =>
    have hc := hq c (List.mem_cons_self c q)
    have hq2 : ∀ x ∈ q, x ≠ 92 ∧ x ≠ d := fun x hx => hq x (List.mem_cons_of_mem c hx)
    rw [splitArgsLoop_cons]
    have hstep : splitArgsStep ⟨res, cur, decide (d = 39), decide (d = 34), false⟩ c
        = ⟨res, cur ++ [c], decide (d = 39), decide (d = 34), false⟩ := by
      rcases hd with rfl | rfl
      · simp [splitArgsStep, hc.1, hc.2]
      · simp [splitArgsStep, hc.1, hc.2]
    rw [hstep, ih hq2]
    simp

/-- An unescaped backslash and the byte after it: the byte joins the current
token and nothing else changes. -/
theorem splitArgsStep_escape (st : ArgState) (c : Nat) (h : st.esc = false) :
    splitArgsStep (splitArgsStep st 92) c = { st with cur := st.cur ++ [c] } := by
  obtain ⟨res, cur, inSq, inDq, esc⟩ := st
  simp only at h
  subst h
  simp [splitArgsStep]

/-- One unescaped byte other than the backslash moves the flags of `splitArgs`
the way the specification moves the region. -/
theorem splitArgsStep_region (st : ArgState) (c : Nat) (h : st.esc = false) (hc : c ≠ 92)
    (hx : st.inSq = true → st.inDq = false) :
    (splitArgsStep st c).esc = false ∧ (splitArgsStep st c).region = st.region.next c ∧
      ((splitArgsStep st c).inSq = true → (splitArgsStep st c).inDq = false) := by
  obtain ⟨res, cur, inSq, inDq, esc⟩ := st
  simp only at h hx
  subst h
  cases inSq <;> cases inDq <;> simp at hx <;>
    by_cases h39 : c = 39 <;> by_cases h34 : c = 34 <;>
    by_cases h32 : c = 32 <;> by_cases h9 : c = 9 <;>
    simp_all [splitArgsStep, ArgState.region, Region.next] <;>
    split <;> simp

theorem regionAgrees_nil : RegionAgrees [] := by
  intro st _ hx
  exact ⟨by simp [splitArgsLoop, specRegionAfter], by simpa [splitArgsLoop] using hx⟩

theorem regionAgrees_single (c : Nat) : RegionAgrees [c] := by
  intro st he hx
  by_cases hc : c = 92
  · subst hc
    obtain ⟨res, cur, inSq, inDq, esc⟩ := st
    simp only at he hx
    subst he
    refine ⟨?_, ?_⟩
    · simp [splitArgsLoop, splitArgsStep, specRegionAfter, ArgState.region]
    · simpa [splitArgsLoop, splitArgsStep] using hx
  · have h := splitArgsStep_region st c he hc hx
    refine ⟨?_, ?_⟩
    · simpa [splitArgsLoop, specRegionAfter, hc] using h.2.1
    · simpa [splitArgsLoop] using h.2.2

theorem regionAgrees_cons_cons (c d : Nat) (rest : Str) (h0 : RegionAgrees rest)
    (h1 : RegionAgrees (d :: rest)) : RegionAgrees (c :: d :: rest) := by
  intro st he hx
  by_cases hc : c = 92
  · subst hc
    rw [splitArgsLoop_cons, splitArgsLoop_cons, splitArgsStep_escape st d he]
    have h := h0 { st with cur := st.cur ++ [d] } he hx
    simpa [specRegionAfter, ArgState.region] using h
  · have h := splitArgsStep_region st c he hc hx
    rw [splitArgsLoop_cons]
    have h2 := h1 (splitArgsStep st c) h.1 h.2.2
    rw [h.2.1] at h2
    simpa [specRegionAfter, hc] using h2

/-- The flags of `splitArgs` are never both set, and they follow the regions
of the specification. -/
theorem splitArgsLoop_region (s : Str) : RegionAgrees s := by
  have key : RegionAgrees s ∧ ∀ c, RegionAgrees (c :: s) := by
    induction s with
    | nil => exact ⟨regionAgrees_nil, regionAgrees_single⟩
    | cons d rest ih => exact ⟨ih.2 d, fun c => regionAgrees_cons_cons c d rest ih.1 (ih.2 d)⟩
  exact key.1

/-- The tokens of a string that is one quoted region. -/
theorem splitArgs_one_region (d : Nat) (hd : d = 39 ∨ d = 34) (q : Str) (hne : q ≠ [])
    (hq : ∀ c ∈ q, c ≠ 92 ∧ c ≠ d) : splitArgs ([d] ++ q ++ [d]) = ([q], none) := by
  have h1 : splitArgsStep ArgState.init d = ⟨[], [], decide (d = 39), decide (d = 34), false⟩ := by
    rcases hd with rfl | rfl <;> simp [splitArgsStep, ArgState.init]
  have h2 : splitArgsStep ⟨[], [] ++ q, decide (d = 39), decide (d = 34), false⟩ d
      = ⟨[], q, false, false, false⟩ := by
    rcases hd with rfl | rfl <;> simp [splitArgsStep]
  have hl : splitArgsLoop ArgState.init ([d] ++ q ++ [d]) = ⟨[], q, false, false, false⟩ := by
    rw [List.append_assoc, List.singleton_append, splitArgsLoop_cons, h1, splitArgsLoop_append,
      splitArgsLoop_inside d hd q hq, splitArgsLoop_cons, h2]
    rfl
  have hlen : 0 < q.length := List.length_pos.mpr hne
  simp only [splitArgs, hl]
  simp [hlen]

/-- C1: `splitArgs` keeps quoted text in one token and strips the quotes.  For a
quote byte `d` (single quote 39 or double quote 34) and a non-empty `q` with no
backslash and no byte `d`, the string `d q d` gives exactly the token `q`; and
`echo 'a b' "c d" e` gives `echo`, `a b`, `c d`, `e` with no error. -/
theorem splitArgs_quoted_token (d : Nat) (hd : d = 39 ∨ d = 34) (q : Str) (hne : q ≠ [])
    (hq : ∀ c ∈ q, c ≠ 92 ∧ c ≠ d) :
    splitArgs ([d] ++ q ++ [d]) = ([q], none) ∧
    splitArgs (bytes "echo 'a b' \"c d\" e")
      = ([bytes "echo", bytes "a b", bytes "c d", bytes "e"], none) :=
  ⟨splitArgs_one_region d hd q hne hq, by decide⟩

/-- C1 at the single-quoted text `a "b<tab>c`: spaces, tabs and double quotes stay. -/
theorem splitArgs_quoted_token_witness :
    splitArgs ([39] ++ [97, 32, 34, 98, 9, 99] ++ [39]) = ([[97, 32, 34, 98, 9, 99]], none) ∧
    splitArgs (bytes "echo 'a b' \"c d\" e")
      = ([bytes "echo", bytes "a b", bytes "c d", bytes "e"], none) :=
  splitArgs_quoted_token 39 (Or.inl rfl) [97, 32, 34, 98, 9, 99] (by decide) (by decide)

/-- The error of `splitArgs` is decided by the two quote flags at the end of the loop. -/
theorem splitArgs_err_isSome (s : Str) :
    (splitArgs s).2.isSome
      = ((splitArgsLoop ArgState.init s).inSq || (splitArgsLoop ArgState.init s).inDq) := by
  unfold splitArgs
  generalize splitArgsLoop ArgState.init s = st
  by_cases h : (st.inSq || st.inDq) = true
  · simp [h]
  · by_cases hl : st.cur.length > 0
    · simp only [h, hl]
      simp
    · simp only [h, hl]
      simp

/-- When `splitArgs` fails it returns no tokens. -/
theorem splitArgs_err_tokens (s : Str) (he : (splitArgs s).2.isSome = true) :
    (splitArgs s).1 = [] := by
  unfold splitArgs at he ⊢
  generalize splitArgsLoop ArgState.init s = st at he ⊢
  by_cases h : (st.inSq || st.inDq) = true
  · simp [h]
  · by_cases hl : st.cur.length > 0
    · simp only [h, hl] at he
      simp at he
    · simp only [h, hl] at he
      simp at he

/-- C2: `splitArgs` fails exactly when the scan of the text ends inside a quoted
region of the specification (a quote after an unescaped backslash delimiting
nothing), and then it returns no tokens; `echo "abc` fails and the empty string
gives zero tokens and no error. -/
theorem splitArgs_error_iff_open_region (s : Str) :
    ((splitArgs s).2.isSome = true ↔ specRegionAfter Region.outside s ≠ Region.outside) ∧
    ((splitArgs s).2.isSome = true → (splitArgs s).1 = []) ∧
    splitArgs (bytes "echo \"abc") = ([], some "unclosed quote") ∧
    splitArgs [] = ([], none) := by
  have h := splitArgsLoop_region s ArgState.init rfl (by simp [ArgState.init])
  have hr : ArgState.init.region = Region.outside := rfl
  rw [hr] at h
  refine ⟨?_, splitArgs_err_tokens s, by decide, by decide⟩
  rw [← h.1, splitArgs_err_isSome]
  generalize splitArgsLoop ArgState.init s = st
  obtain ⟨res, cur, inSq, inDq, esc⟩ := st
  cases inSq <;> cases inDq <;> simp [ArgState.region]

/-- C2 at `echo "abc`: the scan ends inside a double-quoted region, the call
fails and returns no tokens. -/
theorem splitArgs_error_iff_open_region_witness :
    specRegionAfter Region.outside (bytes "echo \"abc") = Region.double ∧
    (splitArgs (bytes "echo \"abc")).2.isSome = true ∧
    (splitArgs (bytes "echo \"abc")).1 = [] :=
  ⟨by decide, by decide,
    (splitArgs_error_iff_open_region (bytes "echo \"abc")).2.1 (by decide)⟩

/-- C3: in `splitArgs` an unescaped backslash is dropped and the byte after it
joins the current token, in every quote state and for every byte: if the scan
of `p` from any state ends unescaped, then scanning `p`, a backslash, `c` and
`t` is scanning `t` from the state after `p` with `c` appended to the token.
So `echo a\ b` gives `echo`, `a b`, and `"a\"b c"` gives the one token `a"b c`. -/
theorem splitArgs_backslash_literal (st : ArgState) (p t : Str) (c : Nat)
    (h : (splitArgsLoop st p).esc = false) :
    splitArgsLoop st (p ++ 92 :: c :: t)
      = splitArgsLoop
          { splitArgsLoop st p with cur := (splitArgsLoop st p).cur ++ [c] } t ∧
    splitArgs (bytes "echo a\\ b") = ([bytes "echo", bytes "a b"], none) ∧
    splitArgs (bytes "\"a\\\"b c\"") = ([bytes "a\"b c"], none) := by
  refine ⟨?_, by decide, by decide⟩
  rw [splitArgsLoop_append, splitArgsLoop_cons, splitArgsLoop_cons,
    splitArgsStep_escape _ c h]

/-- C3 inside a double-quoted region: after `"a`, an escaped double quote is
appended and the region stays open. -/
theorem splitArgs_backslash_literal_witness :
    (splitArgsLoop ArgState.init (bytes "\"a")).esc = false ∧
    splitArgsLoop ArgState.init (bytes "\"a" ++ 92 :: 34 :: bytes "b c\"")
      = splitArgsLoop ⟨[], bytes "a\"", false, true, false⟩ (bytes "b c\"") ∧
    splitArgs (bytes "echo a\\ b") = ([bytes "echo", bytes "a b"], none) ∧
    splitArgs (bytes "\"a\\\"b c\"") = ([bytes "a\"b c"], none) :=
  ⟨by decide, splitArgs_backslash_literal ArgState.init (bytes "\"a") (bytes "b c\"") 34
    (by decide)⟩

/-! ## Lemmas on parseCommand -/

theorem parseAgrees_nil : ParseAgrees [] := by
  intro st
  simp [specTrailingOp, parseCommandLoop, specArgs, specRedirs, fileOf]

theorem parseAgrees_single (t : Str) : ParseAgrees [t] := by
  intro st
  by_cases h62 : t = [62]
  · subst h62
    simp [specTrailingOp, parseCommandLoop, isRedirOp]
  · by_cases h60 : t = [60]
    · subst h60
      simp [specTrailingOp, parseCommandLoop, isRedirOp]
    · simp [specTrailingOp, parseCommandLoop, isRedirOp, h62, h60, specArgs, specRedirs, fileOf]

theorem parseAgrees_cons_cons (t f : Str) (rest : List Str) (h0 : ParseAgrees rest)
    (h1 : ParseAgrees (f :: rest)) : ParseAgrees (t :: f :: rest) := by
  intro st
  by_cases h62 : t = [62]
  · subst h62
    have h := h0 { st with outFile := f }
    simpa [specTrailingOp, parseCommandLoop, isRedirOp, specArgs, specRedirs, fileOf] using h
  · by_cases h60 : t = [60]
    · subst h60
      have h := h0 { st with inFile := f }
      simpa [specTrailingOp, parseCommandLoop, isRedirOp, specArgs, specRedirs, fileOf] using h
    · have h := h1 { st with clean := st.clean ++ [t] }
      simpa [specTrailingOp, parseCommandLoop, isRedirOp, specArgs, specRedirs, fileOf, h62,
        h60] using h

/-- The loop of `parseCommand` computes the arguments and redirections of the
specification, and fails exactly on a trailing operator. -/
theorem parseCommandLoop_agrees (toks : List Str) : ParseAgrees toks := by
  have key : ParseAgrees toks ∧ ∀ t, ParseAgrees (t :: toks) := by
    induction toks with
    | nil => exact ⟨parseAgrees_nil, parseAgrees_single⟩
    | cons f rest ih => exact ⟨ih.2 f, fun t => parseAgrees_cons_cons t f rest ih.1 (ih.2 f)⟩
  exact key.1

theorem parseCommandLoop_word (t : Str) (rest : List Str) (st : ParseState)
    (h : t ≠ [60] ∧ t ≠ [62]) :
    parseCommandLoop (t :: rest) st = parseCommandLoop rest { st with clean := st.clean ++ [t] } := by
  cases rest <;> simp [parseCommandLoop, h.1, h.2]

theorem parseCommandLoop_words (xs rest : List Str) (h : ∀ t ∈ xs, t ≠ [60] ∧ t ≠ [62]) :
    ∀ st : ParseState,
      parseCommandLoop (xs ++ rest) st = parseCommandLoop rest { st with clean := st.clean ++ xs } := by
  induction xs with
  | nil => intro st; simp
  | cons t xs ih =>
    intro st
    have ht := h t (List.mem_cons_self t xs)
    have hxs : ∀ x ∈ xs, x ≠ [60] ∧ x ≠ [62] := fun x hx => h x (List.mem_cons_of_mem t hx)
    rw [List.cons_append, parseCommandLoop_word t (xs ++ rest) st ht, ih hxs]
    simp

theorem parseCommand_of_tokens (cmd : Str) (T : List Str) (hT : splitArgs cmd = (T, none)) :
    parseCommand cmd = parseCommandLoop T { clean := [], inFile := [], outFile := [] } := by
  simp [parseCommand, hT]

theorem parseCommand_of_error (cmd : Str) (T : List Str) (e : String)
    (hT : splitArgs cmd = (T, some e)) :
    parseCommand cmd = { args := [], inFile := [], outFile := [], err := some e } := by
  simp [parseCommand, hT]

/-- C4: when the text tokenizes to `T` and `parseCommand` succeeds, its args
are the tokens of `T` left after taking out each operator `<` or `>` met in the
left-to-right scan together with the token after it, in their order, and
inFile and outFile are the tokens consumed by `<` and by `>`.  In particular,
for token lists `xs` and `ys` without operators and any token `f`, the tokens
`xs ++ [">", f] ++ ys` give args `xs ++ ys`, outFile `f` and inFile empty. -/
theorem parseCommand_redirections (cmd : Str) (T : List Str) (hT : splitArgs cmd = (T, none)) :
    ((parseCommand cmd).err = none →
      (parseCommand cmd).args = specArgs T ∧
      (parseCommand cmd).inFile = fileOf [60] (specRedirs T) [] ∧
      (parseCommand cmd).outFile = fileOf [62] (specRedirs T) []) ∧
    (∀ xs ys : List Str, ∀ f : Str,
      (∀ t ∈ xs, t ≠ [60] ∧ t ≠ [62]) → (∀ t ∈ ys, t ≠ [60] ∧ t ≠ [62]) →
      T = xs ++ [[62], f] ++ ys →
      parseCommand cmd = { args := xs ++ ys, inFile := [], outFile := f, err := none }) := by
  rw [parseCommand_of_tokens cmd T hT]
  constructor
  · intro hok
    have h := parseCommandLoop_agrees T { clean := [], inFile := [], outFile := [] }
    cases htr : specTrailingOp T with
    | true =>
      have h1 := (h.1 htr).1
      rw [hok] at h1
      simp at h1
    | false =>
      rw [h.2 htr]
      simp
  · intro xs ys f hxs hys hTeq
    subst hTeq
    rw [List.append_assoc, parseCommandLoop_words xs _ hxs]
    have hy := parseCommandLoop_words ys [] hys
    simp only [List.append_nil] at hy
    simp [parseCommandLoop, hy]

/-- C4 at `echo > f hi`: the redirection stands between the words. -/
theorem parseCommand_redirections_witness :
    splitArgs (bytes "echo > f hi") = ([bytes "echo", [62], bytes "f", bytes "hi"], none) ∧
    (parseCommand (bytes "echo > f hi")).args = [bytes "echo", bytes "hi"] ∧
    parseCommand (bytes "echo > f hi")
      = { args := [bytes "echo"] ++ [bytes "hi"], inFile := [], outFile := bytes "f",
          err := none } :=
  ⟨by decide,
    ((parseCommand_redirections (bytes "echo > f hi") [bytes "echo", [62], bytes "f", bytes "hi"]
      (by decide)).1 (by decide)).1,
    (parseCommand_redirections (bytes "echo > f hi") [bytes "echo", [62], bytes "f", bytes "hi"]
      (by decide)).2 [bytes "echo"] [bytes "hi"] (bytes "f") (by decide) (by decide) (by decide)⟩

/-- C5: `parseCommand` returns an error exactly when `splitArgs` fails on the
text or an operator `<` or `>` met by the scan is the last token; on every
error the args are nil and inFile and outFile are empty. -/
theorem parseCommand_error_iff (cmd : Str) :
    ((parseCommand cmd).err.isSome = true ↔
      ((splitArgs cmd).2.isSome = true ∨ specTrailingOp (splitArgs cmd).1 = true)) ∧
    ((parseCommand cmd).err.isSome = true →
      (parseCommand cmd).args = [] ∧ (parseCommand cmd).inFile = [] ∧
      (parseCommand cmd).outFile = []) := by
  rcases hs : splitArgs cmd with ⟨T, e⟩
  cases e with
  | some e =>
    rw [parseCommand_of_error cmd T e hs]
    simp
  | none =>
    rw [parseCommand_of_tokens cmd T hs]
    have h := parseCommandLoop_agrees T { clean := [], inFile := [], outFile := [] }
    cases htr : specTrailingOp T with
    | true =>
      have h1 := h.1 htr
      simp [h1.1, h1.2.1, h1.2.2.1, h1.2.2.2]
    | false =>
      rw [h.2 htr]
      simp

/-- C5 at `echo hi > out <`: the scan consumes `out` for `>` and then meets `<`
as the last token. -/
theorem parseCommand_error_iff_witness :
    specTrailingOp (splitArgs (bytes "echo hi > out <")).1 = true ∧
    (parseCommand (bytes "echo hi > out <")).args = [] ∧
    (parseCommand (bytes "echo hi > out <")).inFile = [] ∧
    (parseCommand (bytes "echo hi > out <")).outFile = [] :=
  ⟨by decide, (parseCommand_error_iff (bytes "echo hi > out <")).2 (by decide)⟩

/-! ## Lemmas on splitByConditionals -/

theorem condAgrees_nil : CondAgrees [] := by
  intro st _
  simp [splitByConditionalsLoop, flagConditionals]

theorem condAgrees_single (c : Nat) : CondAgrees [c] := by
  intro st _
  simp only [splitByConditionalsLoop, flagConditionals]
  split
  · simp
  · split <;> simp

theorem condAgrees_cons_cons (c d : Nat) (rest : Str) (h0 : CondAgrees rest)
    (h1 : CondAgrees (d :: rest)) : CondAgrees (c :: d :: rest) := by
  intro st hx
  by_cases hA : c = 39 ∧ st.inDq = false
  · have h := h1 { st with inSq := !st.inSq, cur := st.cur ++ [c] } (by simp [hA.2])
    obtain ⟨segments, ops, cur, inSq, inDq⟩ := st
    obtain ⟨rfl, hA2⟩ := hA
    simp only at hA2
    subst hA2
    cases inSq <;>
      simpa [splitByConditionalsLoop, flagConditionals, CondState.region, Region.next] using h
  · by_cases hB : c = 34 ∧ st.inSq = false
    · have h := h1 { st with inDq := !st.inDq, cur := st.cur ++ [c] } (by simp [hB.2])
      obtain ⟨segments, ops, cur, inSq, inDq⟩ := st
      obtain ⟨rfl, hB2⟩ := hB
      simp only at hB2
      subst hB2
      cases inDq <;>
        simpa [splitByConditionalsLoop, flagConditionals, CondState.region, Region.next] using h
    · by_cases hC : st.inSq = false ∧ st.inDq = false ∧ c = 38 ∧ d = 38
      · have h := h0 ⟨st.segments ++ [st.cur], st.ops ++ [[38, 38]], [], st.inSq, st.inDq⟩ hx
        obtain ⟨segments, ops, cur, inSq, inDq⟩ := st
        obtain ⟨hs1, hs2, rfl, rfl⟩ := hC
        simp only at hs1 hs2
        subst hs1 hs2
        simpa [splitByConditionalsLoop, flagConditionals, CondState.region, Region.next] using h
      · by_cases hD : st.inSq = false ∧ st.inDq = false ∧ c = 124 ∧ d = 124
        · have h := h0 ⟨st.segments ++ [st.cur], st.ops ++ [[124, 124]], [], st.inSq, st.inDq⟩ hx
          obtain ⟨segments, ops, cur, inSq, inDq⟩ := st
          obtain ⟨hs1, hs2, rfl, rfl⟩ := hD
          simp only at hs1 hs2
          subst hs1 hs2
          simpa [splitByConditionalsLoop, flagConditionals, CondState.region, Region.next] using h
        · have h := h1 { st with cur := st.cur ++ [c] } hx
          have hstep : splitByConditionalsLoop (c :: d :: rest) st
              = splitByConditionalsLoop (d :: rest) { st with cur := st.cur ++ [c] } := by
            simp only [splitByConditionalsLoop, if_neg hA, if_neg hB, if_neg hC, if_neg hD]
          have hspec : flagConditionals st.region (c :: d :: rest)
              = (c :: (flagConditionals st.region (d :: rest)).1,
                  (flagConditionals st.region (d :: rest)).2) := by
            obtain ⟨segments, ops, cur, inSq, inDq⟩ := st
            simp only at hA hB hC hD hx
            cases inSq <;> cases inDq <;>
              (simp_all [flagConditionals, CondState.region, Region.next]; try omega)
          rw [hstep, hspec]
          have hreg : ({ st with cur := st.cur ++ [c] } : CondState).region = st.region := rfl
          rw [hreg] at h
          simpa using h

/-- The loop of `splitByConditionals` computes the split by its flags. -/
theorem splitByConditionalsLoop_agrees (s : Str) : CondAgrees s := by
  have key : CondAgrees s ∧ ∀ c, CondAgrees (c :: s) := by
    induction s with
    | nil => exact ⟨condAgrees_nil, condAgrees_single⟩
    | cons d rest ih => exact ⟨ih.2 d, fun c => condAgrees_cons_cons c d rest ih.1 (ih.2 d)⟩
  exact key.1

theorem append_singleton_eq_cons (q : Str) (a : Nat) : ∃ d rest, q ++ [a] = d :: rest := by
  cases q with
  | nil => exact ⟨a, [], rfl⟩
  | cons x xs => exact ⟨x, xs ++ [a], by simp⟩

/-- Inside a double-quoted region the loop of `splitByConditionals` copies
every byte up to the closing quote. -/
theorem splitByConditionalsLoop_inside (q : Str) (hq : ∀ c ∈ q, c ≠ 34) :
    ∀ segments ops : List Str, ∀ cur : Str,
      splitByConditionalsLoop (q ++ [34]) ⟨segments, ops, cur, false, true⟩
        = ⟨segments, ops, cur ++ (q ++ [34]), false, false⟩ := by
  induction q with
  | nil =>
    intro segments ops cur
    simp [splitByConditionalsLoop]
  | cons c q ih =>
    intro segments ops cur
    have hc : c ≠ 34 := hq c (List.mem_cons_self c q)
    have hq2 : ∀ x ∈ q, x ≠ 34 := fun x hx => hq x (List.mem_cons_of_mem c hx)
    obtain ⟨d, rest, hdr⟩ := append_singleton_eq_cons q 34
    have hstep : splitByConditionalsLoop (c :: d :: rest) ⟨segments, ops, cur, false, true⟩
        = splitByConditionalsLoop (d :: rest) ⟨segments, ops, cur ++ [c], false, true⟩ := by
      simp [splitByConditionalsLoop, hc]
    rw [List.cons_append, hdr, hstep, ← hdr, ih hq2]
    simp

/-- For `q` without a quote byte, the line `"q"` comes back from
`splitByConditionals` as one segment with no operator. -/
theorem splitByConditionals_quoted (q : Str) (hq : ∀ c ∈ q, c ≠ 39 ∧ c ≠ 34) :
    splitByConditionals ([34] ++ q ++ [34]) = ([[34] ++ q ++ [34]], []) := by
  have hq2 : ∀ c ∈ q, c ≠ 34 := fun c hc => (hq c hc).2
  obtain ⟨d, rest, hdr⟩ := append_singleton_eq_cons q 34
  have hstep : splitByConditionalsLoop (34 :: d :: rest) CondState.init
      = splitByConditionalsLoop (d :: rest) ⟨[], [], [34], false, true⟩ := by
    simp [splitByConditionalsLoop, CondState.init]
  have hl : splitByConditionalsLoop ([34] ++ q ++ [34]) CondState.init
      = ⟨[], [], [34] ++ (q ++ [34]), false, false⟩ := by
    rw [List.append_assoc, List.singleton_append, hdr, hstep, ← hdr,
      splitByConditionalsLoop_inside q hq2]
    rfl
  simp only [splitByConditionals, hl]
  simp

/-- C6, the code at `echo "a\" && b"`: the bytes at indexes 10 and 11 are `&&`.
The scan of the ten bytes before them ends inside a double-quoted region, the
quote at index 8 being escaped: so say the regions of section 4.1, and so do
the flags of `splitArgs`, which reads the whole line as the two tokens `echo`
and `a" && b`.  No operator of the line stands outside the quoted regions, yet
`splitByConditionals` cuts the line at index 10 into `echo "a\" ` and ` b"`
with the operator `&&`. -/
theorem splitByConditionals_ignores_escaped_quote :
    ((bytes "echo \"a\\\" && b\"").drop 10).take 2 = bytes "&&" ∧
    specRegionAfter Region.outside ((bytes "echo \"a\\\" && b\"").take 10) = Region.double ∧
    (splitArgsLoop ArgState.init ((bytes "echo \"a\\\" && b\"").take 10)).inDq = true ∧
    specOperatorsOutside (bytes "echo \"a\\\" && b\"") = [] ∧
    splitByConditionals (bytes "echo \"a\\\" && b\"")
      = ([bytes "echo \"a\\\" ", bytes " b\""], [bytes "&&"]) ∧
    splitArgs (bytes "echo \"a\\\" && b\"") = ([bytes "echo", bytes "a\" && b"], none) := by
  decide

/-! ## Lemmas on splitByPipe -/

theorem splitByPipeLoop_cons (trim : Str → Str) (st : PipeState) (c : Nat) (s : Str) :
    splitByPipeLoop trim st (c :: s) = splitByPipeLoop trim (splitByPipeStep trim st c) s := rfl

/-- One byte moves the flags of `splitByPipe` the way an unescaped byte moves
the region, and adds a stage text exactly for a `|` read with both flags off. -/
theorem splitByPipeStep_region (trim : Str → Str) (st : PipeState) (c : Nat)
    (hx : st.inSq = true → st.inDq = false) :
    (splitByPipeStep trim st c).region = st.region.next c ∧
    ((splitByPipeStep trim st c).inSq = true → (splitByPipeStep trim st c).inDq = false) ∧
    (splitByPipeStep trim st c).res.length
      = st.res.length + (if st.region = Region.outside ∧ c = 124 then 1 else 0) := by
  obtain ⟨res, cur, inSq, inDq⟩ := st
  simp only at hx
  cases inSq <;> cases inDq <;> simp at hx <;>
    by_cases h39 : c = 39 <;> by_cases h34 : c = 34 <;> by_cases h124 : c = 124 <;>
    simp_all [splitByPipeStep, PipeState.region, Region.next]

/-- The loop of `splitByPipe` closes one stage text for each `|` outside the
quoted regions. -/
theorem splitByPipeLoop_length (trim : Str → Str) (s : Str) :
    ∀ st : PipeState, (st.inSq = true → st.inDq = false) →
      (splitByPipeLoop trim st s).res.length = st.res.length + flagPipeCount st.region s := by
  induction s with
  | nil => intro st _; simp [splitByPipeLoop, flagPipeCount]
  | cons c s ih =>
    intro st hx
    have h := splitByPipeStep_region trim st c hx
    rw [splitByPipeLoop_cons, ih _ h.2.1, h.2.2, h.1]
    simp only [flagPipeCount]
    omega

/-- For every segment text `s`, `splitByPipe` returns one stage text more than
it reads bytes `|` with both flags off (whatever `strings.TrimSpace` does to
each text); so a pipeline has at least one stage, and the empty string gives
one. -/
theorem splitByPipe_length_by_flags (trim : Str → Str) (s : Str) :
    (splitByPipeWith trim s).length = flagPipeCount Region.outside s + 1 ∧
    (splitByPipe s).length = flagPipeCount Region.outside s + 1 ∧
    1 ≤ (splitByPipe s).length ∧
    splitByPipe [] = [[]] := by
  have h : ∀ f : Str → Str, (splitByPipeWith f s).length = flagPipeCount Region.outside s + 1 := by
    intro f
    have hl := splitByPipeLoop_length f s PipeState.init (by simp [PipeState.init])
    have hr : PipeState.init.region = Region.outside := rfl
    rw [hr] at hl
    have h0 : PipeState.init.res.length = 0 := rfl
    rw [h0] at hl
    simp only [splitByPipeWith, List.length_append, List.length_singleton, hl]
    omega
  refine ⟨h trim, h trimSpace, ?_, by decide⟩
  have := h trimSpace
  unfold splitByPipe
  omega

/-- A byte other than the backslash moves the region of section 4.1 as it moves
the flags. -/
theorem specRegionAfter_cons (r : Region) (c : Nat) (u : Str) (hc : c ≠ 92) :
    specRegionAfter r (c :: u) = specRegionAfter (r.next c) u := by
  cases u with
  | nil => simp [specRegionAfter, hc]
  | cons d rest => simp [specRegionAfter, hc]

/-- On a text without a backslash the bytes `|` outside the quoted regions of
section 4.1 are those that `splitByPipe` reads with both flags off. -/
theorem specPipes_eq_flagPipeCount (s : Str) (hs : ∀ c ∈ s, c ≠ 92) :
    ∀ r : Region,
      ((List.range s.length).filter (fun i =>
          decide (s[i]? = some 124)
            && decide (specRegionAfter r (s.take i) = Region.outside))).length
        = flagPipeCount r s := by
  induction s with
  | nil => intro r; simp [flagPipeCount]
  | cons c t ih =>
    intro r
    have hc : c ≠ 92 := hs c (List.mem_cons_self c t)
    have ht : ∀ d ∈ t, d ≠ 92 := fun d hd => hs d (List.mem_cons_of_mem c hd)
    rw [List.length_cons, List.range_succ_eq_map, List.filter_cons, List.filter_map,
      flagPipeCount, ← ih ht (r.next c)]
    have hfun : ((fun i => decide ((c :: t)[i]? = some 124)
          && decide (specRegionAfter r ((c :: t).take i) = Region.outside)) ∘ Nat.succ)
        = (fun i => decide (t[i]? = some 124)
          && decide (specRegionAfter (r.next c) (t.take i) = Region.outside)) := by
      funext i
      simp [specRegionAfter_cons r c (t.take i) hc]
    rw [hfun]
    have hnil : specRegionAfter r [] = r := by simp [specRegionAfter]
    by_cases h0 : r = Region.outside ∧ c = 124
    · simp [h0.1, h0.2, specRegionAfter]
      omega
    · have hif : ¬ (c = 124 ∧ specRegionAfter r [] = Region.outside) := by
        rw [hnil]
        exact fun h => h0 ⟨h.2, h.1⟩
      simp [hif, h0]

/-- On a segment text without a backslash, `splitByPipe` returns exactly `k + 1`
stage texts, `k` being the number of bytes `|` outside the quoted regions of
section 4.1. -/
theorem splitByPipe_stage_count_no_backslash (trim : Str → Str) (s : Str)
    (hs : ∀ c ∈ s, c ≠ 92) :
    (splitByPipeWith trim s).length = specPipesOutside s + 1 := by
  have h := specPipes_eq_flagPipeCount s hs Region.outside
  have h2 := (splitByPipe_length_by_flags trim s).1
  rw [h2, ← h]
  rfl

/-- C7, the code at `echo "a\" | b"`: the one byte `|` of the text, at index 10,
lies inside a double-quoted region of section 4.1 (the quote at index 8 is
escaped), so the number `k` of bytes `|` outside the quoted regions is 0 and
the claim gives 1 stage text; `splitByPipe` returns 2. -/
theorem splitByPipe_counts_quoted_pipe :
    specRegionAfter Region.outside ((bytes "echo \"a\\\" | b\"").take 10) = Region.double ∧
    specPipesOutside (bytes "echo \"a\\\" | b\"") = 0 ∧
    (splitByPipe (bytes "echo \"a\\\" | b\"")).length = 2 ∧
    (splitByPipe (bytes "echo \"a\\\" | b\"")).length
      ≠ specPipesOutside (bytes "echo \"a\\\" | b\"") + 1 := by
  decide

/-- C8, the code at `echo "a\" | b"`: the byte at index 10 is `|`; after the ten
bytes before it `splitArgs` is inside a double-quoted region (the quote at
index 8 is escaped) while `splitByPipe` is outside every region, so
`splitByPipe` cuts the text there into `echo "a\"` and `b"`, although
`splitArgs` reads the whole text as the two tokens `echo` and `a" | b`. -/
theorem splitByPipe_ignores_escaped_quote :
    (bytes "echo \"a\\\" | b\"")[10]? = some 124 ∧
    (splitArgsLoop ArgState.init ((bytes "echo \"a\\\" | b\"").take 10)).inDq = true ∧
    (splitByPipeLoop trimSpace PipeState.init ((bytes "echo \"a\\\" | b\"").take 10)).inSq = false ∧
    (splitByPipeLoop trimSpace PipeState.init ((bytes "echo \"a\\\" | b\"").take 10)).inDq = false ∧
    splitByPipe (bytes "echo \"a\\\" | b\"") = [bytes "echo \"a\\\"", bytes "b\""] ∧
    splitArgs (bytes "echo \"a\\\" | b\"") = ([bytes "echo", bytes "a\" | b"], none) := by
  decide

/-! ## Lemmas on the segment loop -/

theorem segmentLoopFrom_append {σ : Type} (run : σ → Str → Int × σ) (ops : List Str)
    (xs ys : List Str) :
    ∀ (i : Nat) (st : GateState σ),
      segmentLoopFrom run ops i (xs ++ ys) st
        = segmentLoopFrom run ops (i + xs.length) ys (segmentLoopFrom run ops i xs st) := by
  induction xs with
  | nil => intro i st; simp [segmentLoopFrom]
  | cons x xs ih =>
    intro i st
    have hlen : i + (xs.length + 1) = i + 1 + xs.length := by omega
    rw [List.cons_append, List.length_cons, hlen]
    show segmentLoopFrom run ops (i + 1) (xs ++ ys) (segmentStep run ops st i x) = _
    rw [ih]
    rfl

/-- An iteration whose gate is open calls `runSegment` and records the call. -/
theorem segmentStep_run {σ : Type} (run : σ → Str → Int × σ) (ops : List Str)
    (st : GateState σ) (i : Nat) (seg : Str)
    (hA : ¬(0 < i ∧ ops[i - 1]? = some [38, 38] ∧ st.lastExit ≠ 0))
    (hB : ¬(0 < i ∧ ops[i - 1]? = some [124, 124] ∧ st.lastExit = 0)) :
    segmentStep run ops st i seg
      = ⟨(run st.world (trimSpace seg)).2, (run st.world (trimSpace seg)).1,
          st.calls ++ [(i, (run st.world (trimSpace seg)).1)]⟩ := by
  simp only [segmentStep, if_neg hA, if_neg hB]

/-- An iteration whose gate is closed changes nothing. -/
theorem segmentStep_skip {σ : Type} (run : σ → Str → Int × σ) (ops : List Str)
    (st : GateState σ) (i : Nat) (seg : Str)
    (h : (0 < i ∧ ops[i - 1]? = some [38, 38] ∧ st.lastExit ≠ 0) ∨
      (0 < i ∧ ops[i - 1]? = some [124, 124] ∧ st.lastExit = 0)) :
    segmentStep run ops st i seg = st := by
  unfold segmentStep
  rcases h with h | h
  · rw [if_pos h]
  · by_cases hA : 0 < i ∧ ops[i - 1]? = some [38, 38] ∧ st.lastExit ≠ 0
    · rw [if_pos hA]
    · rw [if_neg hA, if_pos h]

/-- The calls recorded by iterations `i`, `i+1`, ... carry these indices and
come after the calls recorded before. -/
theorem segmentLoopFrom_calls {σ : Type} (run : σ → Str → Int × σ) (ops : List Str)
    (segs : List Str) :
    ∀ (i : Nat) (st : GateState σ),
      ∃ new : List (Nat × Int),
        (segmentLoopFrom run ops i segs st).calls = st.calls ++ new ∧
        ∀ p ∈ new, i ≤ p.1 ∧ p.1 < i + segs.length := by
  induction segs with
  | nil => intro i st; exact ⟨[], by simp [segmentLoopFrom], by simp⟩
  | cons seg segs ih =>
    intro i st
    obtain ⟨new, hnew, hidx⟩ := ih (i + 1) (segmentStep run ops st i seg)
    by_cases h : (0 < i ∧ ops[i - 1]? = some [38, 38] ∧ st.lastExit ≠ 0) ∨
        (0 < i ∧ ops[i - 1]? = some [124, 124] ∧ st.lastExit = 0)
    · rw [segmentStep_skip run ops st i seg h] at hnew
      refine ⟨new, by simpa [segmentLoopFrom, segmentStep_skip run ops st i seg h] using hnew, ?_⟩
      intro p hp
      have := hidx p hp
      simp only [List.length_cons]
      omega
    · rw [not_or] at h
      rw [segmentStep_run run ops st i seg h.1 h.2] at hnew
      refine ⟨(i, (run st.world (trimSpace seg)).1) :: new, ?_, ?_⟩
      · simpa [segmentLoopFrom, segmentStep_run run ops st i seg h.1 h.2] using hnew
      · intro p hp
        simp only [List.length_cons]
        rcases List.mem_cons.mp hp with rfl | hp
        · simp
        · have := hidx p hp
          omega

/-- The running exit code is the exit code of the last recorded call. -/
theorem segmentLoopFrom_lastExit {σ : Type} (run : σ → Str → Int × σ) (ops : List Str)
    (segs : List Str) :
    ∀ (i : Nat) (st : GateState σ),
      st.calls.getLast?.map Prod.snd = some st.lastExit →
      (segmentLoopFrom run ops i segs st).calls.getLast?.map Prod.snd
        = some (segmentLoopFrom run ops i segs st).lastExit := by
  induction segs with
  | nil => intro i st h; simpa [segmentLoopFrom] using h
  | cons seg segs ih =>
    intro i st h
    simp only [segmentLoopFrom]
    apply ih
    by_cases hs : (0 < i ∧ ops[i - 1]? = some [38, 38] ∧ st.lastExit ≠ 0) ∨
        (0 < i ∧ ops[i - 1]? = some [124, 124] ∧ st.lastExit = 0)
    · rw [segmentStep_skip run ops st i seg hs]
      exact h
    · rw [not_or] at hs
      rw [segmentStep_run run ops st i seg hs.1 hs.2]
      simp

/-- The loop after segment `i` is the rest of the loop run from the state that
iteration `i` leaves. -/
theorem segmentLoop_split {σ : Type} (run : σ → Str → Int × σ) (segments ops : List Str)
    (w : σ) (i : Nat) (hi : i < segments.length) :
    segmentLoop run segments ops w
      = segmentLoopFrom run ops (i + 1) (segments.drop (i + 1))
          (segmentStep run ops (gateBefore run segments ops w i) i segments[i]) := by
  have hsplit : segments = segments.take i ++ segments[i] :: segments.drop (i + 1) := by
    rw [← List.drop_eq_getElem_cons hi, List.take_append_drop]
  have hlen : (segments.take i).length = i := by
    rw [List.length_take]
    omega
  unfold segmentLoop gateBefore
  conv_lhs => rw [hsplit]
  rw [segmentLoopFrom_append, hlen, Nat.zero_add]
  rfl

/-- The state on reaching segment `i + 1` is the state iteration `i` leaves. -/
theorem gateBefore_succ {σ : Type} (run : σ → Str → Int × σ) (segments ops : List Str)
    (w : σ) (i : Nat) (hi : i < segments.length) :
    gateBefore run segments ops w (i + 1)
      = segmentStep run ops (gateBefore run segments ops w i) i segments[i] := by
  have htake : segments.take (i + 1) = segments.take i ++ [segments[i]] := by
    rw [List.take_succ, List.getElem?_eq_getElem hi]
    rfl
  have hlen : (segments.take i).length = i := by
    rw [List.length_take]
    omega
  unfold gateBefore
  rw [htake, segmentLoopFrom_append, hlen, Nat.zero_add]
  rfl

/-- The calls recorded before segment `i` is reached carry indices below `i`. -/
theorem gateBefore_calls {σ : Type} (run : σ → Str → Int × σ) (segments ops : List Str)
    (w : σ) (i : Nat) : ∀ p ∈ (gateBefore run segments ops w i).calls, p.1 < i := by
  obtain ⟨new, hnew, hidx⟩ := segmentLoopFrom_calls run ops (segments.take i) 0 ⟨w, 0, []⟩
  intro p hp
  unfold gateBefore at hp
  rw [hnew] at hp
  have h := (hidx p (by simpa using hp)).2
  have hlen : (segments.take i).length ≤ i := by
    rw [List.length_take]
    omega
  omega

/-- Segment `i` is executed exactly when neither test of iteration `i` skips it. -/
theorem executed_iff {σ : Type} (run : σ → Str → Int × σ) (segments ops : List Str)
    (w : σ) (i : Nat) (hi : i < segments.length) :
    executed (segmentLoop run segments ops w) i ↔
      (¬(0 < i ∧ ops[i - 1]? = some [38, 38] ∧ (gateBefore run segments ops w i).lastExit ≠ 0) ∧
       ¬(0 < i ∧ ops[i - 1]? = some [124, 124] ∧
          (gateBefore run segments ops w i).lastExit = 0)) := by
  have hb := gateBefore_calls run segments ops w i
  obtain ⟨new, hnew, hidx⟩ := segmentLoopFrom_calls run ops (segments.drop (i + 1)) (i + 1)
    (segmentStep run ops (gateBefore run segments ops w i) i segments[i])
  have hnot_new : ∀ p ∈ new, p.1 ≠ i := fun p hp => by
    have := (hidx p hp).1
    omega
  have hnot_old : ∀ p ∈ (gateBefore run segments ops w i).calls, p.1 ≠ i := fun p hp => by
    have := hb p hp
    omega
  unfold executed
  rw [segmentLoop_split run segments ops w i hi, hnew]
  by_cases hs : (0 < i ∧ ops[i - 1]? = some [38, 38] ∧
      (gateBefore run segments ops w i).lastExit ≠ 0) ∨
      (0 < i ∧ ops[i - 1]? = some [124, 124] ∧ (gateBefore run segments ops w i).lastExit = 0)
  · rw [segmentStep_skip run ops _ i _ hs]
    have hright : ¬(¬(0 < i ∧ ops[i - 1]? = some [38, 38] ∧
        (gateBefore run segments ops w i).lastExit ≠ 0) ∧
        ¬(0 < i ∧ ops[i - 1]? = some [124, 124] ∧
          (gateBefore run segments ops w i).lastExit = 0)) := by
      rw [← not_or]
      exact fun h => h hs
    refine iff_of_false ?_ hright
    intro hmem
    rw [List.mem_map] at hmem
    obtain ⟨p, hp, hpi⟩ := hmem
    rcases List.mem_append.mp hp with hp | hp
    · exact hnot_old p hp hpi
    · exact hnot_new p hp hpi
  · rw [not_or] at hs
    rw [segmentStep_run run ops _ i _ hs.1 hs.2]
    refine iff_of_true ?_ hs
    rw [List.mem_map]
    exact ⟨(i, (run (gateBefore run segments ops w i).world (trimSpace segments[i])).1),
      by simp, rfl⟩

/-- The running exit code when segment 1 is reached is the exit code of segment 0. -/
theorem gateBefore_one {σ : Type} (run : σ → Str → Int × σ) (a : Str) (rest ops : List Str)
    (w : σ) : (gateBefore run (a :: rest) ops w 1).lastExit = (run w (trimSpace a)).1 := by
  simp [gateBefore, segmentLoopFrom, segmentStep]

/-- C9: in the segment loop of main, for any `runSegment`: segment 0 is always
executed; a segment `i > 0` preceded by `&&` is executed exactly when the
running exit code on reaching it is 0, and one preceded by `||` exactly when
it is not 0.  So in the two segments `cmd && X` the segment `X` is not executed
when `cmd` exits non-zero, and in `cmd || X` it is not executed when `cmd`
exits with 0. -/
theorem gate_executes_iff {σ : Type} (run : σ → Str → Int × σ) (segments ops : List Str)
    (w : σ) (i : Nat) (hi : i < segments.length) :
    executed (segmentLoop run segments ops w) 0 ∧
    (0 < i → ops[i - 1]? = some [38, 38] →
      (executed (segmentLoop run segments ops w) i ↔
        (gateBefore run segments ops w i).lastExit = 0)) ∧
    (0 < i → ops[i - 1]? = some [124, 124] →
      (executed (segmentLoop run segments ops w) i ↔
        (gateBefore run segments ops w i).lastExit ≠ 0)) ∧
    (∀ cmd x : Str, (run w (trimSpace cmd)).1 ≠ 0 →
      ¬ executed (segmentLoop run [cmd, x] [[38, 38]] w) 1) ∧
    (∀ cmd x : Str, (run w (trimSpace cmd)).1 = 0 →
      ¬ executed (segmentLoop run [cmd, x] [[124, 124]] w) 1) := by
  refine ⟨?_, ?_, ?_, ?_, ?_⟩
  · rw [executed_iff run segments ops w 0 (by omega)]
    simp
  · intro h0 hop
    rw [executed_iff run segments ops w i hi]
    simp [h0, hop]
  · intro h0 hop
    rw [executed_iff run segments ops w i hi]
    simp [h0, hop]
  · intro cmd x hne
    rw [executed_iff run [cmd, x] [[38, 38]] w 1 (by simp), gateBefore_one]
    simp [hne]
  · intro cmd x hz
    rw [executed_iff run [cmd, x] [[124, 124]] w 1 (by simp), gateBefore_one]
    simp [hz]

/-- C9 at the line `false && echo X`: `false` exits with 1, so `echo X` is not
executed; the only command run is `false`. -/
theorem gate_executes_iff_witness :
    splitByConditionals (bytes "false && echo X")
      = ([bytes "false ", bytes " echo X"], [bytes "&&"]) ∧
    (gateBefore runExample [bytes "false ", bytes " echo X"] [bytes "&&"] [] 1).lastExit = 1 ∧
    ¬ executed (segmentLoop runExample [bytes "false ", bytes " echo X"] [bytes "&&"] []) 1 ∧
    (processLine runExample (bytes "false && echo X") []).world = [bytes "false"] :=
  ⟨by decide, by decide,
    fun h => absurd
      (((gate_executes_iff runExample [bytes "false ", bytes " echo X"] [bytes "&&"] [] 1
        (by decide)).2.1 (by decide) (by decide)).mp h) (by decide),
    by decide⟩

/-- Once segment 0 has been processed, the running exit code is the exit code
of the last recorded call. -/
theorem gateBefore_lastExit {σ : Type} (run : σ → Str → Int × σ) (segments ops : List Str)
    (w : σ) (i : Nat) (hpos : 0 < segments.length) :
    (gateBefore run segments ops w (i + 1)).calls.getLast?.map Prod.snd
      = some (gateBefore run segments ops w (i + 1)).lastExit := by
  cases segments with
  | nil => simp at hpos
  | cons a rest =>
    unfold gateBefore
    rw [List.take_succ_cons]
    simp only [segmentLoopFrom]
    apply segmentLoopFrom_lastExit
    rw [segmentStep_run run ops _ 0 a (by simp) (by simp)]
    simp

/-- The calls on segments of index at most `i` are the calls recorded when
segment `i + 1` is reached. -/
theorem gate_calls_upto {σ : Type} (run : σ → Str → Int × σ) (segments ops : List Str)
    (w : σ) (i : Nat) (hi : i < segments.length) :
    (segmentLoop run segments ops w).calls.filter (fun p => decide (p.1 ≤ i))
      = (gateBefore run segments ops w (i + 1)).calls := by
  have hb := gateBefore_calls run segments ops w (i + 1)
  obtain ⟨new, hnew, hidx⟩ := segmentLoopFrom_calls run ops (segments.drop (i + 1)) (i + 1)
    (gateBefore run segments ops w (i + 1))
  rw [segmentLoop_split run segments ops w i hi, ← gateBefore_succ run segments ops w i hi, hnew,
    List.filter_append]
  have h1 : (gateBefore run segments ops w (i + 1)).calls.filter (fun p => decide (p.1 ≤ i))
      = (gateBefore run segments ops w (i + 1)).calls := by
    rw [List.filter_eq_self]
    intro p hp
    have := hb p hp
    simp only [decide_eq_true_eq]
    omega
  have h2 : new.filter (fun p => decide (p.1 ≤ i)) = [] := by
    rw [List.filter_eq_nil_iff]
    intro p hp
    have := (hidx p hp).1
    simp only [decide_eq_true_eq]
    omega
  rw [h1, h2, List.append_nil]

/-- C10: a skipped segment leaves the running exit code unchanged.  After the
segments 0..i have been processed the running exit code is the exit code
returned by the last call of `runSegment` on a segment of index at most `i`,
and if segment `i` was not executed the variables are those on reaching it.
So in `a && b || c` with `a` exiting non-zero, and in `a || b && c` with `a`
exiting with 0, the segments executed are `a` and `c`. -/
theorem gate_skip_keeps_exit {σ : Type} (run : σ → Str → Int × σ) (segments ops : List Str)
    (w : σ) (i : Nat) (hi : i < segments.length) :
    (((segmentLoop run segments ops w).calls.filter (fun p => decide (p.1 ≤ i))).getLast?.map
        Prod.snd = some (gateBefore run segments ops w (i + 1)).lastExit) ∧
    (¬ executed (segmentLoop run segments ops w) i →
      (gateBefore run segments ops w (i + 1)).lastExit
        = (gateBefore run segments ops w i).lastExit) ∧
    (∀ a b c : Str, (run w (trimSpace a)).1 ≠ 0 →
      (segmentLoop run [a, b, c] [[38, 38], [124, 124]] w).calls.map Prod.fst = [0, 2]) ∧
    (∀ a b c : Str, (run w (trimSpace a)).1 = 0 →
      (segmentLoop run [a, b, c] [[124, 124], [38, 38]] w).calls.map Prod.fst = [0, 2]) := by
  refine ⟨?_, ?_, ?_, ?_⟩
  · rw [gate_calls_upto run segments ops w i hi]
    exact gateBefore_lastExit run segments ops w i (by omega)
  · intro hne
    rw [executed_iff run segments ops w i hi, ← not_or, not_not] at hne
    rw [gateBefore_succ run segments ops w i hi, segmentStep_skip run ops _ i _ hne]
  · intro a b c hne
    simp [segmentLoop, segmentLoopFrom, segmentStep, hne]
  · intro a b c hz
    simp [segmentLoop, segmentLoopFrom, segmentStep, hz]

/-- C10 at the line `false && echo b || echo c`: the second segment is
skipped, the running exit code stays 1, and the commands run are `false` and
`echo c`. -/
theorem gate_skip_keeps_exit_witness :
    splitByConditionals (bytes "false && echo b || echo c")
      = ([bytes "false ", bytes " echo b ", bytes " echo c"], [bytes "&&", bytes "||"]) ∧
    ¬ executed (segmentLoop runExample [bytes "false ", bytes " echo b ", bytes " echo c"]
        [bytes "&&", bytes "||"] []) 1 ∧
    (gateBefore runExample [bytes "false ", bytes " echo b ", bytes " echo c"]
        [bytes "&&", bytes "||"] [] 2).lastExit
      = (gateBefore runExample [bytes "false ", bytes " echo b ", bytes " echo c"]
        [bytes "&&", bytes "||"] [] 1).lastExit ∧
    (processLine runExample (bytes "false && echo b || echo c") []).world
      = [bytes "false", bytes "echo c"] :=
  ⟨by decide, by decide,
    (gate_skip_keeps_exit runExample [bytes "false ", bytes " echo b ", bytes " echo c"]
      [bytes "&&", bytes "||"] [] 1 (by decide)).2.1 (by decide),
    by decide⟩

end MiniShell

namespace MiniShell

/-! ## runSegment -/

theorem runSegment_single (trim : Str → Str) (segment p : Str)
    (h : splitByPipeWith trim segment = [p]) :
    runSegmentWith trim segment =
      match (parseCommand p).err with
      | some e => Dispatch.parseError e
      | none =>
        match (parseCommand p).args with
        | [] => Dispatch.nothing
        | a :: rest =>
          if isBuiltin a then
            Dispatch.builtin (a :: rest) (parseCommand p).inFile (parseCommand p).outFile
          else
            Dispatch.pipeline [p] := by
  simp only [runSegmentWith, h]

theorem runSegment_many (trim : Str → Str) (segment : Str)
    (h : 2 ≤ (splitByPipeWith trim segment).length) :
    runSegmentWith trim segment = Dispatch.pipeline (splitByPipeWith trim segment) := by
  unfold runSegmentWith
  split
  · rename_i p hp
    rw [hp] at h
    simp at h
  · rfl

/-- C11: whatever `strings.TrimSpace` does to the stage texts, `runSegment`
ends with the call `runBuiltin(args, inFile, outFile)` exactly when the segment
has one stage, that stage parses without error to these args and files, the
args are not empty and the first of them is one of cd, pwd, echo, kill, ps.  A
segment of two or more stages always ends with `runPipeline` on its stages,
also when a stage is a builtin name, as in `echo hi | cat`.  With the
`strings.TrimSpace` of the library, `echo hi > f` and a `cd /tmp` after a
no-break space (U+00A0) go to `runBuiltin`. -/
theorem runSegment_builtin_iff (trim : Str → Str) (segment : Str) (args : List Str)
    (inFile outFile : Str) :
    (runSegmentWith trim segment = Dispatch.builtin args inFile outFile ↔
      ∃ stage, splitByPipeWith trim segment = [stage] ∧
        parseCommand stage = ⟨args, inFile, outFile, none⟩ ∧
        ∃ a rest, args = a :: rest ∧
          (a = bytes "cd" ∨ a = bytes "pwd" ∨ a = bytes "echo" ∨ a = bytes "kill" ∨
            a = bytes "ps")) ∧
    (2 ≤ (splitByPipeWith trim segment).length →
      runSegmentWith trim segment = Dispatch.pipeline (splitByPipeWith trim segment)) ∧
    runSegment (bytes "echo hi | cat") = Dispatch.pipeline [bytes "echo hi", bytes "cat"] ∧
    runSegment (bytes "echo hi > f") = Dispatch.builtin [bytes "echo", bytes "hi"] [] (bytes "f") ∧
    runSegment ([194, 160] ++ bytes "cd /tmp")
      = Dispatch.builtin [bytes "cd", bytes "/tmp"] [] [] := by
  refine ⟨?_, runSegment_many trim segment, by decide, by decide, by decide⟩
  constructor
  · intro h
    rcases hs : splitByPipeWith trim segment with _ | ⟨p, _ | ⟨p2, ps⟩⟩
    · simp [runSegmentWith, hs] at h
    · rw [runSegment_single trim segment p hs] at h
      refine ⟨p, rfl, ?_⟩
      rcases hp : parseCommand p with ⟨pa, pi, po, pe⟩
      rw [hp] at h
      cases pe with
      | some e => simp at h
      | none =>
        cases pa with
        | nil => simp at h
        | cons a rest =>
          by_cases hb : isBuiltin a = true
          · simp only [hb, if_true] at h
            injection h with h1 h2 h3
            subst h1 h2 h3
            refine ⟨rfl, a, rest, rfl, ?_⟩
            simpa [isBuiltin, or_assoc] using hb
          · simp [hb] at h
    · simp [runSegmentWith, hs] at h
  · rintro ⟨stage, hs, hp, a, rest, rfl, hb⟩
    rw [runSegment_single trim segment stage hs, hp]
    have hb2 : isBuiltin a = true := by simpa [isBuiltin, or_assoc] using hb
    simp [hb2]

/-- C11 at `echo hi | cat` with the `strings.TrimSpace` of the library: two
stages, so the builtin name `echo` goes to `runPipeline`. -/
theorem runSegment_builtin_iff_witness :
    2 ≤ (splitByPipe (bytes "echo hi | cat")).length ∧
    runSegment (bytes "echo hi | cat")
      = Dispatch.pipeline (splitByPipe (bytes "echo hi | cat")) :=
  ⟨by decide,
    (runSegment_builtin_iff trimSpace (bytes "echo hi | cat") [] [] []).2.1 (by decide)⟩

end MiniShell

namespace MiniShell

/-! ## Lemmas on runPipeline -/

theorem startStage_ok (os : OS) (n i : Nat) (spec : CmdSpec) (st st1 : StartState)
    (h : startStage os n i spec st = Except.ok st1) :
    st.addsFresh i st1 ∧ st1.procs = st.procs ++ [i] ∧
    (i = 0 → ∃ c, Event.start 0 c (some st1.firstPid) ∈ st1.events) ∧
    (i ≠ 0 → st1.firstPid = st.firstPid) := by
  cases hs : os.startRes i with
  | error e => simp [startStage, hs] at h
  | ok pid =>
    simp only [startStage, hs] at h
    by_cases hi : i = 0
    · simp only [hi, if_true] at h
      injection h with h
      subst h
      subst hi
      refine ⟨⟨?_, ?_⟩, rfl, ?_, ?_⟩
      · intro e he
        simp only [List.mem_append, List.mem_singleton] at he
        rcases he with ((he | he) | he) | he
        · exact Or.inl (List.mem_append_left _ he)
        · subst he
          exact Or.inr ⟨rfl, rfl, by simp [Event.started]⟩
        · right
          split at he
          · simp only [List.mem_singleton] at he
            subst he
            exact ⟨rfl, rfl, by simp [Event.started]⟩
          · simp at he
        · exact Or.inl (List.mem_append_right _ he)
      · intro e he
        simp [he]
      · intro _
        exact ⟨⟨spec.args, stageStdin 0 spec, stageStdout n 0 spec, 0⟩, by simp⟩
      · intro hne
        exact absurd rfl hne
    · simp only [hi, if_false] at h
      injection h with h
      subst h
      refine ⟨⟨?_, ?_⟩, rfl, ?_, ?_⟩
      · intro e he
        simp only [List.mem_append, List.mem_singleton] at he
        rcases he with ((he | he) | he) | he
        · exact Or.inl (List.mem_append_left _ he)
        · subst he
          exact Or.inr ⟨rfl, rfl, by simp [Event.started]⟩
        · right
          split at he
          · simp only [List.mem_singleton] at he
            subst he
            exact ⟨rfl, rfl, by simp [Event.started]⟩
          · simp at he
        · exact Or.inl (List.mem_append_right _ he)
      · intro e he
        simp [he]
      · intro h0
        exact absurd h0 hi
      · intro _
        rfl

theorem startStage_error (os : OS) (n i : Nat) (spec : CmdSpec) (st : StartState) (r : Early)
    (h : startStage os n i spec st = Except.error r) :
    r.addsQuiet st ∧ r.exit = 1 ∧ r.err.isSome = true := by
  cases hs : os.startRes i with
  | ok pid =>
    simp only [startStage, hs] at h
    split at h <;> simp at h
  | error e =>
    simp only [startStage, hs] at h
    injection h with h
    subst h
    refine ⟨?_, rfl, rfl⟩
    intro e he
    simp only [List.mem_append, List.mem_cons, List.mem_singleton, List.not_mem_nil,
      or_false] at he
    rcases he with (he | he | he) | he
    · exact Or.inl (List.mem_append_left _ he)
    · subst he
      exact Or.inr ⟨rfl, rfl, rfl⟩
    · subst he
      exact Or.inr ⟨rfl, rfl, rfl⟩
    · exact Or.inl (List.mem_append_right _ he)

end MiniShell

namespace MiniShell

theorem Event.quiet.fresh {e : Event} (h : e.quiet) (i : Nat) : e.fresh i :=
  ⟨h.1, h.2.1, fun j hj => by rw [h.2.2] at hj; exact absurd hj (by simp)⟩

/-- Opening a file before a stage is started keeps what the start adds fresh. -/
theorem StartState.addsFresh_of_opened (i : Nat) (st st1 : StartState) (x y : Event)
    (hx : x.quiet) (hy : y.quiet)
    (h : StartState.addsFresh i ⟨st.events ++ [x], y :: st.deferred, st.firstPid, st.procs⟩ st1) :
    st.addsFresh i st1 := by
  refine ⟨?_, ?_⟩
  · intro e he
    rcases h.1 e he with h1 | h1
    · simp only [List.mem_append, List.mem_singleton, List.mem_cons, List.not_mem_nil,
        or_false] at h1
      rcases h1 with (h1 | h1) | h1 | h1
      · exact Or.inl (List.mem_append_left _ h1)
      · subst h1
        exact Or.inr (hx.fresh i)
      · subst h1
        exact Or.inr (hy.fresh i)
      · exact Or.inl (List.mem_append_right _ h1)
    · exact Or.inr h1
  · intro e he
    exact h.2 e (List.mem_append_left _ he)

theorem Early.addsQuiet_of_opened (st : StartState) (r : Early) (x y : Event)
    (hx : x.quiet) (hy : y.quiet)
    (h : r.addsQuiet ⟨st.events ++ [x], y :: st.deferred, st.firstPid, st.procs⟩) :
    r.addsQuiet st := by
  intro e he
  rcases h e he with h1 | h1
  · simp only [List.mem_append, List.mem_singleton, List.mem_cons, List.not_mem_nil,
      or_false] at h1
    rcases h1 with (h1 | h1) | h1 | h1
    · exact Or.inl (List.mem_append_left _ h1)
    · subst h1
      exact Or.inr hx
    · subst h1
      exact Or.inr hy
    · exact Or.inl (List.mem_append_right _ h1)
  · exact Or.inr h1

/-- An early return on a failed open or create adds quiet events only. -/
theorem Early.addsQuiet_of_failed (st : StartState) (x y : Event) (hx : x.quiet) (hy : y.quiet)
    (exit : Int) (err : Option String) :
    Early.addsQuiet st ⟨st.events ++ [x, y] ++ st.deferred, exit, err⟩ := by
  intro e he
  simp only [List.mem_append, List.mem_cons, List.mem_singleton, List.not_mem_nil,
    or_false] at he
  rcases he with (he | he | he) | he
  · exact Or.inl (List.mem_append_left _ he)
  · subst he
    exact Or.inr hx
  · subst he
    exact Or.inr hy
  · exact Or.inl (List.mem_append_right _ he)

theorem outputThenStart_ok (os : OS) (n i : Nat) (spec : CmdSpec) (st st1 : StartState)
    (h : outputThenStart os n i spec st = Except.ok st1) :
    st.addsFresh i st1 ∧ st1.procs = st.procs ++ [i] ∧
    (i = 0 → ∃ c, Event.start 0 c (some st1.firstPid) ∈ st1.events) ∧
    (i ≠ 0 → st1.firstPid = st.firstPid) := by
  unfold outputThenStart at h
  split at h
  · cases hc : os.createErr spec.outFile with
    | some e => simp [hc] at h
    | none =>
      simp only [hc] at h
      have h1 := startStage_ok os n i spec _ st1 h
      exact ⟨StartState.addsFresh_of_opened i st st1 (Event.createFile spec.outFile)
          (Event.closeFile spec.outFile) ⟨rfl, rfl, rfl⟩ ⟨rfl, rfl, rfl⟩ h1.1,
        h1.2.1, h1.2.2.1, h1.2.2.2⟩
  · exact startStage_ok os n i spec st st1 h

theorem outputThenStart_error (os : OS) (n i : Nat) (spec : CmdSpec) (st : StartState)
    (r : Early) (h : outputThenStart os n i spec st = Except.error r) :
    r.addsQuiet st ∧ r.exit = 1 ∧ r.err.isSome = true := by
  unfold outputThenStart at h
  split at h
  · cases hc : os.createErr spec.outFile with
    | some e =>
      simp only [hc] at h
      injection h with h
      subst h
      exact ⟨Early.addsQuiet_of_failed st (Event.createFile spec.outFile)
        (Event.report ("create output: " ++ e)) ⟨rfl, rfl, rfl⟩ ⟨rfl, rfl, rfl⟩ 1 (some e),
        rfl, rfl⟩
    | none =>
      simp only [hc] at h
      have h1 := startStage_error os n i spec _ r h
      exact ⟨Early.addsQuiet_of_opened st r (Event.createFile spec.outFile)
        (Event.closeFile spec.outFile) ⟨rfl, rfl, rfl⟩ ⟨rfl, rfl, rfl⟩ h1.1, h1.2⟩
  · exact startStage_error os n i spec st r h

theorem stageStep_ok (os : OS) (n i : Nat) (spec : CmdSpec) (st st1 : StartState)
    (hargs : spec.args ≠ []) (h : stageStep os n i spec st = Except.ok st1) :
    st.addsFresh i st1 ∧ st1.procs = st.procs ++ [i] ∧
    (i = 0 → ∃ c, Event.start 0 c (some st1.firstPid) ∈ st1.events) ∧
    (i ≠ 0 → st1.firstPid = st.firstPid) := by
  have hlen : ¬ spec.args.length = 0 := by
    simpa [List.length_eq_zero] using hargs
  unfold stageStep at h
  rw [if_neg hlen] at h
  split at h
  · cases hc : os.openErr spec.inFile with
    | some e => simp [hc] at h
    | none =>
      simp only [hc] at h
      have h1 := outputThenStart_ok os n i spec _ st1 h
      exact ⟨StartState.addsFresh_of_opened i st st1 (Event.openFile spec.inFile)
          (Event.closeFile spec.inFile) ⟨rfl, rfl, rfl⟩ ⟨rfl, rfl, rfl⟩ h1.1,
        h1.2.1, h1.2.2.1, h1.2.2.2⟩
  · exact outputThenStart_ok os n i spec st st1 h

theorem stageStep_error (os : OS) (n i : Nat) (spec : CmdSpec) (st : StartState)
    (r : Early) (h : stageStep os n i spec st = Except.error r) :
    r.addsQuiet st ∧ r.exit = 1 ∧ r.err.isSome = true := by
  unfold stageStep at h
  split at h
  · simp at h
  · split at h
    · cases hc : os.openErr spec.inFile with
      | some e =>
        simp only [hc] at h
        injection h with h
        subst h
        exact ⟨Early.addsQuiet_of_failed st (Event.openFile spec.inFile)
          (Event.report ("open input: " ++ e)) ⟨rfl, rfl, rfl⟩ ⟨rfl, rfl, rfl⟩ 1 (some e),
          rfl, rfl⟩
      | none =>
        simp only [hc] at h
        have h1 := outputThenStart_error os n i spec _ r h
        exact ⟨Early.addsQuiet_of_opened st r (Event.openFile spec.inFile)
          (Event.closeFile spec.inFile) ⟨rfl, rfl, rfl⟩ ⟨rfl, rfl, rfl⟩ h1.1, h1.2⟩
    · exact outputThenStart_error os n i spec st r h

end MiniShell

namespace MiniShell

theorem stageStep_addsFresh (os : OS) (n i : Nat) (spec : CmdSpec) (st st1 : StartState)
    (h : stageStep os n i spec st = Except.ok st1) : st.addsFresh i st1 := by
  by_cases hargs : spec.args = []
  · have hlen : spec.args.length = 0 := by simp [hargs]
    unfold stageStep at h
    rw [if_pos hlen] at h
    injection h with h
    subst h
    exact ⟨fun e he => Or.inl he, fun e he => he⟩
  · exact (stageStep_ok os n i spec st st1 hargs h).1

/-- The third loop, when it ends without an early return, has started every
stage in order. -/
theorem startStages_ok (os : OS) (n : Nat) (specs : List CmdSpec) :
    ∀ (i : Nat) (st st1 : StartState), (∀ s ∈ specs, s.args ≠ []) →
      startStages os n i specs st = Except.ok st1 →
      (∀ e ∈ st1.events ++ st1.deferred,
        e ∈ st.events ++ st.deferred ∨ (e.isWait = false ∧ e.isSetFg = false)) ∧
      st1.procs = st.procs ++ List.range' i specs.length ∧
      (i = 0 → specs ≠ [] → ∃ c, Event.start 0 c (some st1.firstPid) ∈ st1.events) ∧
      (i ≠ 0 → st1.firstPid = st.firstPid) ∧
      (∀ e ∈ st.events, e ∈ st1.events) := by
  induction specs with
  | nil =>
    intro i st st1 _ h
    simp only [startStages] at h
    injection h with h
    subst h
    exact ⟨fun e he => Or.inl he, by simp, fun _ hne => absurd rfl hne, fun _ => rfl,
      fun e he => he⟩
  | cons spec rest ih =>
    intro i st st1 hargs h
    simp only [startStages] at h
    cases hs : stageStep os n i spec st with
    | error r => simp [hs] at h
    | ok st0 =>
      simp only [hs] at h
      have h0 := stageStep_ok os n i spec st st0 (hargs spec (List.mem_cons_self _ _)) hs
      have h1 := ih (i + 1) st0 st1 (fun s hs => hargs s (List.mem_cons_of_mem _ hs)) h
      refine ⟨?_, ?_, ?_, ?_, ?_⟩
      · intro e he
        rcases h1.1 e he with he1 | he1
        · rcases h0.1.1 e he1 with he0 | he0
          · exact Or.inl he0
          · exact Or.inr ⟨he0.1, he0.2.1⟩
        · exact Or.inr he1
      · rw [h1.2.1, h0.2.1, List.length_cons, List.range'_succ, List.append_assoc]
        rfl
      · intro hi _
        obtain ⟨c, hc⟩ := h0.2.2.1 hi
        have hfp : st1.firstPid = st0.firstPid := h1.2.2.2.1 (by omega)
        rw [hfp]
        exact ⟨c, h1.2.2.2.2 _ hc⟩
      · intro hi
        rw [h1.2.2.2.1 (by omega), h0.2.2.2 hi]
      · intro e he
        exact h1.2.2.2.2 e (h0.1.2 e he)

/-- The third loop, when it returns early, has not started the last stage. -/
theorem startStages_error (os : OS) (n : Nat) (specs : List CmdSpec) :
    ∀ (i : Nat) (st : StartState) (r : Early),
      startStages os n i specs st = Except.error r →
      (∀ e ∈ r.events, e ∈ st.events ++ st.deferred ∨
        (e.isWait = false ∧ e.isSetFg = false ∧
          ∀ j, e.started = some j → j + 1 < i + specs.length)) ∧
      r.exit = 1 ∧ r.err.isSome = true := by
  induction specs with
  | nil =>
    intro i st r h
    simp [startStages] at h
  | cons spec rest ih =>
    intro i st r h
    simp only [startStages] at h
    cases hs : stageStep os n i spec st with
    | error r0 =>
      simp only [hs] at h
      injection h with h
      subst h
      have h0 := stageStep_error os n i spec st r0 hs
      refine ⟨?_, h0.2⟩
      intro e he
      rcases h0.1 e he with he0 | he0
      · exact Or.inl he0
      · refine Or.inr ⟨he0.1, he0.2.1, ?_⟩
        intro j hj
        rw [he0.2.2] at hj
        exact absurd hj (by simp)
    | ok st0 =>
      simp only [hs] at h
      have h0 := stageStep_addsFresh os n i spec st st0 hs
      have h1 := ih (i + 1) st0 r h
      have hrest : 0 < rest.length := by
        cases rest with
        | nil => simp [startStages] at h
        | cons _ _ => simp
      refine ⟨?_, h1.2⟩
      intro e he
      rcases h1.1 e he with he1 | he1
      · rcases h0.1 e he1 with he0 | he0
        · exact Or.inl he0
        · refine Or.inr ⟨he0.1, he0.2.1, ?_⟩
          intro j hj
          have := he0.2.2 j hj
          simp only [List.length_cons]
          omega
      · refine Or.inr ⟨he1.1, he1.2.1, ?_⟩
        intro j hj
        have := he1.2.2 j hj
        simp only [List.length_cons]
        omega

theorem parseStages_ok (parts : List Str) :
    ∀ specs specs1 : List CmdSpec, (∀ s ∈ specs, s.args ≠ []) →
      parseStages parts specs = Except.ok specs1 →
      (∀ s ∈ specs1, s.args ≠ []) ∧ specs1.length = specs.length + parts.length := by
  induction parts with
  | nil =>
    intro specs specs1 hs h
    simp only [parseStages] at h
    injection h with h
    subst h
    exact ⟨hs, rfl⟩
  | cons p rest ih =>
    intro specs specs1 hs h
    simp only [parseStages] at h
    cases he : (parseCommand p).err with
    | some e => simp [he] at h
    | none =>
      simp only [he] at h
      split at h
      · simp at h
      · rename_i hlen
        have hne : (parseCommand p).args ≠ [] := by
          intro h0
          exact hlen (by simp [h0])
        have h1 := ih _ specs1 (by
          intro s hsmem
          rcases List.mem_append.mp hsmem with hsm | hsm
          · exact hs s hsm
          · simp only [List.mem_singleton] at hsm
            subst hsm
            exact hne) h
        refine ⟨h1.1, ?_⟩
        have hl := h1.2
        rw [List.length_append, List.length_singleton] at hl
        rw [hl, List.length_cons]
        omega

theorem parseStages_error (parts : List Str) :
    ∀ (specs : List CmdSpec) (r : Early), parseStages parts specs = Except.error r →
      ∀ e ∈ r.events, e.quiet := by
  induction parts with
  | nil => intro specs r h; simp [parseStages] at h
  | cons p rest ih =>
    intro specs r h
    simp only [parseStages] at h
    cases he : (parseCommand p).err with
    | some e =>
      simp only [he] at h
      injection h with h
      subst h
      intro e hmem
      simp only [List.mem_singleton] at hmem
      subst hmem
      exact ⟨rfl, rfl, rfl⟩
    | none =>
      simp only [he] at h
      split at h
      · injection h with h
        subst h
        intro e hmem
        simp at hmem
      · exact ih _ r h

theorem makePipes_events (os : OS) (is : List Nat) :
    ∀ ev : List Event, (∀ e ∈ ev, e.quiet) →
      (∀ r, makePipes os is ev = Except.error r → ∀ e ∈ r.events, e.quiet) ∧
      (∀ ev1, makePipes os is ev = Except.ok ev1 → ∀ e ∈ ev1, e.quiet) := by
  induction is with
  | nil =>
    intro ev hev
    refine ⟨fun r h => by simp [makePipes] at h, fun ev1 h => ?_⟩
    simp only [makePipes] at h
    injection h with h
    subst h
    exact hev
  | cons i rest ih =>
    intro ev hev
    have hev1 : ∀ e ∈ ev ++ [Event.pipe i], e.quiet := by
      intro e he
      rcases List.mem_append.mp he with he | he
      · exact hev e he
      · simp only [List.mem_singleton] at he
        subst he
        exact ⟨rfl, rfl, rfl⟩
    cases hp : os.pipeErr i with
    | some e =>
      refine ⟨fun r h => ?_, fun ev1 h => by simp [makePipes, hp] at h⟩
      simp only [makePipes, hp] at h
      injection h with h
      subst h
      exact hev1
    | none =>
      have h1 := ih (ev ++ [Event.pipe i]) hev1
      exact ⟨fun r h => h1.1 r (by simpa [makePipes, hp] using h),
        fun ev1 h => h1.2 ev1 (by simpa [makePipes, hp] using h)⟩

end MiniShell

namespace MiniShell

theorem waitAll_append (os : OS) (ps qs : List Nat) :
    ∀ st : WaitState, waitAll os (ps ++ qs) st = waitAll os qs (waitAll os ps st) := by
  induction ps with
  | nil => intro st; rfl
  | cons p ps ih =>
    intro st
    rw [List.cons_append]
    simp only [waitAll]
    exact ih _

theorem waitAll_events (os : OS) (ps : List Nat) :
    ∀ st : WaitState, (waitAll os ps st).events = st.events ++ ps.map Event.wait := by
  induction ps with
  | nil => intro st; simp [waitAll]
  | cons p ps ih => intro st; simp [waitAll, ih]

/-- The wait loop keeps the results of the last stage it waits on. -/
theorem waitAll_last (os : OS) (ps : List Nat) (p : Nat) (st : WaitState) :
    (waitAll os (ps ++ [p]) st).lastExit = (os.waitRes p).exit ∧
    (waitAll os (ps ++ [p]) st).lastErr = (os.waitRes p).err := by
  rw [waitAll_append]
  simp [waitAll]

theorem fgAfter_append (a b : List Event) :
    ∀ fg : Int, fgAfter fg (a ++ b) = fgAfter (fgAfter fg a) b := by
  induction a with
  | nil => intro fg; rfl
  | cons e a ih => intro fg; cases e <;> simp [fgAfter, ih]

theorem fgAtWaits_append (a b : List Event) :
    ∀ fg : Int, fgAtWaits fg (a ++ b) = fgAtWaits fg a ++ fgAtWaits (fgAfter fg a) b := by
  induction a with
  | nil => intro fg; rfl
  | cons e a ih => intro fg; cases e <;> simp [fgAtWaits, fgAfter, ih]

/-- Events that neither wait nor assign leave `fgPgID` as it is and hold no wait. -/
theorem fgAfter_of_silent (a : List Event)
    (h : ∀ e ∈ a, e.isWait = false ∧ e.isSetFg = false) :
    ∀ fg : Int, fgAfter fg a = fg ∧ fgAtWaits fg a = [] := by
  induction a with
  | nil => intro fg; exact ⟨rfl, rfl⟩
  | cons e a ih =>
    intro fg
    have he := h e (List.mem_cons_self _ _)
    have ha := ih (fun x hx => h x (List.mem_cons_of_mem _ hx)) fg
    cases e <;> simp_all [fgAfter, fgAtWaits, Event.isWait, Event.isSetFg]

theorem fgAfter_waits (ps : List Nat) :
    ∀ fg : Int, fgAfter fg (ps.map Event.wait) = fg ∧
      fgAtWaits fg (ps.map Event.wait) = ps.map (fun i => (i, fg)) := by
  induction ps with
  | nil => intro fg; exact ⟨rfl, rfl⟩
  | cons p ps ih => intro fg; simp [fgAfter, fgAtWaits, ih]

theorem closePipes_silent (m : Nat) : ∀ e ∈ closePipes m, e.isWait = false ∧ e.isSetFg = false := by
  intro e he
  simp only [closePipes, List.mem_append, List.mem_map] at he
  rcases he with ⟨i, _, rfl⟩ | ⟨i, _, rfl⟩ <;> exact ⟨rfl, rfl⟩

/-- The two ways `runPipeline` returns.  Either it returns early: no wait, no
assignment to `fgPgID`, and the last stage is not started.  Or it runs to the
end: the events are those of the first three loops and the closes, the
assignment of the process id of stage 0 to `fgPgID`, one wait per stage in
order, the assignment of 0, and the deferred closes; and the results are
those of the wait on the last stage. -/
theorem runPipeline_cases (os : OS) (fg : Int) (parts : List Str) (r : Run)
    (h : runPipeline os fg parts = some r) :
    (r.fg = fg ∧ 0 < parts.length ∧
      ∀ e ∈ r.events, e.isWait = false ∧ e.isSetFg = false ∧
        ∀ j, e.started = some j → j + 1 < parts.length) ∨
    (∃ (pre post : List Event) (pid : Int),
      r.events = pre ++ Event.setFg pid :: (List.range parts.length).map Event.wait
        ++ Event.setFg 0 :: post ∧
      (∀ e ∈ pre ++ post, e.isWait = false ∧ e.isSetFg = false) ∧
      (∃ c, Event.start 0 c (some pid) ∈ pre) ∧
      r.fg = 0 ∧ 0 < parts.length ∧
      r.exit = (os.waitRes (parts.length - 1)).exit ∧
      r.err = (os.waitRes (parts.length - 1)).err) := by
  unfold runPipeline at h
  cases hp : parseStages parts [] with
  | error r0 =>
    simp only [hp] at h
    injection h with h
    subst h
    have hq := parseStages_error parts [] r0 hp
    have hpos : 0 < parts.length := by
      cases parts with
      | nil => simp [parseStages] at hp
      | cons _ _ => simp
    refine Or.inl ⟨rfl, hpos, ?_⟩
    intro e he
    have := hq e he
    exact ⟨this.1, this.2.1, fun j hj => by rw [this.2.2] at hj; exact absurd hj (by simp)⟩
  | ok specs =>
    simp only [hp] at h
    have hspecs := parseStages_ok parts [] specs (by simp) hp
    by_cases hn : parts.length = 0
    · simp [hn] at h
    · rw [if_neg hn] at h
      have hpos : 0 < parts.length := Nat.pos_of_ne_zero hn
      have hpipes := makePipes_events os (List.range (parts.length - 1)) [] (by simp)
      cases hm : makePipes os (List.range (parts.length - 1)) [] with
      | error r0 =>
        simp only [hm] at h
        injection h with h
        subst h
        refine Or.inl ⟨rfl, hpos, ?_⟩
        intro e he
        have := hpipes.1 r0 hm e he
        exact ⟨this.1, this.2.1, fun j hj => by rw [this.2.2] at hj; exact absurd hj (by simp)⟩
      | ok ev =>
        simp only [hm] at h
        have hev := hpipes.2 ev hm
        cases hst : startStages os parts.length 0 specs ⟨ev, [], 0, []⟩ with
        | error r0 =>
          simp only [hst] at h
          injection h with h
          subst h
          have herr := startStages_error os parts.length specs 0 ⟨ev, [], 0, []⟩ r0 hst
          refine Or.inl ⟨rfl, hpos, ?_⟩
          intro e he
          rcases herr.1 e he with he1 | he1
          · simp only [List.append_nil] at he1
            have := hev e he1
            exact ⟨this.1, this.2.1,
              fun j hj => by rw [this.2.2] at hj; exact absurd hj (by simp)⟩
          · refine ⟨he1.1, he1.2.1, fun j hj => ?_⟩
            have := he1.2.2 j hj
            rw [hspecs.2] at this
            simpa using this
        | ok st =>
          simp only [hst] at h
          injection h with h
          subst h
          have hok := startStages_ok os parts.length specs 0 ⟨ev, [], 0, []⟩ st hspecs.1 hst
          have hlen : specs.length = parts.length := by simpa using hspecs.2
          have hprocs : st.procs = List.range parts.length := by
            rw [hok.2.1, hlen, List.range_eq_range']
            rfl
          have hne : specs ≠ [] := by
            intro h0
            rw [h0] at hlen
            simp at hlen
            omega
          obtain ⟨c, hc⟩ := hok.2.2.1 rfl hne
          have hsilent : ∀ e ∈ st.events ++ st.deferred, e.isWait = false ∧ e.isSetFg = false := by
            intro e he
            rcases hok.1 e he with he1 | he1
            · simp only [List.append_nil] at he1
              exact ⟨(hev e he1).1, (hev e he1).2.1⟩
            · exact he1
          have hlast : List.range parts.length = List.range (parts.length - 1) ++ [parts.length - 1] := by
            have : parts.length = (parts.length - 1) + 1 := by omega
            conv_lhs => rw [this]
            exact List.range_succ (parts.length - 1)
          refine Or.inr ⟨st.events ++ closePipes (parts.length - 1), st.deferred, st.firstPid,
            ?_, ?_, ⟨c, List.mem_append_left _ hc⟩, rfl, hpos, ?_, ?_⟩
          · simp only [waitAll_events, hprocs]
            simp [List.append_assoc]
          · intro e he
            simp only [List.mem_append] at he
            rcases he with (he | he) | he
            · exact hsilent e (List.mem_append_left _ he)
            · exact closePipes_silent _ e he
            · exact hsilent e (List.mem_append_right _ he)
          · simp only [hprocs]
            rw [hlast]
            exact (waitAll_last os _ _ _).1
          · simp only [hprocs]
            rw [hlast]
            exact (waitAll_last os _ _ _).2

end MiniShell

namespace MiniShell

/-- C12, as the claim states it, fails when the last stage is killed by a
signal: both stages of `ls` and `cat` start, the wait on stage 1 returns an
`*exec.ExitError` for a process killed by signal 9, which is a wait error
other than a non-zero exit, and `runPipeline` returns the exit status -1
(the `ExitStatus()` of a process that did not exit), not 1. -/
theorem runPipeline_exit_of_killed_last :
    osKilled.waitRes 1 = WaitResult.exitError "signal: killed" (WaitStatus.signaled 9) ∧
    runPipeline osKilled 0 [bytes "ls", bytes "cat"] = some killedLastRun ∧
    killedLastRun.exit = -1 ∧
    killedLastRun.exit ≠ 1 ∧
    killedLastRun.err = some "signal: killed" := by
  decide

/-- C12, amended: when all `N` stages of a pipeline start, the exit status and
the error that `runPipeline` returns are those of the wait on stage `N-1`
alone, whatever the waits on the earlier stages return: 0 and nil if that wait
succeeds; if it returns an `*exec.ExitError` with a wait status, the
`ExitStatus()` of that status, which is the exit code of a stage that exited
and -1 for a stage killed by a signal; 1 for any other error of the wait. -/
theorem runPipeline_exit_of_last (os : OS) (fg : Int) (parts : List Str) (r : Run)
    (h : runPipeline os fg parts = some r)
    (hall : ∀ i, i < parts.length → ∃ c pid, Event.start i c (some pid) ∈ r.events) :
    r.exit = (os.waitRes (parts.length - 1)).exit ∧
    r.err = (os.waitRes (parts.length - 1)).err ∧
    (os.waitRes (parts.length - 1) = WaitResult.success → r.exit = 0 ∧ r.err = none) ∧
    (∀ e code, os.waitRes (parts.length - 1) = WaitResult.exitError e (WaitStatus.exited code) →
      r.exit = ((code % 256 : Nat) : Int) ∧ r.err = some e) ∧
    (∀ e signal,
      os.waitRes (parts.length - 1) = WaitResult.exitError e (WaitStatus.signaled signal) →
      r.exit = -1 ∧ r.err = some e) ∧
    (∀ e, os.waitRes (parts.length - 1) = WaitResult.exitOther e ∨
        os.waitRes (parts.length - 1) = WaitResult.failed e → r.exit = 1 ∧ r.err = some e) := by
  have key : r.exit = (os.waitRes (parts.length - 1)).exit ∧
      r.err = (os.waitRes (parts.length - 1)).err := by
    rcases runPipeline_cases os fg parts r h with ⟨_, hpos, hev⟩ | ⟨_, _, _, _, _, _, _, _, he, hr⟩
    · obtain ⟨c, pid, hmem⟩ := hall (parts.length - 1) (by omega)
      have := (hev _ hmem).2.2 (parts.length - 1) rfl
      omega
    · exact ⟨he, hr⟩
  refine ⟨key.1, key.2, ?_, ?_, ?_, ?_⟩
  · intro hw
    rw [key.1, key.2, hw]
    exact ⟨rfl, rfl⟩
  · intro e code hw
    rw [key.1, key.2, hw]
    exact ⟨rfl, rfl⟩
  · intro e signal hw
    rw [key.1, key.2, hw]
    exact ⟨rfl, rfl⟩
  · intro e hw
    rw [key.1, key.2]
    rcases hw with hw | hw <;> rw [hw] <;> exact ⟨rfl, rfl⟩

/-- C12, amended, at the stages `ls < a` and `wc > f`: both stages start, the
wait on stage 0 succeeds and stage 1 exits with code 1, which is what is
returned. -/
theorem runPipeline_exit_of_last_witness :
    runPipeline osExample 0 [bytes "ls < a", bytes "wc > f"] = some pipelineExampleRun ∧
    pipelineExampleRun.exit = (osExample.waitRes 1).exit ∧
    pipelineExampleRun.err = (osExample.waitRes 1).err ∧
    pipelineExampleRun.exit = 1 :=
  ⟨by decide,
    (runPipeline_exit_of_last osExample 0 [bytes "ls < a", bytes "wc > f"] pipelineExampleRun
      (by decide)
      (fun i hi => by
        have hi2 : i < 2 := hi
        rcases (by omega : i = 0 ∨ i = 1) with rfl | rfl
        · exact ⟨⟨[bytes "ls"], Stream.file (bytes "a"), Stream.pipeWrite 0, 0⟩, 100,
            by decide⟩
        · exact ⟨⟨[bytes "wc"], Stream.pipeRead 0, Stream.file (bytes "f"), 100⟩, 101,
            by decide⟩)).1,
    (runPipeline_exit_of_last osExample 0 [bytes "ls < a", bytes "wc > f"] pipelineExampleRun
      (by decide)
      (fun i hi => by
        have hi2 : i < 2 := hi
        rcases (by omega : i = 0 ∨ i = 1) with rfl | rfl
        · exact ⟨⟨[bytes "ls"], Stream.file (bytes "a"), Stream.pipeWrite 0, 0⟩, 100,
            by decide⟩
        · exact ⟨⟨[bytes "wc"], Stream.pipeRead 0, Stream.file (bytes "f"), 100⟩, 101,
            by decide⟩)).2.1,
    by decide⟩

/-- C13, the code on the two stages `ls` and `nosuchcmd` when starting stage 1
fails: stage 0 has been started with process id 100, no further stage is
started and exit status 1 is returned with the error, but no wait is made on
stage 0 (and `fgPgID` is never assigned): the `return` on the failed start
leaves the function before the wait loop. -/
theorem runPipeline_start_failure_skips_wait :
    runPipeline osStartFails 0 [bytes "ls", bytes "nosuchcmd"] = some startFailureRun ∧
    Event.start 0 ⟨[bytes "ls"], Stream.inherited, Stream.pipeWrite 0, 0⟩ (some 100)
      ∈ startFailureRun.events ∧
    startFailureRun.events.any Event.isWait = false ∧
    startFailureRun.exit = 1 ∧ startFailureRun.err = some "executable file not found" := by
  decide

/-- C14: on every path of `runPipeline` entered with `fgPgID = 0`, `fgPgID` is
0 on return; every wait is made while `fgPgID` is the process id with which
stage 0 was started; and either the path has no wait and no assignment to
`fgPgID` at all (the early returns), or its events are: events without wait or
assignment, the assignment of that process id, the waits on the stages in
order, the assignment of 0, and events without wait or assignment. -/
theorem runPipeline_foreground (os : OS) (parts : List Str) (r : Run)
    (h : runPipeline os 0 parts = some r) :
    r.fg = 0 ∧ fgAfter 0 r.events = 0 ∧
    (∀ p ∈ fgAtWaits 0 r.events, ∃ c, Event.start 0 c (some p.2) ∈ r.events) ∧
    ((∀ e ∈ r.events, e.isWait = false ∧ e.isSetFg = false) ∨
      ∃ (pre post : List Event) (pid : Int),
        r.events = pre ++ Event.setFg pid :: (List.range parts.length).map Event.wait
          ++ Event.setFg 0 :: post ∧
        ∀ e ∈ pre ++ post, e.isWait = false ∧ e.isSetFg = false) := by
  rcases runPipeline_cases os 0 parts r h with
    ⟨hfg, _, hev⟩ | ⟨pre, post, pid, hevents, hsilent, ⟨c, hc⟩, hfg, _, _, _⟩
  · have hs : ∀ e ∈ r.events, e.isWait = false ∧ e.isSetFg = false :=
      fun e he => ⟨(hev e he).1, (hev e he).2.1⟩
    have hq := fgAfter_of_silent r.events hs 0
    refine ⟨hfg, hq.1, ?_, Or.inl hs⟩
    rw [hq.2]
    intro p hp
    simp at hp
  · have hpre := fgAfter_of_silent pre (fun e he => hsilent e (List.mem_append_left _ he))
    have hpost := fgAfter_of_silent post (fun e he => hsilent e (List.mem_append_right _ he))
    have hw := fgAfter_waits (List.range parts.length)
    have hev2 : r.events = pre ++ (Event.setFg pid :: ((List.range parts.length).map Event.wait
        ++ (Event.setFg 0 :: post))) := by
      rw [hevents]
      simp
    refine ⟨hfg, ?_, ?_, Or.inr ⟨pre, post, pid, hevents, hsilent⟩⟩
    · rw [hev2, fgAfter_append, (hpre 0).1]
      show fgAfter pid _ = 0
      rw [fgAfter_append, (hw pid).1]
      exact (hpost 0).1
    · rw [hev2, fgAtWaits_append, (hpre 0).1, (hpre 0).2, List.nil_append]
      show ∀ p ∈ fgAtWaits pid _, _
      rw [fgAtWaits_append, (hw pid).1, (hw pid).2]
      have htail : fgAtWaits pid (Event.setFg 0 :: post) = [] := (hpost 0).2
      rw [htail, List.append_nil]
      intro p hp
      rw [List.mem_map] at hp
      obtain ⟨i, _, rfl⟩ := hp
      exact ⟨c, List.mem_append_left _ hc⟩

end MiniShell

namespace MiniShell

/-- C14 at the stages `ls < a` and `wc > f`: both waits are made while `fgPgID`
is 100, the process id of stage 0, and it is 0 on return. -/
theorem runPipeline_foreground_witness :
    runPipeline osExample 0 [bytes "ls < a", bytes "wc > f"] = some pipelineExampleRun ∧
    fgAtWaits 0 pipelineExampleRun.events = [(0, 100), (1, 100)] ∧
    pipelineExampleRun.fg = 0 ∧ fgAfter 0 pipelineExampleRun.events = 0 :=
  ⟨by decide, by decide,
    (runPipeline_foreground osExample [bytes "ls < a", bytes "wc > f"] pipelineExampleRun
      (by decide)).1,
    (runPipeline_foreground osExample [bytes "ls < a", bytes "wc > f"] pipelineExampleRun
      (by decide)).2.1⟩

/-! ## runBuiltin -/

theorem builtinSwitch_echo (os : OS) (rest : List Str) (sin out : Stream) :
    builtinSwitch os (bytes "echo") rest sin out
      = ([Event.write out (stringsJoin rest [32] ++ [10])], 0, none) := by
  unfold builtinSwitch
  rw [if_neg (by decide), if_neg (by decide), if_pos rfl]

/-- The call `runBuiltin` on `echo` with its redirections resolved: the events
are the open and the create, the write, and the deferred closes. -/
theorem runBuiltin_echo_eq (os : OS) (fg : Int) (rest : List Str) (inFile outFile : Str)
    (hin : inFile = [] ∨ os.openErr inFile = none)
    (hout : outFile = [] ∨ os.createErr outFile = none) :
    runBuiltin os fg (bytes "echo" :: rest) inFile outFile
      = some ⟨(if inFile = [] then [] else [Event.openFile inFile])
          ++ (if outFile = [] then [] else [Event.createFile outFile])
          ++ [Event.write (resolvedOut outFile) (stringsJoin rest [32] ++ [10])]
          ++ (if outFile = [] then [] else [Event.closeFile outFile])
          ++ (if inFile = [] then [] else [Event.closeFile inFile]), fg, 0, none⟩ := by
  by_cases hi : inFile = []
  · by_cases ho : outFile = []
    · simp [runBuiltin, runBuiltinFrom, builtinSwitch_echo, resolvedOut, hi, ho]
    · have hc : os.createErr outFile = none := hout.resolve_left ho
      simp [runBuiltin, runBuiltinFrom, builtinSwitch_echo, resolvedOut, hi, ho, hc]
  · have hop : os.openErr inFile = none := hin.resolve_left hi
    by_cases ho : outFile = []
    · simp [runBuiltin, runBuiltinFrom, builtinSwitch_echo, resolvedOut, hi, ho, hop]
    · have hc : os.createErr outFile = none := hout.resolve_left ho
      simp [runBuiltin, runBuiltinFrom, builtinSwitch_echo, resolvedOut, hi, ho, hop, hc]

/-- C15: with its redirections resolved (no input file or one that opens, no
output file or one that is created), `runBuiltin` on `echo` and the arguments
`rest` returns exit 0 and no error, and its only write is
`strings.Join(rest, " ")` followed by one line feed, to the resolved output
stream.  The line `echo hi > f` parses to the args `echo`, `hi`, no inFile and
outFile `f`, and what `runBuiltin` then writes to `f` is exactly `hi` and a
line feed. -/
theorem runBuiltin_echo (os : OS) (fg : Int) (rest : List Str) (inFile outFile : Str)
    (hin : inFile = [] ∨ os.openErr inFile = none)
    (hout : outFile = [] ∨ os.createErr outFile = none) :
    (∃ r, runBuiltin os fg (bytes "echo" :: rest) inFile outFile = some r ∧
      r.exit = 0 ∧ r.err = none ∧
      r.events.filter Event.isWrite
        = [Event.write (resolvedOut outFile) (stringsJoin rest [32] ++ [10])]) ∧
    parseCommand (bytes "echo hi > f") = ⟨[bytes "echo", bytes "hi"], [], bytes "f", none⟩ ∧
    (os.createErr (bytes "f") = none →
      ∃ r, runBuiltin os fg (parseCommand (bytes "echo hi > f")).args
          (parseCommand (bytes "echo hi > f")).inFile
          (parseCommand (bytes "echo hi > f")).outFile = some r ∧
        r.exit = 0 ∧ written (Stream.file (bytes "f")) r.events = bytes "hi\n") := by
  refine ⟨⟨_, runBuiltin_echo_eq os fg rest inFile outFile hin hout, rfl, rfl, ?_⟩,
    by decide, ?_⟩
  · by_cases hi : inFile = [] <;> by_cases ho : outFile = [] <;>
      simp [hi, ho, List.filter, Event.isWrite]
  · intro hc
    have hp : parseCommand (bytes "echo hi > f")
        = ⟨[bytes "echo", bytes "hi"], [], bytes "f", none⟩ := by decide
    rw [hp]
    refine ⟨_, runBuiltin_echo_eq os fg [bytes "hi"] [] (bytes "f") (Or.inl rfl) (Or.inr hc),
      rfl, ?_⟩
    rfl

/-- C15 at `echo a b` with output to `out` in the environment `osExample`. -/
theorem runBuiltin_echo_witness :
    (∃ r, runBuiltin osExample 0 (bytes "echo" :: [bytes "a", bytes "b"]) [] (bytes "out")
        = some r ∧ r.exit = 0 ∧ r.err = none ∧
      r.events.filter Event.isWrite
        = [Event.write (resolvedOut (bytes "out"))
            (stringsJoin [bytes "a", bytes "b"] [32] ++ [10])]) ∧
    stringsJoin [bytes "a", bytes "b"] [32] ++ [10] = bytes "a b\n" ∧
    (∃ r, runBuiltin osExample 0 (parseCommand (bytes "echo hi > f")).args
          (parseCommand (bytes "echo hi > f")).inFile
          (parseCommand (bytes "echo hi > f")).outFile = some r ∧
        r.exit = 0 ∧ written (Stream.file (bytes "f")) r.events = bytes "hi\n") :=
  ⟨(runBuiltin_echo osExample 0 [bytes "a", bytes "b"] [] (bytes "out") (Or.inl rfl)
      (Or.inr rfl)).1,
    by decide,
    (runBuiltin_echo osExample 0 [bytes "a", bytes "b"] [] (bytes "out") (Or.inl rfl)
      (Or.inr rfl)).2.2 rfl⟩

end MiniShell

namespace UnpackString

/-! ## Lemmas on unpackString -/

theorem unpackLoop_other (curr : Nat) (rest result : Runes) (h : isDigit curr = false) :
    unpackLoop (curr :: rest) result = unpackLoop rest (result ++ [curr]) := by
  simp [unpackLoop, h]

/-- A digit after a rune other than the backslash appends that rune
`num - 1` more times. -/
theorem unpackLoop_digit (curr last : Nat) (rest result : Runes) (h : isDigit curr = true)
    (hl : last ≠ 92) :
    unpackLoop (curr :: rest) (result ++ [last])
      = unpackLoop rest
          (result ++ [last] ++ List.replicate (digitValue curr - 1).toNat last) := by
  simp [unpackLoop, h, hl]

/-- A digit after a backslash replaces the backslash. -/
theorem unpackLoop_escaped (curr : Nat) (rest result : Runes) (h : isDigit curr = true) :
    unpackLoop (curr :: rest) (result ++ [92]) = unpackLoop rest (result ++ [curr]) := by
  simp [unpackLoop, h]

/-- Runes that are not digits are copied to the buffer. -/
theorem unpackLoop_plain (p : Runes) (hp : ∀ c ∈ p, isDigit c = false) :
    ∀ rest result : Runes, unpackLoop (p ++ rest) result = unpackLoop rest (result ++ p) := by
  induction p with
  | nil => intro rest result; simp
  | cons c p ih =>
    intro rest result
    rw [List.cons_append, unpackLoop_other c _ _ (hp c (List.mem_cons_self _ _)),
      ih (fun x hx => hp x (List.mem_cons_of_mem _ hx))]
    simp

/-- With a non-empty buffer the loop never fails. -/
theorem unpackLoop_no_error (s : Runes) :
    ∀ result : Runes, result ≠ [] → (unpackLoop s result).2 = none := by
  induction s with
  | nil => intro result _; rfl
  | cons curr rest ih =>
    intro result hne
    unfold unpackLoop
    split
    · split
      · rename_i hlast
        rw [List.getLast?_eq_none_iff] at hlast
        exact absurd hlast hne
      · split
        · exact ih _ (by simp)
        · exact ih _ (by simp [hne])
    · exact ih _ (by simp)

/-- The digits 1 to 9 after a rune that is neither a digit nor a backslash
repeat it that many times; without a digit it stands once. -/
theorem unpackLoop_packed (items : List (Nat × Option Nat))
    (hc : ∀ it ∈ items, isDigit it.1 = false ∧ it.1 ≠ 92)
    (hk : ∀ it ∈ items, ∀ k, it.2 = some k → 49 ≤ k ∧ k ≤ 57) :
    ∀ result : Runes,
      unpackLoop (packed items) result = (result ++ specUnpack items, none) := by
  induction items with
  | nil => intro result; simp [packed, specUnpack, unpackLoop]
  | cons it items ih =>
    intro result
    obtain ⟨c, k⟩ := it
    have hc0 := hc (c, k) (List.mem_cons_self _ _)
    have ih2 := ih (fun x hx => hc x (List.mem_cons_of_mem _ hx))
      (fun x hx => hk x (List.mem_cons_of_mem _ hx))
    cases k with
    | none =>
      simp only [packed, specUnpack]
      rw [unpackLoop_other c _ _ hc0.1, ih2]
      simp
    | some k =>
      have hk0 := hk (c, some k) (List.mem_cons_self _ _) k rfl
      have hd : isDigit k = true := by
        have h48 : 48 ≤ k := by omega
        simp [isDigit, h48, hk0.2]
      have hn : (digitValue k - 1).toNat + 1 = k - 48 := by
        unfold digitValue
        omega
      simp only [packed, specUnpack]
      rw [unpackLoop_other c _ _ hc0.1, unpackLoop_digit k c _ _ hd hc0.2, ih2, ← hn]
      simp [List.replicate_succ]

/-- C17, the code on `a0` and on the strings of the tests: `a4bc2d5e` gives
`aaaabccddddde` and `abcd` is returned unchanged, but on `a0`, which the
specification unpacks to the empty string (`a` repeated 0 times), the code
returns `a`: the inner loop adds `num - 1` copies to the one already in the
buffer and removes nothing when `num` is 0. -/
theorem unpackString_zero_keeps_rune :
    unpackString (runes "a0") = (runes "a", none) ∧
    packed [(97, some 48)] = runes "a0" ∧ specUnpack [(97, some 48)] = [] ∧
    unpackString (runes "a4bc2d5e") = (runes "aaaabccddddde", none) ∧
    unpackString (runes "abcd") = (runes "abcd", none) := by
  decide

/-- For the digits 1 to 9 (and no digit), every string `c1 k1 ... cn kn` is
unpacked without error to each `ci` repeated `ki` times. -/
theorem unpackString_multiplier_pos (items : List (Nat × Option Nat))
    (hc : ∀ it ∈ items, isDigit it.1 = false ∧ it.1 ≠ 92)
    (hk : ∀ it ∈ items, ∀ k, it.2 = some k → 49 ≤ k ∧ k ≤ 57) :
    unpackString (packed items) = (specUnpack items, none) := by
  unfold unpackString
  split
  · rename_i hlen
    have hnil : packed items = [] := List.length_eq_zero.mp hlen
    cases items with
    | nil => rfl
    | cons it rest =>
      obtain ⟨c, k⟩ := it
      cases k <;> simp [packed] at hnil
  · rw [unpackLoop_packed items hc hk []]
    simp

end UnpackString

namespace UnpackString

theorem unpackString_cons (c : Nat) (rest : Runes) :
    unpackString (c :: rest) = unpackLoop (c :: rest) [] := by
  simp [unpackString]

/-- C18: `unpackString` returns an error exactly when the input is not empty
and its first rune is an ASCII digit, and then the string returned is empty;
`45` gives the empty string with an error, the empty string gives the empty
string with no error. -/
theorem unpackString_error_iff (s : Runes) :
    ((unpackString s).2.isSome = true ↔ ∃ c rest, s = c :: rest ∧ isDigit c = true) ∧
    ((unpackString s).2.isSome = true → (unpackString s).1 = []) ∧
    unpackString (runes "45") = ([], some "invalid input(no letters before digits)") ∧
    unpackString (runes "") = ([], none) := by
  refine ⟨?_, ?_, by decide, by decide⟩
  · cases s with
    | nil => simp [unpackString]
    | cons c rest =>
      rw [unpackString_cons]
      by_cases hd : isDigit c = true
      · simp [unpackLoop, hd]
      · have hd2 : isDigit c = false := by simpa using hd
        rw [unpackLoop_other c rest [] hd2, unpackLoop_no_error rest _ (by simp)]
        simp [hd2]
  · cases s with
    | nil => simp [unpackString]
    | cons c rest =>
      rw [unpackString_cons]
      by_cases hd : isDigit c = true
      · simp [unpackLoop, hd]
      · have hd2 : isDigit c = false := by simpa using hd
        rw [unpackLoop_other c rest [] hd2, unpackLoop_no_error rest _ (by simp)]
        simp

/-- C18 at `4a`: the first rune is a digit, so an error and the empty string
come back. -/
theorem unpackString_error_iff_witness :
    (unpackString (runes "4a")).2.isSome = true ∧ (unpackString (runes "4a")).1 = [] :=
  ⟨by decide, (unpackString_error_iff (runes "4a")).2.1 (by decide)⟩

/-- C19: a backslash escapes the digit after it.  For `p` without digits and
backslashes, a digit `d` and a digit `n` from 1 to 9: `p\d` gives `p` followed
by `d`, and `p\dn` gives `p` followed by `d` repeated `n` times.  So `qwe\4\5`
gives `qwe45` and `qwe\45` gives `qwe44444`. -/
theorem unpackString_backslash (p : Runes) (d n : Nat)
    (hp : ∀ c ∈ p, isDigit c = false ∧ c ≠ 92) (hd : isDigit d = true)
    (hn : 49 ≤ n ∧ n ≤ 57) :
    unpackString (p ++ [92, d]) = (p ++ [d], none) ∧
    unpackString (p ++ [92, d, n]) = (p ++ List.replicate (n - 48) d, none) ∧
    unpackString (runes "qwe\\4\\5") = (runes "qwe45", none) ∧
    unpackString (runes "qwe\\45") = (runes "qwe44444", none) := by
  have hp2 : ∀ c ∈ p, isDigit c = false := fun c hc => (hp c hc).1
  have h92 : isDigit 92 = false := by decide
  have hd92 : d ≠ 92 := by
    intro h
    rw [h] at hd
    exact absurd hd (by decide)
  have hnd : isDigit n = true := by
    have h48 : 48 ≤ n := by omega
    simp [isDigit, h48, hn.2]
  have hcount : (digitValue n - 1).toNat + 1 = n - 48 := by
    unfold digitValue
    omega
  have hne : ∀ t : Runes, (p ++ 92 :: t).length ≠ 0 := by
    intro t
    simp
  refine ⟨?_, ?_, by decide, by decide⟩
  · simp only [unpackString, if_neg (hne [d])]
    rw [unpackLoop_plain p hp2, List.nil_append, unpackLoop_other 92 _ _ h92,
      unpackLoop_escaped d _ _ hd]
    rfl
  · simp only [unpackString, if_neg (hne [d, n])]
    rw [unpackLoop_plain p hp2, List.nil_append, unpackLoop_other 92 _ _ h92,
      unpackLoop_escaped d _ _ hd, unpackLoop_digit n d _ _ hnd hd92, ← hcount]
    simp [unpackLoop, List.replicate_succ]

/-- C19 at `ab\73`: the escaped `7` is repeated three times. -/
theorem unpackString_backslash_witness :
    unpackString (runes "ab" ++ [92, 55]) = (runes "ab" ++ [55], none) ∧
    unpackString (runes "ab" ++ [92, 55, 51]) = (runes "ab" ++ List.replicate (51 - 48) 55, none) ∧
    unpackString (runes "qwe\\4\\5") = (runes "qwe45", none) ∧
    unpackString (runes "qwe\\45") = (runes "qwe44444", none) :=
  unpackString_backslash (runes "ab") 55 51 (by decide) (by decide) (by decide)

end UnpackString

namespace FindAnagramms

/-! ## Lemmas on FindAnagrams -/

/-- Two words have the same sorted key exactly when they have the same
multiset of runes. -/
theorem sortedKey_eq_iff {α : Type} (runes : α → List Nat) (a b : α) :
    sortedKey runes a = sortedKey runes b ↔ (runes a).Perm (runes b) := by
  unfold sortedKey
  constructor
  · intro h
    have ha := List.perm_insertionSort (fun x y : Nat => x ≤ y) (runes a)
    have hb := List.perm_insertionSort (fun x y : Nat => x ≤ y) (runes b)
    exact (ha.symm.trans (h ▸ List.Perm.refl _)).trans hb
  · intro h
    have ha := List.perm_insertionSort (fun x y : Nat => x ≤ y) (runes a)
    have hb := List.perm_insertionSort (fun x y : Nat => x ≤ y) (runes b)
    exact List.eq_of_perm_of_sorted ((ha.trans h).trans hb.symm)
      (List.sorted_insertionSort (fun x y : Nat => x ≤ y) (runes a))
      (List.sorted_insertionSort (fun x y : Nat => x ≤ y) (runes b))

theorem occurrences_eq_members {α : Type} (runes : α → List Nat) (ss : List α) (k : α) :
    occurrences runes ss k = members runes ss (sortedKey runes k) := by
  unfold occurrences members
  apply List.filter_congr
  intro w _
  have h := sortedKey_eq_iff runes w k
  by_cases hp : (runes w).Perm (runes k)
  · simp [hp, h.mpr hp]
  · have hne : ¬ sortedKey runes w = sortedKey runes k := fun hk => hp (h.mp hk)
    simp [hp, hne]

theorem members_append {α : Type} (runes : α → List Nat) (xs : List α) (s : α)
    (key : List Nat) :
    members runes (xs ++ [s]) key
      = members runes xs key
        ++ (if 1 < (runes s).length ∧ sortedKey runes s = key then [s] else []) := by
  unfold members
  rw [List.filter_append]
  congr 1
  by_cases h : 1 < (runes s).length ∧ sortedKey runes s = key
  · simp [List.filter, h.1, h.2]
  · rw [if_neg h]
    rw [not_and] at h
    by_cases h1 : 1 < (runes s).length
    · simp [List.filter, h1, h h1]
    · simp [List.filter, h1]

theorem members_head {α : Type} (runes : α → List Nat) (xs : List α) (key : List Nat) (k : α)
    (h : (members runes xs key).head? = some k) :
    1 < (runes k).length ∧ sortedKey runes k = key ∧
    ∃ tl, members runes xs key = k :: tl := by
  cases hm : members runes xs key with
  | nil => rw [hm] at h; simp at h
  | cons a tl =>
    rw [hm] at h
    simp only [List.head?_cons, Option.some.injEq] at h
    subst h
    have hmem : a ∈ members runes xs key := by rw [hm]; exact List.mem_cons_self _ _
    unfold members at hmem
    rw [List.mem_filter] at hmem
    have h2 := hmem.2
    simp only [Bool.and_eq_true, decide_eq_true_eq] at h2
    exact ⟨h2.1, h2.2, tl, rfl⟩

theorem inv_init {α : Type} (runes : α → List Nat) : Inv runes [] (State.init : State α) := by
  refine ⟨?_, ?_, ?_⟩
  · intro key
    simp [State.init, members]
  · intro k group h
    simp [State.init] at h
  · intro k _
    simp [members]

theorem mapSet_same {κ ν : Type} [DecidableEq κ] (m : κ → Option ν) (k : κ) (v : ν) :
    mapSet m k v k = some v := by
  simp [mapSet]

theorem mapSet_other {κ ν : Type} [DecidableEq κ] (m : κ → Option ν) (k x : κ) (v : ν)
    (h : x ≠ k) : mapSet m k v x = m x := by
  simp [mapSet, h]

end FindAnagramms

namespace FindAnagramms

/-- A word whose key is already in `tempSet` joins the group of the first
member of that key. -/
theorem inv_step_known {α : Type} (runes : α → List Nat) (xs : List α) (st : State α)
    (s orig : α) (hinv : Inv runes xs st) (hv : 1 < (runes s).length)
    (ht : st.tempSet (sortedKey runes s) = some orig)
    (newSet : α → Option (List α)) (group : List α)
    (h1 : newSet orig = some group) (h2 : ∀ k, k ≠ orig → newSet k = st.set k)
    (hperm : group.Perm (members runes xs (sortedKey runes s) ++ [s])) :
    Inv runes (xs ++ [s]) ⟨newSet, st.tempSet⟩ := by
  obtain ⟨hT, hS, hN⟩ := hinv
  have hsame : members runes (xs ++ [s]) (sortedKey runes s)
      = members runes xs (sortedKey runes s) ++ [s] := by
    rw [members_append, if_pos ⟨hv, rfl⟩]
  have hother : ∀ key, key ≠ sortedKey runes s →
      members runes (xs ++ [s]) key = members runes xs key := by
    intro key hne
    rw [members_append, if_neg (fun h => hne h.2.symm)]
    simp
  have hhead : (members runes xs (sortedKey runes s)).head? = some orig := by
    rw [← hT, ht]
  obtain ⟨_, hkey, tl, htl⟩ := members_head runes xs _ orig hhead
  refine ⟨?_, ?_, ?_⟩
  · intro key
    by_cases hk : key = sortedKey runes s
    · subst hk
      rw [hsame, htl]
      simpa using ht
    · rw [hother key hk]
      exact hT key
  · intro k g hk
    change newSet k = some g at hk
    by_cases hko : k = orig
    · subst hko
      rw [h1] at hk
      injection hk with hk
      subst hk
      rw [hkey, hsame]
      refine ⟨?_, ?_, hperm⟩
      · rw [htl]
        rfl
      · rw [htl]
        simp
    · rw [h2 k hko] at hk
      have h0 := hS k g hk
      have hne : sortedKey runes k ≠ sortedKey runes s := by
        intro he
        rw [he, hhead] at h0
        exact hko (Option.some.inj h0.1).symm
      rw [hother _ hne]
      exact h0
  · intro k hk
    change newSet k = none at hk
    have hko : k ≠ orig := by
      intro he
      rw [he, h1] at hk
      exact absurd hk (by simp)
    rw [h2 k hko] at hk
    by_cases he : sortedKey runes k = sortedKey runes s
    · rw [he, hsame, htl]
      intro hc
      have hc1 := hc.1
      simp only [List.cons_append, List.head?_cons, Option.some.injEq] at hc1
      exact hko hc1.symm
    · rw [hother _ he]
      exact hN k hk

/-- A word with a new key is recorded in `tempSet` only. -/
theorem inv_step_new {α : Type} (runes : α → List Nat) (xs : List α) (st : State α)
    (s : α) (hinv : Inv runes xs st) (hv : 1 < (runes s).length)
    (ht : st.tempSet (sortedKey runes s) = none) :
    Inv runes (xs ++ [s]) ⟨st.set, mapSet st.tempSet (sortedKey runes s) s⟩ := by
  obtain ⟨hT, hS, hN⟩ := hinv
  have hsame : members runes (xs ++ [s]) (sortedKey runes s)
      = members runes xs (sortedKey runes s) ++ [s] := by
    rw [members_append, if_pos ⟨hv, rfl⟩]
  have hother : ∀ key, key ≠ sortedKey runes s →
      members runes (xs ++ [s]) key = members runes xs key := by
    intro key hne
    rw [members_append, if_neg (fun h => hne h.2.symm)]
    simp
  have hnil : members runes xs (sortedKey runes s) = [] := by
    rw [← List.head?_eq_none_iff, ← hT, ht]
  refine ⟨?_, ?_, ?_⟩
  · intro key
    by_cases hk : key = sortedKey runes s
    · subst hk
      rw [hsame, hnil]
      simp [mapSet]
    · rw [hother key hk]
      simp only [mapSet, if_neg hk]
      exact hT key
  · intro k g hk
    change st.set k = some g at hk
    have h0 := hS k g hk
    have hne : sortedKey runes k ≠ sortedKey runes s := by
      intro he
      rw [he, hnil] at h0
      exact absurd h0.1 (by simp)
    rw [hother _ hne]
    exact h0
  · intro k hk
    change st.set k = none at hk
    by_cases he : sortedKey runes k = sortedKey runes s
    · rw [he, hsame, hnil]
      intro hc
      have := hc.2
      simp at this
    · rw [hother _ he]
      exact hN k hk

/-- One iteration of the loop keeps the description of the two maps. -/
theorem inv_step {α : Type} [DecidableEq α] (runes : α → List Nat) (xs : List α)
    (st : State α) (s : α) (hinv : Inv runes xs st) :
    Inv runes (xs ++ [s]) (step runes st s) := by
  by_cases hv : (runes s).length ≤ 1
  · have hm : ∀ key, members runes (xs ++ [s]) key = members runes xs key := by
      intro key
      rw [members_append, if_neg (fun h => by omega)]
      simp
    simp only [step, if_pos hv]
    obtain ⟨hT, hS, hN⟩ := hinv
    exact ⟨fun key => by rw [hm]; exact hT key, fun k g hk => by rw [hm]; exact hS k g hk,
      fun k hk => by rw [hm]; exact hN k hk⟩
  · have hv1 : 1 < (runes s).length := by omega
    cases ht : st.tempSet (sortedKey runes s) with
    | none =>
      have hstep : step runes st s = ⟨st.set, mapSet st.tempSet (sortedKey runes s) s⟩ := by
        simp only [step, if_neg hv, ht]
      rw [hstep]
      exact inv_step_new runes xs st s hinv hv1 ht
    | some orig =>
      have hhead : (members runes xs (sortedKey runes s)).head? = some orig := by
        rw [← hinv.1, ht]
      obtain ⟨_, hkey, tl, htl⟩ := members_head runes xs _ orig hhead
      cases hs : st.set orig with
      | some group =>
        have hstep : step runes st s = ⟨mapSet st.set orig (group ++ [s]), st.tempSet⟩ := by
          simp only [step, if_neg hv, ht, hs]
        rw [hstep]
        have h0 := hinv.2.1 orig group hs
        rw [hkey] at h0
        exact inv_step_known runes xs st s orig hinv hv1 ht _ (group ++ [s])
          (mapSet_same _ _ _) (fun k hk => mapSet_other _ _ _ _ hk)
          (List.Perm.append_right [s] h0.2.2)
      | none =>
        have hstep : step runes st s = ⟨mapSet st.set orig [s, orig], st.tempSet⟩ := by
          simp only [step, if_neg hv, ht, hs]
        rw [hstep]
        have h0 := hinv.2.2 orig hs
        rw [hkey, hhead, htl] at h0
        have htl0 : tl = [] := by
          cases tl with
          | nil => rfl
          | cons a b => exact absurd ⟨rfl, by simp⟩ h0
        refine inv_step_known runes xs st s orig hinv hv1 ht _ [s, orig]
          (mapSet_same _ _ _) (fun k hk => mapSet_other _ _ _ _ hk) ?_
        rw [htl, htl0]
        exact List.Perm.swap orig s []

theorem inv_foldl {α : Type} [DecidableEq α] (runes : α → List Nat) (ss : List α) :
    ∀ (xs : List α) (st : State α), Inv runes xs st →
      Inv runes (xs ++ ss) (ss.foldl (step runes) st) := by
  induction ss with
  | nil => intro xs st h; simpa using h
  | cons s ss ih =>
    intro xs st h
    have h1 := ih (xs ++ [s]) (step runes st s) (inv_step runes xs st s h)
    simpa using h1

/-- The map `FindAnagrams` returns, described by the members of each key. -/
theorem findAnagrams_inv {α : Type} [DecidableEq α] (runes : α → List Nat) (ss : List α) :
    Inv runes ss (ss.foldl (step runes) State.init) := by
  have h := inv_foldl runes ss [] State.init (inv_init runes)
  simpa using h

end FindAnagramms

namespace FindAnagramms

/-- C20: the map `FindAnagrams` returns has an entry under `k` exactly when `k`
is the first occurrence, in input order, of its anagram class among the words
of more than one rune and that class has at least two occurrences; the value
is, up to order, the list of all those occurrences (the key and repeated words
included).  So every class with at least two occurrences has an entry, under
its first word; two keys of the same class are the same key; a key has more
than one rune and is an input word; and the empty input gives the empty map.
The inputs of the tests give the groups the tests expect. -/
theorem findAnagrams_classes {α : Type} [DecidableEq α] (runes : α → List Nat)
    (ss : List α) :
    (∀ k, (FindAnagrams runes ss k).isSome = true ↔
      ((occurrences runes ss k).head? = some k ∧ 2 ≤ (occurrences runes ss k).length)) ∧
    (∀ k group, FindAnagrams runes ss k = some group →
      group.Perm (occurrences runes ss k)) ∧
    (∀ w, 2 ≤ (occurrences runes ss w).length →
      ∃ k group, (occurrences runes ss w).head? = some k ∧
        FindAnagrams runes ss k = some group ∧ group.Perm (occurrences runes ss w)) ∧
    (∀ k k2, (FindAnagrams runes ss k).isSome = true →
      (FindAnagrams runes ss k2).isSome = true → (runes k).Perm (runes k2) → k = k2) ∧
    (∀ k, (FindAnagrams runes ss k).isSome = true → 1 < (runes k).length ∧ k ∈ ss) ∧
    (∀ k : α, FindAnagrams runes [] k = none) ∧
    FindAnagrams runesOf ["пятак", "пятка", "тяпка", "листок", "слиток", "столик", "стол"]
      "пятак" = some ["пятка", "пятак", "тяпка"] ∧
    FindAnagrams runesOf ["пятак", "пятка", "тяпка", "листок", "слиток", "столик", "стол"]
      "листок" = some ["слиток", "листок", "столик"] ∧
    FindAnagrams runesOf ["abc", "bca", "abc", "cab", "xyz"] "abc"
      = some ["bca", "abc", "abc", "cab"] ∧
    FindAnagrams runesOf ["abc", "bca", "abc", "cab", "xyz"] "xyz" = none ∧
    FindAnagrams runesOf ["a", "b", "c", "д", "е"] "a" = none := by
  have hinv := findAnagrams_inv runes ss
  have hiff : ∀ k, (FindAnagrams runes ss k).isSome = true ↔
      ((occurrences runes ss k).head? = some k ∧ 2 ≤ (occurrences runes ss k).length) := by
    intro k
    rw [occurrences_eq_members]
    cases hk : FindAnagrams runes ss k with
    | none =>
      have h0 := hinv.2.2 k hk
      simp only [Option.isSome_none]
      exact ⟨fun h => absurd h (by simp), fun h => absurd h h0⟩
    | some group =>
      have h0 := hinv.2.1 k group hk
      simp only [Option.isSome_some, true_iff]
      exact ⟨h0.1, h0.2.1⟩
  have hperm : ∀ k group, FindAnagrams runes ss k = some group →
      group.Perm (occurrences runes ss k) := by
    intro k group hk
    rw [occurrences_eq_members]
    exact (hinv.2.1 k group hk).2.2
  refine ⟨hiff, hperm, ?_, ?_, ?_, ?_, by decide, by decide, by decide, by decide, by decide⟩
  · intro w hw
    rw [occurrences_eq_members] at hw ⊢
    cases hm : members runes ss (sortedKey runes w) with
    | nil => rw [hm] at hw; simp at hw
    | cons k tl =>
      have hhead : (members runes ss (sortedKey runes w)).head? = some k := by rw [hm]; rfl
      obtain ⟨_, hkey, _, _⟩ := members_head runes ss _ k hhead
      have hsome : (FindAnagrams runes ss k).isSome = true := by
        rw [hiff k, occurrences_eq_members, hkey, hm]
        rw [hm] at hw
        exact ⟨rfl, hw⟩
      obtain ⟨group, hg⟩ := Option.isSome_iff_exists.mp hsome
      refine ⟨k, group, rfl, hg, ?_⟩
      have := hperm k group hg
      rw [occurrences_eq_members, hkey, hm] at this
      exact this
  · intro k k2 hk hk2 hp
    have h1 := (hiff k).mp hk
    have h2 := (hiff k2).mp hk2
    rw [occurrences_eq_members] at h1 h2
    rw [(sortedKey_eq_iff runes k k2).mpr hp, h2.1] at h1
    exact (Option.some.inj h1.1).symm
  · intro k hk
    have h1 := (hiff k).mp hk
    have hmem : k ∈ occurrences runes ss k := List.mem_of_mem_head? (by rw [h1.1]; rfl)
    unfold occurrences at hmem
    rw [List.mem_filter] at hmem
    have h2 := hmem.2
    simp only [Bool.and_eq_true, decide_eq_true_eq] at h2
    exact ⟨h2.1, hmem.1⟩
  · intro k
    rfl

/-- C20 at the input of the first test: `пятак` is a key, so it is the first
occurrence of its class, which has at least two occurrences; `стол` has no
anagram and is no key. -/
theorem findAnagrams_classes_witness :
    (occurrences runesOf ["пятак", "пятка", "тяпка", "листок", "слиток", "столик", "стол"]
        "пятак").head? = some "пятак" ∧
    2 ≤ (occurrences runesOf ["пятак", "пятка", "тяпка", "листок", "слиток", "столик", "стол"]
        "пятак").length ∧
    FindAnagrams runesOf ["пятак", "пятка", "тяпка", "листок", "слиток", "столик", "стол"]
      "стол" = none :=
  ⟨((findAnagrams_classes runesOf
      ["пятак", "пятка", "тяпка", "листок", "слиток", "столик", "стол"]).1 "пятак").mp
      (by decide) |>.1,
    ((findAnagrams_classes runesOf
      ["пятак", "пятка", "тяпка", "листок", "слиток", "столик", "стол"]).1 "пятак").mp
      (by decide) |>.2,
    by decide⟩

end FindAnagramms

namespace MiniShell

/-! ## The tokens of splitArgs are not empty -/

theorem splitArgsStep_tokens (st : ArgState) (c : Nat) (h : ∀ t ∈ st.res, t ≠ []) :
    ∀ t ∈ (splitArgsStep st c).res, t ≠ [] := by
  unfold splitArgsStep
  split
  · exact h
  · split
    · exact h
    · split
      · exact h
      · split
        · exact h
        · split
          · split
            · rename_i hlen
              intro t ht
              rcases List.mem_append.mp ht with ht | ht
              · exact h t ht
              · simp only [List.mem_singleton] at ht
                subst ht
                exact List.ne_nil_of_length_pos hlen
            · exact h
          · exact h

theorem splitArgsLoop_tokens (s : Str) :
    ∀ st : ArgState, (∀ t ∈ st.res, t ≠ []) → ∀ t ∈ (splitArgsLoop st s).res, t ≠ [] := by
  induction s with
  | nil => intro st h; exact h
  | cons c s ih =>
    intro st h
    rw [splitArgsLoop_cons]
    exact ih _ (splitArgsStep_tokens st c h)

/-- Every token of `splitArgs` is a non-empty string. -/
theorem splitArgs_tokens (s : Str) : ∀ t ∈ (splitArgs s).1, t ≠ [] := by
  have h := splitArgsLoop_tokens s ArgState.init (by simp [ArgState.init])
  unfold splitArgs
  generalize splitArgsLoop ArgState.init s = st at h
  by_cases hq : (st.inSq || st.inDq) = true
  · simp [hq]
  · by_cases hl : st.cur.length > 0
    · simp only [hq, hl]
      intro t ht
      simp only [Bool.false_eq_true, if_false, if_true, List.mem_append,
        List.mem_singleton] at ht
      rcases ht with ht | ht
      · exact h t ht
      · subst ht
        exact List.ne_nil_of_length_pos hl
    · simp only [hq, hl]
      simpa using h

theorem specRedirs_mem_aux (T : List Str) :
    (∀ o f, (o, f) ∈ specRedirs T → f ∈ T ∧ isRedirOp o = true) ∧
    ∀ t, ∀ o f, (o, f) ∈ specRedirs (t :: T) → f ∈ t :: T ∧ isRedirOp o = true := by
  induction T with
  | nil =>
    refine ⟨?_, ?_⟩
    · intro o f h
      simp [specRedirs] at h
    · intro t o f h
      simp [specRedirs] at h
  | cons x rest ih =>
    refine ⟨ih.2 x, ?_⟩
    intro t o f h
    simp only [specRedirs] at h
    split at h
    · rename_i hop
      rcases List.mem_cons.mp h with h | h
      · injection h with h1 h2
        subst h1 h2
        exact ⟨by simp, hop⟩
      · have := ih.1 o f h
        exact ⟨List.mem_cons_of_mem _ (List.mem_cons_of_mem _ this.1), this.2⟩
    · have := ih.2 x o f h
      exact ⟨List.mem_cons_of_mem _ this.1, this.2⟩

/-- A redirection of the specification consumes a token of the list. -/
theorem specRedirs_mem (T : List Str) (o f : Str) (h : (o, f) ∈ specRedirs T) :
    f ∈ T ∧ isRedirOp o = true :=
  (specRedirs_mem_aux T).1 o f h

/-- The file left in force is not empty exactly when it was so before or a
redirection by the operator occurs, the consumed tokens being non-empty. -/
theorem fileOf_ne_nil (op : Str) (rs : List (Str × Str)) (hrs : ∀ p ∈ rs, p.2 ≠ []) :
    ∀ d : Str, fileOf op rs d ≠ [] ↔ (d ≠ [] ∨ ∃ f, (op, f) ∈ rs) := by
  induction rs with
  | nil => intro d; simp [fileOf]
  | cons p rs ih =>
    intro d
    obtain ⟨o, f⟩ := p
    have hf : f ≠ [] := hrs (o, f) (List.mem_cons_self _ _)
    have ih2 := ih (fun q hq => hrs q (List.mem_cons_of_mem _ hq))
    simp only [fileOf]
    by_cases ho : o = op
    · subst ho
      rw [if_pos rfl, ih2]
      constructor
      · intro _
        exact Or.inr ⟨f, List.mem_cons_self _ _⟩
      · intro _
        exact Or.inl hf
    · rw [if_neg ho, ih2]
      constructor
      · rintro (h | ⟨g, hg⟩)
        · exact Or.inl h
        · exact Or.inr ⟨g, List.mem_cons_of_mem _ hg⟩
      · rintro (h | ⟨g, hg⟩)
        · exact Or.inl h
        · rcases List.mem_cons.mp hg with hg | hg
          · injection hg with h1 h2
            exact absurd h1.symm ho
          · exact Or.inr ⟨g, hg⟩

/-- C26, as the claim states it, fails on `echo hi > out <`: the scan meets the
operator `>` with the token `out` after it, but the operator `<` at the end has
no token after it, so `parseCommand` returns the error with every result
empty, outFile too. -/
theorem parseCommand_error_clears_outFile :
    splitArgs (bytes "echo hi > out <")
      = ([bytes "echo", bytes "hi", bytes ">", bytes "out", bytes "<"], none) ∧
    ([62], bytes "out") ∈ specRedirs (splitArgs (bytes "echo hi > out <")).1 ∧
    (parseCommand (bytes "echo hi > out <")).err ≠ none ∧
    (parseCommand (bytes "echo hi > out <")).outFile = [] ∧
    ¬ ((parseCommand (bytes "echo hi > out <")).outFile ≠ [] ↔
        ∃ f, ([62], f) ∈ specRedirs (splitArgs (bytes "echo hi > out <")).1) := by
  refine ⟨by decide, by decide, by decide, by decide, ?_⟩
  intro h
  exact h.mpr ⟨bytes "out", by decide⟩ (by decide)

/-- C26, amended: every token `splitArgs` returns is a non-empty string, so an
empty quoted argument gives no token (`echo ""` gives the one token `echo`).
In the result of a `parseCommand` that returns no error, inFile (outFile) is
not empty exactly when the scan met an operator `<` (`>`) with a token after
it; in the result of a `parseCommand` that returns an error, inFile and
outFile are both empty. -/
theorem splitArgs_tokens_nonempty (s cmd : Str) :
    (∀ t ∈ (splitArgs s).1, t ≠ []) ∧
    splitArgs (bytes "echo \"\"") = ([bytes "echo"], none) ∧
    ((parseCommand cmd).err = none →
      ((parseCommand cmd).inFile ≠ [] ↔ ∃ f, ([60], f) ∈ specRedirs (splitArgs cmd).1) ∧
      ((parseCommand cmd).outFile ≠ [] ↔ ∃ f, ([62], f) ∈ specRedirs (splitArgs cmd).1)) ∧
    ((parseCommand cmd).err ≠ none →
      (parseCommand cmd).inFile = [] ∧ (parseCommand cmd).outFile = []) := by
  refine ⟨splitArgs_tokens s, by decide, ?_, ?_⟩
  · intro hok
    rcases hs : splitArgs cmd with ⟨T, e⟩
    have htok : ∀ t ∈ T, t ≠ [] := by
      have := splitArgs_tokens cmd
      rw [hs] at this
      exact this
    have hrs : ∀ p ∈ specRedirs T, p.2 ≠ [] := by
      intro p hp
      exact htok p.2 (specRedirs_mem T p.1 p.2 hp).1
    cases e with
    | some e =>
      rw [parseCommand_of_error cmd T e hs] at hok
      simp at hok
    | none =>
      rw [parseCommand_of_tokens cmd T hs] at hok ⊢
      have h := parseCommandLoop_agrees T { clean := [], inFile := [], outFile := [] }
      cases htr : specTrailingOp T with
      | true =>
        have h1 := (h.1 htr).1
        rw [hok] at h1
        simp at h1
      | false =>
        rw [h.2 htr]
        have h60 := fileOf_ne_nil [60] (specRedirs T) hrs []
        have h62 := fileOf_ne_nil [62] (specRedirs T) hrs []
        simp only [ne_eq, not_true_eq_false, false_or] at h60 h62
        exact ⟨h60, h62⟩
  · intro herr
    rcases hs : splitArgs cmd with ⟨T, e⟩
    cases e with
    | some e =>
      rw [parseCommand_of_error cmd T e hs]
      exact ⟨rfl, rfl⟩
    | none =>
      rw [parseCommand_of_tokens cmd T hs] at herr ⊢
      have h := parseCommandLoop_agrees T { clean := [], inFile := [], outFile := [] }
      cases htr : specTrailingOp T with
      | true => exact ⟨(h.1 htr).2.2.1, (h.1 htr).2.2.2⟩
      | false =>
        rw [h.2 htr] at herr
        exact absurd rfl herr

/-- C26, amended, at `sort < in > out`, which parses without error: both files
are set and not empty; and at `echo hi > out <`, which does not parse: both
files are empty. -/
theorem splitArgs_tokens_nonempty_witness :
    (parseCommand (bytes "sort < in > out")).err = none ∧
    ((parseCommand (bytes "sort < in > out")).inFile ≠ [] ↔
      ∃ f, ([60], f) ∈ specRedirs (splitArgs (bytes "sort < in > out")).1) ∧
    ((parseCommand (bytes "sort < in > out")).outFile ≠ [] ↔
      ∃ f, ([62], f) ∈ specRedirs (splitArgs (bytes "sort < in > out")).1) ∧
    (parseCommand (bytes "echo hi > out <")).err ≠ none ∧
    (parseCommand (bytes "echo hi > out <")).inFile = [] ∧
    (parseCommand (bytes "echo hi > out <")).outFile = [] :=
  ⟨by decide,
    ((splitArgs_tokens_nonempty [] (bytes "sort < in > out")).2.2.1 (by decide)).1,
    ((splitArgs_tokens_nonempty [] (bytes "sort < in > out")).2.2.1 (by decide)).2,
    by decide,
    ((splitArgs_tokens_nonempty [] (bytes "echo hi > out <")).2.2.2 (by decide)).1,
    ((splitArgs_tokens_nonempty [] (bytes "echo hi > out <")).2.2.2 (by decide)).2⟩

end MiniShell

namespace MiniShell

/-! ## splitByConditionals loses nothing -/

theorem splitByConditionals_eq_flags (s : Str) :
    splitByConditionals s
      = ((flagConditionals Region.outside s).1
            :: (flagConditionals Region.outside s).2.map Prod.snd,
          (flagConditionals Region.outside s).2.map Prod.fst) := by
  have h := splitByConditionalsLoop_agrees s CondState.init (by simp [CondState.init])
  have hr : CondState.init.region = Region.outside := rfl
  rw [hr] at h
  simp only [splitByConditionals, h.1, h.2]
  simp [CondState.init]

theorem flagReassembles_nil : FlagReassembles [] := by
  intro r
  simp [flagConditionals, reassembleRest]

theorem flagReassembles_single (c : Nat) : FlagReassembles [c] := by
  intro r
  simp [flagConditionals, reassembleRest]

theorem flagReassembles_cons_cons (c d : Nat) (rest : Str) (h0 : FlagReassembles rest)
    (h1 : FlagReassembles (d :: rest)) : FlagReassembles (c :: d :: rest) := by
  intro r
  by_cases hop : r = Region.outside ∧ c = d ∧ (c = 38 ∨ c = 124)
  · have hs : flagConditionals r (c :: d :: rest)
        = ([], ([c, d], (flagConditionals r rest).1) :: (flagConditionals r rest).2) := by
      simp only [flagConditionals, if_pos hop]
    rw [hs]
    have h := h0 r
    refine ⟨?_, ?_⟩
    · simp only [List.map_cons, reassembleRest, List.nil_append]
      rw [List.append_assoc, h.1]
      rfl
    · intro p hp
      rcases List.mem_cons.mp hp with hp | hp
      · subst hp
        obtain ⟨_, hcd, hc⟩ := hop
        subst hcd
        rcases hc with hc | hc
        · subst hc
          exact Or.inl rfl
        · subst hc
          exact Or.inr rfl
      · exact h.2 p hp
  · have hs : flagConditionals r (c :: d :: rest)
        = (c :: (flagConditionals (r.next c) (d :: rest)).1,
            (flagConditionals (r.next c) (d :: rest)).2) := by
      simp only [flagConditionals, if_neg hop]
    rw [hs]
    have h := h1 (r.next c)
    refine ⟨?_, h.2⟩
    simp only [List.cons_append]
    rw [h.1]

theorem flagConditionals_reassembles (s : Str) : FlagReassembles s := by
  have key : FlagReassembles s ∧ ∀ c, FlagReassembles (c :: s) := by
    induction s with
    | nil => exact ⟨flagReassembles_nil, flagReassembles_single⟩
    | cons d rest ih => exact ⟨ih.2 d, fun c => flagReassembles_cons_cons c d rest ih.1 (ih.2 d)⟩
  exact key.1

/-- C27: `splitByConditionals` loses and alters nothing: for every line there
is one segment more than there are operators, every operator is `&&` or `||`,
and the segments with the operators put back between them are the line. -/
theorem splitByConditionals_reassemble (s : Str) :
    (splitByConditionals s).1.length = (splitByConditionals s).2.length + 1 ∧
    (∀ op ∈ (splitByConditionals s).2, op = bytes "&&" ∨ op = bytes "||") ∧
    reassemble (splitByConditionals s).1 (splitByConditionals s).2 = s ∧
    reassemble [bytes "a ", bytes " b ", bytes " c"] [bytes "&&", bytes "||"]
      = bytes "a && b || c" := by
  have h := flagConditionals_reassembles s Region.outside
  rw [splitByConditionals_eq_flags]
  refine ⟨by simp, ?_, ?_, by decide⟩
  · intro op hop
    simp only [List.mem_map] at hop
    obtain ⟨p, hp, rfl⟩ := hop
    exact h.2 p hp
  · simp only [reassemble]
    exact h.1

end MiniShell

namespace MiniShell

/-- C27 at the line `a && b || c`. -/
theorem splitByConditionals_reassemble_witness :
    splitByConditionals (bytes "a && b || c")
      = ([bytes "a ", bytes " b ", bytes " c"], [bytes "&&", bytes "||"]) ∧
    (bytes "||" = bytes "&&" ∨ bytes "||" = bytes "||") ∧
    reassemble (splitByConditionals (bytes "a && b || c")).1
      (splitByConditionals (bytes "a && b || c")).2 = bytes "a && b || c" :=
  ⟨by decide,
    (splitByConditionals_reassemble (bytes "a && b || c")).2.1 (bytes "||") (by decide),
    (splitByConditionals_reassemble (bytes "a && b || c")).2.2.1⟩

/-! ## The first loop of runPipeline decides -/

/-- Stages that parse to non-empty arguments are passed over by the first loop. -/
theorem parseStages_good_prefix (pre rest : List Str)
    (hpre : ∀ q ∈ pre, (parseCommand q).err = none ∧ (parseCommand q).args ≠ []) :
    ∀ specs : List CmdSpec, ∃ specs1, parseStages (pre ++ rest) specs = parseStages rest specs1 := by
  induction pre with
  | nil => intro specs; exact ⟨specs, rfl⟩
  | cons q pre ih =>
    intro specs
    have hq := hpre q (List.mem_cons_self _ _)
    have hlen : ¬ (parseCommand q).args.length = 0 := by
      intro h0
      exact hq.2 (List.length_eq_zero.mp h0)
    obtain ⟨specs1, h1⟩ := ih (fun x hx => hpre x (List.mem_cons_of_mem _ hx))
      (specs ++ [⟨(parseCommand q).args, (parseCommand q).inFile, (parseCommand q).outFile⟩])
    refine ⟨specs1, ?_⟩
    rw [List.cons_append]
    simp only [parseStages, hq.1, if_neg hlen]
    exact h1

/-- When the first loop ends without an early return, every stage has parsed
to non-empty arguments. -/
theorem parseStages_all_good (parts : List Str) :
    ∀ specs specs1 : List CmdSpec, parseStages parts specs = Except.ok specs1 →
      ∀ q ∈ parts, (parseCommand q).err = none ∧ (parseCommand q).args ≠ [] := by
  induction parts with
  | nil => intro specs specs1 _ q hq; simp at hq
  | cons p rest ih =>
    intro specs specs1 h q hq
    simp only [parseStages] at h
    cases he : (parseCommand p).err with
    | some e => simp [he] at h
    | none =>
      simp only [he] at h
      split at h
      · simp at h
      · rename_i hlen
        rcases List.mem_cons.mp hq with hq | hq
        · subst hq
          exact ⟨he, fun h0 => hlen (by simp [h0])⟩
        · exact ih _ specs1 h q hq

/-- An early return of the first loop has made no call on the system but the
report of the parse error. -/
theorem parseStages_error_events (parts : List Str) :
    ∀ (specs : List CmdSpec) (r : Early), parseStages parts specs = Except.error r →
      ∀ e ∈ r.events, ∃ msg, e = Event.report msg := by
  induction parts with
  | nil => intro specs r h; simp [parseStages] at h
  | cons p rest ih =>
    intro specs r h
    simp only [parseStages] at h
    cases he : (parseCommand p).err with
    | some e =>
      simp only [he] at h
      injection h with h
      subst h
      intro ev hmem
      simp only [List.mem_singleton] at hmem
      exact ⟨_, hmem⟩
    | none =>
      simp only [he] at h
      split at h
      · injection h with h
        subst h
        intro ev hmem
        simp at hmem
      · exact ih _ r h

/-- C28: `runPipeline` decides on the first stage, in stage order, that fails
to parse or has no arguments.  After stages `pre` that parse to non-empty
arguments: a stage `p` without arguments gives exit 0 and no error with no
event at all (no pipe, no process), whatever the later stages `post` are; a
stage `p` that fails to parse gives exit 1 with the parse error, the report
being the only event.  A run in which `cmd.Start()` is called has every stage
parsed to a non-empty argument list.  So `ls |` and `| wc` return exit 0 with
no event, and so do the stages `` and `echo "abc`, the second of which does
not parse. -/
theorem runPipeline_first_bad_stage (os : OS) (fg : Int) (pre post parts : List Str) (p : Str)
    (hpre : ∀ q ∈ pre, (parseCommand q).err = none ∧ (parseCommand q).args ≠ []) :
    ((parseCommand p).err = none → (parseCommand p).args = [] →
      runPipeline os fg (pre ++ p :: post) = some ⟨[], fg, 0, none⟩) ∧
    (∀ e, (parseCommand p).err = some e →
      runPipeline os fg (pre ++ p :: post)
        = some ⟨[Event.report ("parse error: " ++ e)], fg, 1, some e⟩) ∧
    (∀ r, runPipeline os fg parts = some r → (∃ i c pid, Event.start i c pid ∈ r.events) →
      ∀ q ∈ parts, (parseCommand q).err = none ∧ (parseCommand q).args ≠ []) ∧
    runPipeline os fg (splitByPipe (bytes "ls |")) = some ⟨[], fg, 0, none⟩ ∧
    runPipeline os fg (splitByPipe (bytes "| wc")) = some ⟨[], fg, 0, none⟩ ∧
    runPipeline os fg [bytes "", bytes "echo \"abc"] = some ⟨[], fg, 0, none⟩ := by
  have hempty : ∀ (a b : List Str) (q : Str),
      (∀ x ∈ a, (parseCommand x).err = none ∧ (parseCommand x).args ≠ []) →
      (parseCommand q).err = none → (parseCommand q).args = [] →
      runPipeline os fg (a ++ q :: b) = some ⟨[], fg, 0, none⟩ := by
    intro a b q ha he hargs
    obtain ⟨specs1, h1⟩ := parseStages_good_prefix a (q :: b) ha []
    have h2 : parseStages (q :: b) specs1 = Except.error ⟨[], 0, none⟩ := by
      simp [parseStages, he, hargs]
    simp only [runPipeline, h1, h2]
  refine ⟨hempty pre post p hpre, ?_, ?_, ?_, ?_, ?_⟩
  · intro e he
    obtain ⟨specs1, h1⟩ := parseStages_good_prefix pre (p :: post) hpre []
    have h2 : parseStages (p :: post) specs1
        = Except.error ⟨[Event.report ("parse error: " ++ e)], 1, some e⟩ := by
      simp [parseStages, he]
    simp only [runPipeline, h1, h2]
  · intro r hr hstart
    cases hp : parseStages parts [] with
    | error r0 =>
      simp only [runPipeline, hp] at hr
      injection hr with hr
      subst hr
      obtain ⟨i, c, pid, hmem⟩ := hstart
      obtain ⟨msg, hmsg⟩ := parseStages_error_events parts [] r0 hp _ hmem
      simp at hmsg
    | ok specs => exact parseStages_all_good parts [] specs hp
  · have hs : splitByPipe (bytes "ls |") = [bytes "ls"] ++ [] :: [] := by decide
    rw [hs]
    exact hempty [bytes "ls"] [] [] (by decide) (by decide) (by decide)
  · have hs : splitByPipe (bytes "| wc") = [] ++ [] :: [bytes "wc"] := by decide
    rw [hs]
    exact hempty [] [bytes "wc"] [] (by decide) (by decide) (by decide)
  · exact hempty [] [bytes "echo \"abc"] [] (by decide) (by decide) (by decide)

/-- C28 at the stages `ls`, `x >` and `wc`: the second stage fails to parse
(no filename after `>`), so exit 1 comes back with that error. -/
theorem runPipeline_first_bad_stage_witness :
    (parseCommand (bytes "x >")).err = some "no filename after >" ∧
    runPipeline osExample 0 ([bytes "ls"] ++ bytes "x >" :: [bytes "wc"])
      = some ⟨[Event.report ("parse error: " ++ "no filename after >")], 0, 1,
          some "no filename after >"⟩ ∧
    runPipeline osExample 0 ([bytes "ls"] ++ bytes "" :: [bytes "wc"])
      = some ⟨[], 0, 0, none⟩ :=
  ⟨by decide,
    (runPipeline_first_bad_stage osExample 0 [bytes "ls"] [bytes "wc"] [] (bytes "x >")
      (by decide)).2.1 "no filename after >" (by decide),
    (runPipeline_first_bad_stage osExample 0 [bytes "ls"] [bytes "wc"] [] (bytes "")
      (by decide)).1 (by decide) (by decide)⟩

end MiniShell

namespace CalendarServer

/-! ## CreateEvent, UpdateEvent, DeleteEvent -/

/-- C21: `CreateEvent` fails, with `user ID is required`, exactly when the
UserID of the event is empty, and then the calendar is unchanged.  Otherwise,
on a calendar whose `nextID` is below the largest `int` (so that `nextID++`
does not wrap), it returns the value of `nextID` before the call and no error,
stores under that id the event with its ID set to the id and the other fields
as given, adds one to `nextID` and leaves what is stored under every other key
as it is.  On the fresh calendar the first id is 1. -/
theorem createEvent_spec (c : Calendar) (e : Event) :
    ((CreateEvent c e).2.2.isSome = true ↔ e.UserID = []) ∧
    (e.UserID = [] → CreateEvent c e = (c, 0, some "user ID is required")) ∧
    (e.UserID ≠ [] → c.nextID < maxInt →
      (CreateEvent c e).2.1 = c.nextID ∧ (CreateEvent c e).2.2 = none ∧
      (CreateEvent c e).1.nextID = c.nextID + 1 ∧
      (CreateEvent c e).1.nextID ≤ maxInt ∧
      (CreateEvent c e).1.events.lookup c.nextID
        = some ⟨c.nextID, e.UserID, e.Title, e.Description, e.Date⟩ ∧
      ∀ k, k ≠ c.nextID → (CreateEvent c e).1.events.lookup k = c.events.lookup k) ∧
    (e.UserID ≠ [] → (CreateEvent Calendar.fresh e).2.1 = 1) := by
  by_cases h : e.UserID = []
  · simp [CreateEvent, h]
  · refine ⟨by simp [CreateEvent, h], fun h0 => absurd h0 h, fun _ hb => ?_, fun _ => ?_⟩
    · simp only [CreateEvent, if_neg h]
      refine ⟨trivial, trivial, trivial, by omega, ?_, ?_⟩
      · rw [AList.lookup_insert]
      · intro k hk
        exact AList.lookup_insert_ne hk
    · simp [CreateEvent, h, Calendar.fresh]

/-- C21 at the event of the test on the fresh calendar, whose `nextID` 1 is
below the largest `int`: the id is 1, `nextID` becomes 2 and the event is
stored under 1 with ID 1. -/
theorem createEvent_spec_witness :
    Calendar.fresh.nextID < maxInt ∧
    (CreateEvent Calendar.fresh
      ⟨0, bytes "user1", bytes "Test Event", bytes "Test Description", bytes "2023-12-31"⟩).2.1
      = 1 ∧
    (CreateEvent Calendar.fresh
      ⟨0, bytes "user1", bytes "Test Event", bytes "Test Description",
        bytes "2023-12-31"⟩).1.nextID = 1 + 1 ∧
    (CreateEvent Calendar.fresh
      ⟨0, bytes "user1", bytes "Test Event", bytes "Test Description",
        bytes "2023-12-31"⟩).1.events.lookup 1
      = some ⟨1, bytes "user1", bytes "Test Event", bytes "Test Description",
          bytes "2023-12-31"⟩ :=
  ⟨by decide,
    (createEvent_spec Calendar.fresh
      ⟨0, bytes "user1", bytes "Test Event", bytes "Test Description", bytes "2023-12-31"⟩).2.2.2
      (by decide),
    ((createEvent_spec Calendar.fresh
      ⟨0, bytes "user1", bytes "Test Event", bytes "Test Description", bytes "2023-12-31"⟩).2.2.1
      (by decide) (by decide)).2.2.1,
    ((createEvent_spec Calendar.fresh
      ⟨0, bytes "user1", bytes "Test Event", bytes "Test Description", bytes "2023-12-31"⟩).2.2.1
      (by decide) (by decide)).2.2.2.2.1⟩

/-- C22: `UpdateEvent` returns `event ID is required` when the ID of the event
is 0, and `event not found` when the ID is not 0 and nothing is stored under
it, the calendar being unchanged in both cases.  Otherwise it returns no
error, the event stored under its ID is the event given, and what is stored
under every other key and `nextID` are unchanged. -/
theorem updateEvent_spec (c : Calendar) (e : Event) :
    (e.ID = 0 → UpdateEvent c e = (c, some "event ID is required")) ∧
    (e.ID ≠ 0 → c.events.lookup e.ID = none →
      UpdateEvent c e = (c, some "event not found")) ∧
    (e.ID ≠ 0 → c.events.lookup e.ID ≠ none →
      (UpdateEvent c e).2 = none ∧
      (UpdateEvent c e).1.events.lookup e.ID = some e ∧
      (∀ k, k ≠ e.ID → (UpdateEvent c e).1.events.lookup k = c.events.lookup k) ∧
      (UpdateEvent c e).1.nextID = c.nextID) := by
  refine ⟨fun h => by simp [UpdateEvent, h], fun h hl => by simp [UpdateEvent, h, hl], ?_⟩
  intro h hl
  cases hlk : c.events.lookup e.ID with
  | none => exact absurd hlk hl
  | some old =>
    simp only [UpdateEvent, if_neg h, hlk]
    refine ⟨trivial, ?_, ?_, trivial⟩
    · rw [AList.lookup_insert]
    · intro k hk
      exact AList.lookup_insert_ne hk

/-- C22 on the calendar holding the event of the test under 1: a new title is
stored, and an update under 999 is refused. -/
theorem updateEvent_spec_witness :
    (UpdateEvent
      (CreateEvent Calendar.fresh ⟨0, bytes "user1", bytes "Original", [], bytes "2023-12-31"⟩).1
      ⟨1, bytes "user1", bytes "Updated", [], bytes "2024-01-01"⟩).1.events.lookup 1
      = some ⟨1, bytes "user1", bytes "Updated", [], bytes "2024-01-01"⟩ ∧
    UpdateEvent Calendar.fresh ⟨999, bytes "user1", bytes "Updated", [], bytes "2024-01-01"⟩
      = (Calendar.fresh, some "event not found") :=
  ⟨((updateEvent_spec
      (CreateEvent Calendar.fresh ⟨0, bytes "user1", bytes "Original", [], bytes "2023-12-31"⟩).1
      ⟨1, bytes "user1", bytes "Updated", [], bytes "2024-01-01"⟩).2.2 (by decide)
      (by decide)).2.1,
    (updateEvent_spec Calendar.fresh
      ⟨999, bytes "user1", bytes "Updated", [], bytes "2024-01-01"⟩).2.1 (by decide)
      (by decide)⟩

/-- C23: `DeleteEvent` fails, with `event not found`, exactly when nothing is
stored under the id, and then the calendar is unchanged.  Otherwise it returns
no error, nothing is stored under the id afterwards, and what is stored under
every other key and `nextID` are unchanged. -/
theorem deleteEvent_spec (c : Calendar) (id : Int) :
    ((DeleteEvent c id).2.isSome = true ↔ c.events.lookup id = none) ∧
    (c.events.lookup id = none → DeleteEvent c id = (c, some "event not found")) ∧
    (c.events.lookup id ≠ none →
      (DeleteEvent c id).2 = none ∧
      (DeleteEvent c id).1.events.lookup id = none ∧
      (∀ k, k ≠ id → (DeleteEvent c id).1.events.lookup k = c.events.lookup k) ∧
      (DeleteEvent c id).1.nextID = c.nextID) := by
  cases hlk : c.events.lookup id with
  | none => simp [DeleteEvent, hlk]
  | some old =>
    simp only [DeleteEvent, hlk]
    refine ⟨by simp, fun h => by simp at h, fun _ => ⟨trivial, ?_, ?_, trivial⟩⟩
    · exact AList.lookup_erase id c.events
    · intro k hk
      exact AList.lookup_erase_ne hk

/-- C23 on the calendar holding one event under 1: deleting 1 empties it, and
deleting 999 is refused. -/
theorem deleteEvent_spec_witness :
    (DeleteEvent
      (CreateEvent Calendar.fresh ⟨0, bytes "user1", bytes "T", [], bytes "2023-12-31"⟩).1
      1).1.events.lookup 1 = none ∧
    DeleteEvent Calendar.fresh 999 = (Calendar.fresh, some "event not found") :=
  ⟨((deleteEvent_spec
      (CreateEvent Calendar.fresh ⟨0, bytes "user1", bytes "T", [], bytes "2023-12-31"⟩).1
      1).2.2 (by decide)).2.1,
    (deleteEvent_spec Calendar.fresh 999).2.1 (by decide)⟩

end CalendarServer

namespace CalendarServer

/-! ## The keys of the calendar -/

theorem wellFormed_fresh : Calendar.fresh.wellFormed := by
  intro k e h
  simp [Calendar.fresh, AList.lookup_empty] at h

theorem wellFormed_create (c : Calendar) (event : Event) (h : c.wellFormed)
    (hn : 1 ≤ c.nextID) :
    (CreateEvent c event).1.wellFormed ∧ c.nextID ≤ (CreateEvent c event).1.nextID := by
  by_cases hu : event.UserID = []
  · simp only [CreateEvent, if_pos hu]
    exact ⟨h, le_refl _⟩
  · simp only [CreateEvent, if_neg hu]
    refine ⟨?_, by omega⟩
    intro k e hk
    by_cases hkn : k = c.nextID
    · rw [hkn, AList.lookup_insert] at hk
      injection hk with hk
      rw [hkn, ← hk]
      exact ⟨hn, by simp, rfl⟩
    · rw [AList.lookup_insert_ne hkn] at hk
      have := h k e hk
      exact ⟨this.1, by simp only; omega, this.2.2⟩

theorem updateEvent_nextID (c : Calendar) (event : Event) :
    (UpdateEvent c event).1.nextID = c.nextID := by
  unfold UpdateEvent
  split
  · rfl
  · split <;> rfl

theorem deleteEvent_nextID (c : Calendar) (id : Int) :
    (DeleteEvent c id).1.nextID = c.nextID := by
  unfold DeleteEvent
  split <;> rfl

theorem wellFormed_update (c : Calendar) (event : Event) (h : c.wellFormed) :
    (UpdateEvent c event).1.wellFormed := by
  by_cases h0 : event.ID = 0
  · simp only [UpdateEvent, if_pos h0]
    exact h
  · cases hl : c.events.lookup event.ID with
    | none =>
      simp only [UpdateEvent, if_neg h0, hl]
      exact h
    | some old =>
      simp only [UpdateEvent, if_neg h0, hl]
      intro k e hk
      by_cases hkn : k = event.ID
      · rw [hkn, AList.lookup_insert] at hk
        injection hk with hk
        have := h event.ID old hl
        rw [hkn, ← hk]
        exact ⟨this.1, this.2.1, rfl⟩
      · rw [AList.lookup_insert_ne hkn] at hk
        exact h k e hk

theorem wellFormed_delete (c : Calendar) (id : Int) (h : c.wellFormed) :
    (DeleteEvent c id).1.wellFormed := by
  cases hl : c.events.lookup id with
  | none =>
    simp only [DeleteEvent, hl]
    exact h
  | some old =>
    simp only [DeleteEvent, hl]
    intro k e hk
    by_cases hkn : k = id
    · rw [hkn, AList.lookup_erase] at hk
      exact absurd hk (by simp)
    · rw [AList.lookup_erase_ne hkn] at hk
      exact h k e hk

theorem wellFormed_after (c : Calendar) (call : Call) (h : c.wellFormed) (hn : 1 ≤ c.nextID) :
    (c.after call).wellFormed ∧ c.nextID ≤ (c.after call).nextID := by
  cases call with
  | create event => exact wellFormed_create c event h hn
  | update event =>
    exact ⟨wellFormed_update c event h, le_of_eq (updateEvent_nextID c event).symm⟩
  | delete id =>
    exact ⟨wellFormed_delete c id h, le_of_eq (deleteEvent_nextID c id).symm⟩

theorem wellFormed_afterAll (calls : List Call) :
    ∀ c : Calendar, c.wellFormed → 1 ≤ c.nextID →
      (c.afterAll calls).wellFormed ∧ c.nextID ≤ (c.afterAll calls).nextID := by
  induction calls with
  | nil => intro c h _; exact ⟨h, le_refl _⟩
  | cons call rest ih =>
    intro c h hn
    have h1 := wellFormed_after c call h hn
    have h2 := ih (c.after call) h1.1 (by omega)
    exact ⟨h2.1, by
      have := h2.2
      simp only [Calendar.afterAll, List.foldl_cons] at this ⊢
      omega⟩

/-- The ids returned are not below `nextID` and increase. -/
theorem returnedIds_increasing (calls : List Call) :
    ∀ c : Calendar,
      (∀ id ∈ returnedIds c calls, c.nextID ≤ id) ∧
      (returnedIds c calls).Pairwise (fun a b => a < b) := by
  induction calls with
  | nil => intro c; simp [returnedIds]
  | cons call rest ih =>
    intro c
    cases call with
    | create event =>
      by_cases hu : event.UserID = []
      · have hc : CreateEvent c event = (c, 0, some "user ID is required") := by
          simp [CreateEvent, hu]
        simp only [returnedIds, hc]
        exact ih c
      · have hc : CreateEvent c event
            = (⟨c.events.insert c.nextID { event with ID := c.nextID }, c.nextID + 1⟩,
                c.nextID, none) := by
          simp [CreateEvent, hu]
        simp only [returnedIds, hc]
        have h := ih ⟨c.events.insert c.nextID { event with ID := c.nextID }, c.nextID + 1⟩
        refine ⟨?_, ?_⟩
        · intro id hid
          rcases List.mem_cons.mp hid with hid | hid
          · omega
          · have := h.1 id hid
            simp only at this
            omega
        · rw [List.pairwise_cons]
          refine ⟨?_, h.2⟩
          intro id hid
          have := h.1 id hid
          simp only at this
          omega
    | update event =>
      have h := ih (UpdateEvent c event).1
      rw [updateEvent_nextID] at h
      simpa only [returnedIds, Calendar.after] using h
    | delete id =>
      have h := ih (DeleteEvent c id).1
      rw [deleteEvent_nextID] at h
      simpa only [returnedIds, Calendar.after] using h

end CalendarServer


namespace CalendarServer

/-- C29: starting from the empty calendar with `nextID = 1`, after any
sequence of `CreateEvent`, `UpdateEvent` and `DeleteEvent` calls every stored
key `k` satisfies `1 ≤ k < nextID` and the event stored under `k` has ID `k`.
Hence nothing is stored under `nextID`, a further `CreateEvent` keeps every
stored event under its key, the ids returned by the successful `CreateEvent`
calls of the sequence strictly increase (so none is returned twice, also after
a deletion), and each of them is at least 1. -/
theorem calendar_keys_invariant (calls : List Call) :
    (∀ k e, (Calendar.fresh.afterAll calls).events.lookup k = some e →
      1 ≤ k ∧ k < (Calendar.fresh.afterAll calls).nextID ∧ e.ID = k) ∧
    (Calendar.fresh.afterAll calls).events.lookup (Calendar.fresh.afterAll calls).nextID
      = none ∧
    (∀ event k e, (Calendar.fresh.afterAll calls).events.lookup k = some e →
      (CreateEvent (Calendar.fresh.afterAll calls) event).1.events.lookup k = some e) ∧
    (returnedIds Calendar.fresh calls).Pairwise (fun a b => a < b) ∧
    (returnedIds Calendar.fresh calls).Nodup ∧
    (∀ id ∈ returnedIds Calendar.fresh calls, 1 ≤ id) := by
  have hw := (wellFormed_afterAll calls Calendar.fresh wellFormed_fresh (le_refl _)).1
  have hr := returnedIds_increasing calls Calendar.fresh
  refine ⟨hw, ?_, ?_, hr.2, ?_, hr.1⟩
  · cases hl : (Calendar.fresh.afterAll calls).events.lookup
        (Calendar.fresh.afterAll calls).nextID with
    | none => rfl
    | some e =>
      have := (hw _ e hl).2.1
      omega
  · intro event k e hk
    by_cases hu : event.UserID = []
    · simp only [CreateEvent, if_pos hu]
      exact hk
    · simp only [CreateEvent, if_neg hu]
      have := (hw k e hk).2.1
      rw [AList.lookup_insert_ne (by omega)]
      exact hk
  · exact hr.2.imp (fun h => ne_of_lt h)

/-- C29 at a sequence with a deletion between two creations: the ids returned
are 1 and 2, and the event left is stored under 2 with ID 2. -/
theorem calendar_keys_invariant_witness :
    returnedIds Calendar.fresh
      [Call.create ⟨0, bytes "u", bytes "a", [], bytes "2024-01-01"⟩, Call.delete 1,
        Call.create ⟨7, bytes "u", bytes "b", [], bytes "2024-01-02"⟩] = [1, 2] ∧
    (Calendar.fresh.afterAll
      [Call.create ⟨0, bytes "u", bytes "a", [], bytes "2024-01-01"⟩, Call.delete 1,
        Call.create ⟨7, bytes "u", bytes "b", [], bytes "2024-01-02"⟩]).events.lookup 2
      = some ⟨2, bytes "u", bytes "b", [], bytes "2024-01-02"⟩ ∧
    (1 : Int) ≤ 2 ∧
    (2 : Int) < (Calendar.fresh.afterAll
      [Call.create ⟨0, bytes "u", bytes "a", [], bytes "2024-01-01"⟩, Call.delete 1,
        Call.create ⟨7, bytes "u", bytes "b", [], bytes "2024-01-02"⟩]).nextID :=
  ⟨by decide, by decide,
    ((calendar_keys_invariant
      [Call.create ⟨0, bytes "u", bytes "a", [], bytes "2024-01-01"⟩, Call.delete 1,
        Call.create ⟨7, bytes "u", bytes "b", [], bytes "2024-01-02"⟩]).1 2
      ⟨2, bytes "u", bytes "b", [], bytes "2024-01-02"⟩ (by decide)).1,
    ((calendar_keys_invariant
      [Call.create ⟨0, bytes "u", bytes "a", [], bytes "2024-01-01"⟩, Call.delete 1,
        Call.create ⟨7, bytes "u", bytes "b", [], bytes "2024-01-02"⟩]).1 2
      ⟨2, bytes "u", bytes "b", [], bytes "2024-01-02"⟩ (by decide)).2.1⟩

end CalendarServer


namespace UnixSort

/-! ## The comparison of strings -/

theorem strLt_asymm : ∀ a b : Str, strLt a b = true → strLt b a = false
  | [], [] => by simp [strLt]
  | [], _ :: _ => by simp [strLt]
  | _ :: _, [] => by simp [strLt]
  | x :: xs, y :: ys => by
    intro h
    simp only [strLt] at h ⊢
    by_cases h1 : x < y
    · have h2 : ¬ y < x := by omega
      simp [h1, h2]
    · by_cases h2 : y < x
      · simp [h1, h2] at h
      · simp only [h1, h2, if_false] at h ⊢
        exact strLt_asymm xs ys h

theorem strLt_negTrans : ∀ c b a : Str, strLt c a = true → strLt c b = true ∨ strLt b a = true
  | [], [], _ => by intro h; exact Or.inr h
  | [], _ :: _, _ => by intro _; exact Or.inl (by simp [strLt])
  | _ :: _, _, [] => by intro h; simp [strLt] at h
  | _ :: _, [], _ :: _ => by intro _; exact Or.inr (by simp [strLt])
  | z :: zs, y :: ys, x :: xs => by
    intro h
    simp only [strLt] at h ⊢
    by_cases h1 : z < x
    · by_cases h2 : z < y
      · simp [h2]
      · by_cases h3 : y < z
        · have h4 : y < x := by omega
          simp [h4]
        · have h5 : y = z := by omega
          subst h5
          simp [h1]
    · by_cases h2 : x < z
      · simp [h1, h2] at h
      · have h5 : x = z := by omega
        subst h5
        simp only [lt_irrefl, if_false] at h
        by_cases h3 : x < y
        · simp [h3]
        · by_cases h4 : y < x
          · simp [h4]
          · simp only [h3, h4, if_false]
            exact strLt_negTrans zs ys xs h

/-! ## The blocks of compareKeys -/

theorem byMonth_swap {V : Type} (L : Lib V) (flags : SortFlags) (a b : Str) :
    byMonth L flags b a = (byMonth L flags a b).map (fun r => -r) := by
  unfold byMonth
  cases flags.Month with
  | false => rfl
  | true =>
    cases monthValue L a with
    | none => cases monthValue L b <;> rfl
    | some ma =>
      cases monthValue L b with
      | none => rfl
      | some mb =>
        simp only [if_true, Option.map_some', Option.some.injEq]
        split_ifs <;> omega

theorem float_swap {V : Type} (L : Lib V)
    (hasym : ∀ x y, L.lt x y = true → L.lt y x = false) (va vb : V) :
    (if L.lt vb va = true then (-1 : Int) else if L.lt va vb = true then 1 else 0)
      = -(if L.lt va vb = true then (-1 : Int) else if L.lt vb va = true then 1 else 0) := by
  cases h1 : L.lt va vb with
  | true => simp [hasym va vb h1]
  | false => cases h2 : L.lt vb va <;> simp

theorem byHuman_swap {V : Type} (L : Lib V)
    (hasym : ∀ x y, L.lt x y = true → L.lt y x = false) (flags : SortFlags) (a b : Str) :
    byHuman L flags b a = (byHuman L flags a b).map (fun r => -r) := by
  unfold byHuman
  cases flags.HumanNum with
  | false => rfl
  | true =>
    cases parseHuman L a with
    | none => cases parseHuman L b <;> rfl
    | some va =>
      cases parseHuman L b with
      | none => rfl
      | some vb =>
        simp only [if_true, Option.map_some', Option.some.injEq]
        exact float_swap L hasym va vb

theorem byNumeric_swap {V : Type} (L : Lib V)
    (hasym : ∀ x y, L.lt x y = true → L.lt y x = false) (flags : SortFlags) (a b : Str) :
    byNumeric L flags b a = (byNumeric L flags a b).map (fun r => -r) := by
  unfold byNumeric
  cases flags.Numeric with
  | false => rfl
  | true =>
    cases parseNumeric L a with
    | none => cases parseNumeric L b <;> rfl
    | some va =>
      cases parseNumeric L b with
      | none => rfl
      | some vb =>
        simp only [if_true, Option.map_some', Option.some.injEq]
        exact float_swap L hasym va vb

theorem lex_swap (a b : Str) :
    (if strLt b a = true then (-1 : Int) else if strLt a b = true then 1 else 0)
      = -(if strLt a b = true then (-1 : Int) else if strLt b a = true then 1 else 0) := by
  cases h1 : strLt a b with
  | true => simp [strLt_asymm a b h1]
  | false => cases h2 : strLt b a <;> simp

theorem compareKeys_swap {V : Type} (L : Lib V)
    (hasym : ∀ x y, L.lt x y = true → L.lt y x = false) (flags : SortFlags) (a b : Str) :
    compareKeys L a b flags = -compareKeys L b a flags := by
  simp only [compareKeys]
  rw [byMonth_swap L flags (trimmedKey flags b) (trimmedKey flags a),
    byHuman_swap L hasym flags (trimmedKey flags b) (trimmedKey flags a),
    byNumeric_swap L hasym flags (trimmedKey flags b) (trimmedKey flags a)]
  cases byMonth L flags (trimmedKey flags b) (trimmedKey flags a) with
  | some r => simp
  | none =>
    cases byHuman L flags (trimmedKey flags b) (trimmedKey flags a) with
    | some r => simp
    | none =>
      cases byNumeric L flags (trimmedKey flags b) (trimmedKey flags a) with
      | some r => simp
      | none =>
        simp only [Option.map_none']
        exact lex_swap (trimmedKey flags b) (trimmedKey flags a)

end UnixSort

namespace UnixSort

/-! ## Transitivity, block by block -/

theorem byMonth_trans {V : Type} (L : Lib V) (flags : SortFlags) (a b c : Str)
    (h : flags.Month = true → AllOrNone (monthValue L) a b c) :
    BlockTrans (byMonth L flags a b) (byMonth L flags b c) (byMonth L flags a c) := by
  unfold byMonth
  cases hf : flags.Month with
  | false => exact Or.inr ⟨rfl, rfl, rfl⟩
  | true =>
    have h2 := h hf
    unfold AllOrNone at h2
    cases ha : monthValue L a with
    | none =>
      rw [ha] at h2
      cases hb : monthValue L b with
      | some mb => rw [hb] at h2; simp at h2
      | none =>
        cases hc : monthValue L c with
        | some mc => rw [hb, hc] at h2; simp at h2
        | none => exact Or.inr ⟨rfl, rfl, rfl⟩
    | some ma =>
      rw [ha] at h2
      cases hb : monthValue L b with
      | none => rw [hb] at h2; simp at h2
      | some mb =>
        cases hc : monthValue L c with
        | none => rw [hb, hc] at h2; simp at h2
        | some mc =>
          refine Or.inl ⟨_, _, _, rfl, rfl, rfl, ?_⟩
          split_ifs <;> omega

theorem float_trans {V : Type} (L : Lib V)
    (hasym : ∀ x y, L.lt x y = true → L.lt y x = false) (va vb vc : V)
    (hnt : L.lt vc va = true → L.lt vc vb = true ∨ L.lt vb va = true) :
    (if L.lt va vb = true then (-1 : Int) else if L.lt vb va = true then 1 else 0) ≤ 0 →
    (if L.lt vb vc = true then (-1 : Int) else if L.lt vc vb = true then 1 else 0) ≤ 0 →
    (if L.lt va vc = true then (-1 : Int) else if L.lt vc va = true then 1 else 0) ≤ 0 := by
  intro h1 h2
  have n1 : L.lt vb va = false := by
    cases hab : L.lt va vb with
    | true => exact hasym va vb hab
    | false =>
      cases hba : L.lt vb va with
      | false => rfl
      | true => simp [hab, hba] at h1
  have n2 : L.lt vc vb = false := by
    cases hbc : L.lt vb vc with
    | true => exact hasym vb vc hbc
    | false =>
      cases hcb : L.lt vc vb with
      | false => rfl
      | true => simp [hbc, hcb] at h2
  have n3 : L.lt vc va = false := by
    cases hca : L.lt vc va with
    | false => rfl
    | true =>
      rcases hnt hca with h | h
      · rw [n2] at h; exact absurd h (by simp)
      · rw [n1] at h; exact absurd h (by simp)
  rw [n3]
  cases L.lt va vc <;> simp

theorem byHuman_trans {V : Type} (L : Lib V)
    (hasym : ∀ x y, L.lt x y = true → L.lt y x = false) (flags : SortFlags) (a b c : Str)
    (h : flags.HumanNum = true → AllOrNone (parseHuman L) a b c)
    (hnt : OrderedOn L.lt (parseHuman L) a b c) :
    BlockTrans (byHuman L flags a b) (byHuman L flags b c) (byHuman L flags a c) := by
  unfold byHuman
  cases hf : flags.HumanNum with
  | false => exact Or.inr ⟨rfl, rfl, rfl⟩
  | true =>
    have h2 := h hf
    unfold AllOrNone at h2
    cases ha : parseHuman L a with
    | none =>
      rw [ha] at h2
      cases hb : parseHuman L b with
      | some mb => rw [hb] at h2; simp at h2
      | none =>
        cases hc : parseHuman L c with
        | some mc => rw [hb, hc] at h2; simp at h2
        | none => exact Or.inr ⟨rfl, rfl, rfl⟩
    | some va =>
      rw [ha] at h2
      cases hb : parseHuman L b with
      | none => rw [hb] at h2; simp at h2
      | some vb =>
        cases hc : parseHuman L c with
        | none => rw [hb, hc] at h2; simp at h2
        | some vc =>
          refine Or.inl ⟨_, _, _, rfl, rfl, rfl, ?_⟩
          exact float_trans L hasym va vb vc (hnt va vb vc ha hb hc)

theorem byNumeric_trans {V : Type} (L : Lib V)
    (hasym : ∀ x y, L.lt x y = true → L.lt y x = false) (flags : SortFlags) (a b c : Str)
    (h : flags.Numeric = true → AllOrNone (parseNumeric L) a b c)
    (hnt : OrderedOn L.lt (parseNumeric L) a b c) :
    BlockTrans (byNumeric L flags a b) (byNumeric L flags b c) (byNumeric L flags a c) := by
  unfold byNumeric
  cases hf : flags.Numeric with
  | false => exact Or.inr ⟨rfl, rfl, rfl⟩
  | true =>
    have h2 := h hf
    unfold AllOrNone at h2
    cases ha : parseNumeric L a with
    | none =>
      rw [ha] at h2
      cases hb : parseNumeric L b with
      | some mb => rw [hb] at h2; simp at h2
      | none =>
        cases hc : parseNumeric L c with
        | some mc => rw [hb, hc] at h2; simp at h2
        | none => exact Or.inr ⟨rfl, rfl, rfl⟩
    | some va =>
      rw [ha] at h2
      cases hb : parseNumeric L b with
      | none => rw [hb] at h2; simp at h2
      | some vb =>
        cases hc : parseNumeric L c with
        | none => rw [hb, hc] at h2; simp at h2
        | some vc =>
          refine Or.inl ⟨_, _, _, rfl, rfl, rfl, ?_⟩
          exact float_trans L hasym va vb vc (hnt va vb vc ha hb hc)

theorem lex_trans (a b c : Str) :
    (if strLt a b = true then (-1 : Int) else if strLt b a = true then 1 else 0) ≤ 0 →
    (if strLt b c = true then (-1 : Int) else if strLt c b = true then 1 else 0) ≤ 0 →
    (if strLt a c = true then (-1 : Int) else if strLt c a = true then 1 else 0) ≤ 0 := by
  intro h1 h2
  have n1 : strLt b a = false := by
    cases hab : strLt a b with
    | true => exact strLt_asymm a b hab
    | false =>
      cases hba : strLt b a with
      | false => rfl
      | true => simp [hab, hba] at h1
  have n2 : strLt c b = false := by
    cases hbc : strLt b c with
    | true => exact strLt_asymm b c hbc
    | false =>
      cases hcb : strLt c b with
      | false => rfl
      | true => simp [hbc, hcb] at h2
  have n3 : strLt c a = false := by
    cases hca : strLt c a with
    | false => rfl
    | true =>
      rcases strLt_negTrans c b a hca with h | h
      · rw [n2] at h; exact absurd h (by simp)
      · rw [n1] at h; exact absurd h (by simp)
  rw [n3]
  cases strLt a c <;> simp

theorem compareKeys_trans {V : Type} (L : Lib V)
    (hasym : ∀ x y, L.lt x y = true → L.lt y x = false) (flags : SortFlags) (a b c : Str)
    (hM : flags.Month = true →
      AllOrNone (monthValue L) (trimmedKey flags a) (trimmedKey flags b) (trimmedKey flags c))
    (hH : flags.HumanNum = true →
      AllOrNone (parseHuman L) (trimmedKey flags a) (trimmedKey flags b) (trimmedKey flags c))
    (hN : flags.Numeric = true →
      AllOrNone (parseNumeric L) (trimmedKey flags a) (trimmedKey flags b) (trimmedKey flags c))
    (hHo : OrderedOn L.lt (parseHuman L)
      (trimmedKey flags a) (trimmedKey flags b) (trimmedKey flags c))
    (hNo : OrderedOn L.lt (parseNumeric L)
      (trimmedKey flags a) (trimmedKey flags b) (trimmedKey flags c)) :
    compareKeys L a b flags ≤ 0 → compareKeys L b c flags ≤ 0 →
      compareKeys L a c flags ≤ 0 := by
  simp only [compareKeys]
  rcases byMonth_trans L flags _ _ _ hM with ⟨x, y, z, e1, e2, e3, ht⟩ | ⟨e1, e2, e3⟩
  · rw [e1, e2, e3]; exact ht
  · rw [e1, e2, e3]
    rcases byHuman_trans L hasym flags _ _ _ hH hHo with ⟨x, y, z, f1, f2, f3, ht⟩ | ⟨f1, f2, f3⟩
    · rw [f1, f2, f3]; exact ht
    · rw [f1, f2, f3]
      rcases byNumeric_trans L hasym flags _ _ _ hN hNo with
        ⟨x, y, z, g1, g2, g3, ht⟩ | ⟨g1, g2, g3⟩
      · rw [g1, g2, g3]; exact ht
      · rw [g1, g2, g3]
        exact lex_trans _ _ _

end UnixSort

namespace UnixSort

/-! ## compareKeys as an order -/

theorem asciiLib_lt_asymm (x y : Int) :
    asciiLib.lt x y = true → asciiLib.lt y x = false := by
  intro h
  simp only [asciiLib, decide_eq_true_eq, decide_eq_false_iff_not] at h ⊢
  omega

/-- C30, as the claim states it, fails under the `Month` flag alone on the keys
`dec`, `e`, `jan`, of which only the second is no month name: `dec` against `e`
and `e` against `jan` are compared as strings and give -1, `dec` against `jan`
are compared as months and give 1. -/
theorem compareKeys_month_not_transitive :
    compareKeys asciiLib (bytes "dec") (bytes "e") monthOnly = -1 ∧
    compareKeys asciiLib (bytes "e") (bytes "jan") monthOnly = -1 ∧
    compareKeys asciiLib (bytes "dec") (bytes "jan") monthOnly = 1 ∧
    compareKeys asciiLib (bytes "dec") (bytes "e") monthOnly ≤ 0 ∧
    compareKeys asciiLib (bytes "e") (bytes "jan") monthOnly ≤ 0 ∧
    ¬ compareKeys asciiLib (bytes "dec") (bytes "jan") monthOnly ≤ 0 := by
  decide

/-- C30, amended: for every flags value and all keys `a`, `b`, `c`,
`compareKeys` is antisymmetric (the `<` of `float64` being asymmetric), and it
is transitive on `a`, `b`, `c` when each of the rules `Month`, `HumanNum`,
`Numeric` that is set recognises all three keys (after the trimming of `-b`)
or none of them, and the `<` of `float64` orders the three parsed values. -/
theorem compareKeys_order {V : Type} (L : Lib V)
    (hasym : ∀ x y, L.lt x y = true → L.lt y x = false) (flags : SortFlags) (a b c : Str) :
    compareKeys L a b flags = -compareKeys L b a flags ∧
    ((flags.Month = true →
        AllOrNone (monthValue L) (trimmedKey flags a) (trimmedKey flags b)
          (trimmedKey flags c)) →
      (flags.HumanNum = true →
        AllOrNone (parseHuman L) (trimmedKey flags a) (trimmedKey flags b)
          (trimmedKey flags c)) →
      (flags.Numeric = true →
        AllOrNone (parseNumeric L) (trimmedKey flags a) (trimmedKey flags b)
          (trimmedKey flags c)) →
      OrderedOn L.lt (parseHuman L) (trimmedKey flags a) (trimmedKey flags b)
        (trimmedKey flags c) →
      OrderedOn L.lt (parseNumeric L) (trimmedKey flags a) (trimmedKey flags b)
        (trimmedKey flags c) →
      compareKeys L a b flags ≤ 0 → compareKeys L b c flags ≤ 0 →
        compareKeys L a c flags ≤ 0) :=
  ⟨compareKeys_swap L hasym flags a b,
    fun hM hH hN hHo hNo => compareKeys_trans L hasym flags a b c hM hH hN hHo hNo⟩

/-- C30, amended, at the keys `Jan`, `feb ` and `MARCH` under the `Month` flag:
all three are month names, each pair is in order and so is the outer pair. -/
theorem compareKeys_order_witness :
    compareKeys asciiLib (bytes "Jan") (bytes "feb ") monthOnly
      = -compareKeys asciiLib (bytes "feb ") (bytes "Jan") monthOnly ∧
    compareKeys asciiLib (bytes "Jan") (bytes "feb ") monthOnly = -1 ∧
    compareKeys asciiLib (bytes "Jan") (bytes "MARCH") monthOnly ≤ 0 :=
  ⟨(compareKeys_order asciiLib asciiLib_lt_asymm monthOnly
      (bytes "Jan") (bytes "feb ") (bytes "MARCH")).1,
    by decide,
    (compareKeys_order asciiLib asciiLib_lt_asymm monthOnly
      (bytes "Jan") (bytes "feb ") (bytes "MARCH")).2
      (fun _ => ⟨by decide, by decide⟩) (fun h => absurd h (by decide)) (fun h => absurd h (by decide))
      (fun x y z h => by
        have : parseHuman asciiLib (trimmedKey monthOnly (bytes "Jan")) = none := by decide
        rw [this] at h
        exact absurd h (by simp))
      (fun x y z h => by
        have : parseNumeric asciiLib (trimmedKey monthOnly (bytes "Jan")) = none := by decide
        rw [this] at h
        exact absurd h (by simp))
      (by decide) (by decide)⟩

end UnixSort


namespace CalendarServer

/-! ## The strings of the dates -/

theorem decimalFuel_small (f n : Nat) (hf : 0 < f) (h : n < 10) :
    decimalFuel f n = [48 + n] := by
  cases f with
  | zero => omega
  | succ f => simp [decimalFuel, h]

theorem decimalFuel_large (f n : Nat) (hf : 0 < f) (h : 10 ≤ n) :
    decimalFuel f n = decimalFuel (f - 1) (n / 10) ++ [48 + n % 10] := by
  cases f with
  | zero => omega
  | succ f =>
    have : ¬ n < 10 := by omega
    simp [decimalFuel, this]

theorem appendInt_two (n : Nat) (h : n < 100) :
    appendInt (n : Int) 2 = [48 + n / 10, 48 + n % 10] := by
  have hneg : ¬ ((n : Int) < 0) := by omega
  simp only [appendInt, Int.natAbs_ofNat, hneg, if_false, List.nil_append]
  by_cases h1 : n < 10
  · rw [decimalFuel_small _ _ (by omega) h1]
    have : n / 10 = 0 := by omega
    have : n % 10 = n := by omega
    simp [*]
  · rw [decimalFuel_large _ _ (by omega) (by omega),
      decimalFuel_small _ _ (by omega) (by omega)]
    simp

theorem appendInt_four (n : Nat) (h : n < 10000) :
    appendInt (n : Int) 4 = [48 + n / 1000, 48 + n / 100 % 10, 48 + n / 10 % 10, 48 + n % 10] := by
  have hneg : ¬ ((n : Int) < 0) := by omega
  simp only [appendInt, Int.natAbs_ofNat, hneg, if_false, List.nil_append]
  by_cases h1 : n < 10
  · rw [decimalFuel_small _ _ (by omega) h1]
    have e1 : n / 1000 = 0 := by omega
    have e2 : n / 100 % 10 = 0 := by omega
    have e3 : n / 10 % 10 = 0 := by omega
    have e4 : n % 10 = n := by omega
    simp [e1, e2, e3, e4, List.replicate]
  · by_cases h2 : n < 100
    · rw [decimalFuel_large _ _ (by omega) (by omega),
        decimalFuel_small _ _ (by omega) (by omega)]
      have e1 : n / 1000 = 0 := by omega
      have e2 : n / 100 % 10 = 0 := by omega
      have e3 : n / 10 % 10 = n / 10 := by omega
      simp [e1, e2, e3, List.replicate]
    · by_cases h3 : n < 1000
      · rw [decimalFuel_large _ _ (by omega) (by omega),
          decimalFuel_large _ _ (by omega) (by omega),
          decimalFuel_small _ _ (by omega) (by omega)]
        have e1 : n / 1000 = 0 := by omega
        have e2 : n / 100 % 10 = n / 10 / 10 := by omega
        simp [e1, e2, List.replicate]
      · rw [decimalFuel_large _ _ (by omega) (by omega),
          decimalFuel_large _ _ (by omega) (by omega),
          decimalFuel_large _ _ (by omega) (by omega),
          decimalFuel_small _ _ (by omega) (by omega)]
        have e1 : n / 1000 = n / 10 / 10 / 10 := by omega
        have e2 : n / 100 % 10 = n / 10 / 10 % 10 := by omega
        simp [e1, e2]

theorem format_dateStr (y m d : Nat) (hy : y < 10000) (hm : m < 100) (hd : d < 100) :
    (Time.mk (y : Int) (m : Int) (d : Int)).Format = dateStr y m d := by
  simp only [Time.Format, appendInt_four y hy, appendInt_two m hm, appendInt_two d hd, dateStr]
  rfl

theorem strLt_cons (x y : Nat) (xs ys : Str) :
    UnixSort.strLt (x :: xs) (y :: ys)
      = if x < y then true else if y < x then false else UnixSort.strLt xs ys := rfl

theorem strLt_two (a b a2 b2 : Nat) (t1 t2 : Str) (hb : b < 10) (hb2 : b2 < 10) :
    UnixSort.strLt ((48 + a) :: (48 + b) :: t1) ((48 + a2) :: (48 + b2) :: t2)
      = if 10 * a + b < 10 * a2 + b2 then true
        else if 10 * a2 + b2 < 10 * a + b then false else UnixSort.strLt t1 t2 := by
  rw [strLt_cons, strLt_cons]
  split_ifs <;> first | rfl | (exfalso; omega)

theorem strLt_hyphen (t1 t2 : Str) :
    UnixSort.strLt (45 :: t1) (45 :: t2) = UnixSort.strLt t1 t2 := by
  rw [strLt_cons]
  simp

theorem strLt_dateStr (y m d y2 m2 d2 : Nat) (hy : y < 10000) (hm : m < 100) (hd : d < 100)
    (hy2 : y2 < 10000) (hm2 : m2 < 100) (hd2 : d2 < 100) :
    UnixSort.strLt (dateStr y m d) (dateStr y2 m2 d2)
      = decide (y * 10000 + m * 100 + d < y2 * 10000 + m2 * 100 + d2) := by
  unfold dateStr
  rw [strLt_two _ _ _ _ _ _ (Nat.mod_lt _ (by decide)) (Nat.mod_lt _ (by decide)),
    strLt_two _ _ _ _ _ _ (Nat.mod_lt _ (by decide)) (Nat.mod_lt _ (by decide)),
    strLt_hyphen,
    strLt_two _ _ _ _ _ _ (Nat.mod_lt _ (by decide)) (Nat.mod_lt _ (by decide)),
    strLt_hyphen,
    strLt_two _ _ _ _ _ _ (Nat.mod_lt _ (by decide)) (Nat.mod_lt _ (by decide))]
  have hnil : UnixSort.strLt [] [] = false := rfl
  rw [hnil]
  split_ifs <;> simp <;> omega

end CalendarServer

namespace CalendarServer

/-! ## The dates that time.Parse accepts -/

theorem daysIn_bounds (y m : Int) : 28 ≤ daysIn y m ∧ daysIn y m ≤ 31 := by
  unfold daysIn
  split_ifs <;> omega

theorem isDigit_bounds (c : Nat) (h : isDigit c = true) : 48 ≤ c ∧ c ≤ 57 := by
  simpa [isDigit] using h

theorem timeParse_some (s : Str) (t : Time) (h : timeParse s = some t) :
    ∃ y m d : Nat, t = ⟨(y : Int), (m : Int), (d : Int)⟩ ∧ y < 10000 ∧ 1 ≤ m ∧ m ≤ 12 ∧
      1 ≤ d ∧ (d : Int) ≤ daysIn (y : Int) (m : Int) ∧ s = dateStr y m d := by
  unfold timeParse at h
  split at h
  · rename_i y1 y2 y3 y4 h1 m1 m2 h2 d1 d2
    split at h
    · rename_i hdig
      simp only [Bool.and_eq_true, decide_eq_true_eq] at hdig
      obtain ⟨⟨⟨⟨⟨⟨⟨⟨⟨e1, e2⟩, e3⟩, e4⟩, e5⟩, e6⟩, e7⟩, e8⟩, e9⟩, e10⟩ := hdig
      have b1 := isDigit_bounds _ e1
      have b2 := isDigit_bounds _ e2
      have b3 := isDigit_bounds _ e3
      have b4 := isDigit_bounds _ e4
      have b5 := isDigit_bounds _ e5
      have b6 := isDigit_bounds _ e6
      have b7 := isDigit_bounds _ e7
      have b8 := isDigit_bounds _ e8
      simp only at h
      split at h
      · rename_i hr
        injection h with h
        refine ⟨1000 * (y1 - 48) + 100 * (y2 - 48) + 10 * (y3 - 48) + (y4 - 48),
          10 * (m1 - 48) + (m2 - 48), 10 * (d1 - 48) + (d2 - 48), ?_, ?_, ?_, ?_, ?_, ?_, ?_⟩
        · rw [← h]
          simp only [num2, Time.mk.injEq]
          refine ⟨?_, ?_, ?_⟩ <;> omega
        · omega
        · simp only [num2] at hr; omega
        · simp only [num2] at hr; omega
        · simp only [num2] at hr; omega
        · have hy : ((1000 * (y1 - 48) + 100 * (y2 - 48) + 10 * (y3 - 48) + (y4 - 48) : Nat) : Int)
              = 100 * num2 y1 y2 + num2 y3 y4 := by
            simp only [num2]; omega
          have hm : ((10 * (m1 - 48) + (m2 - 48) : Nat) : Int) = num2 m1 m2 := by
            simp only [num2]; omega
          have hd : ((10 * (d1 - 48) + (d2 - 48) : Nat) : Int) = num2 d1 d2 := by
            simp only [num2]; omega
          rw [hy, hm, hd]
          exact hr.2.2.2
        · simp only [dateStr, List.cons.injEq, and_true]
          refine ⟨?_, ?_, ?_, ?_, ?_, ?_, ?_, ?_, ?_, ?_⟩ <;> omega
      · exact absurd h (by simp)
    · exact absurd h (by simp)
  · exact absurd h (by simp)

end CalendarServer

namespace CalendarServer

/-! ## The first and the last day of a month -/

theorem timeDate_first (y m : Int) (h1 : 1 ≤ m) (h2 : m ≤ 12) :
    timeDate y m 1 = ⟨y, m, 1⟩ := by
  have e1 : (m - 1) / 12 = 0 := by omega
  have e2 : (m - 1) % 12 + 1 = m := by omega
  simp [timeDate, shiftDays, e1, e2]

theorem addDate_last (y m : Int) (h1 : 1 ≤ m) (h2 : m ≤ 12) :
    (Time.mk y m 1).AddDate 0 1 (-1) = ⟨y, m, daysIn y m⟩ := by
  have hs : ∀ t : Time, shiftDays t (1 + -1 - 1) = prevDay t := by
    intro t
    simp [shiftDays]
  simp only [Time.AddDate, timeDate, hs, add_zero]
  by_cases h12 : m = 12
  · subst h12
    simp [prevDay, daysIn]
  · have e1 : m / 12 = 0 := by omega
    have e2 : m % 12 = m := by omega
    have e3 : (0 : Int) < m := by omega
    simp [prevDay, e1, e2, e3]

end CalendarServer

namespace CalendarServer

/-! ## GetEventsForMonth -/

theorem month_range (t te : Time) (date s : Str) (hd : timeParse date = some t)
    (hs : timeParse s = some te) :
    (strLe (timeDate t.year t.month 1).Format s
        && strLe s ((timeDate t.year t.month 1).AddDate 0 1 (-1)).Format)
      = decide (te.year = t.year ∧ te.month = t.month) := by
  obtain ⟨y, m, d, rfl, hy, hm1, hm2, hd1, hd2, -⟩ := timeParse_some date _ hd
  obtain ⟨y2, m2, d2, rfl, hy2, hm21, hm22, hd21, hd22, rfl⟩ := timeParse_some s _ hs
  have hb := daysIn_bounds (y : Int) (m : Int)
  have hb2 := daysIn_bounds (y2 : Int) (m2 : Int)
  obtain ⟨D, hD⟩ := Int.eq_ofNat_of_zero_le (show (0 : Int) ≤ daysIn (y : Int) (m : Int) by omega)
  simp only []
  rw [timeDate_first _ _ (by omega) (by omega), addDate_last _ _ (by omega) (by omega), hD]
  have f1 := format_dateStr y m 1 hy (by omega) (by omega)
  simp only [Nat.cast_one] at f1
  rw [f1, format_dateStr y m D hy (by omega) (by omega)]
  simp only [strLe]
  rw [strLt_dateStr _ _ _ _ _ _ hy2 (by omega) (by omega) hy (by omega) (by omega),
    strLt_dateStr _ _ _ _ _ _ hy (by omega) (by omega) hy2 (by omega) (by omega)]
  by_cases hym : (y2 : Int) = y ∧ (m2 : Int) = m
  · obtain ⟨h1, h2⟩ := hym
    have h3 : y2 = y := by omega
    have h4 : m2 = m := by omega
    subst h3
    subst h4
    have h5 : ¬ (y2 * 10000 + m2 * 100 + d2 < y2 * 10000 + m2 * 100 + 1) := by omega
    have h6 : ¬ (y2 * 10000 + m2 * 100 + D < y2 * 10000 + m2 * 100 + d2) := by omega
    simp [h5, h6]
  · have h7 : y2 * 10000 + m2 * 100 + d2 < y * 10000 + m * 100 + 1 ∨
        y * 10000 + m * 100 + D < y2 * 10000 + m2 * 100 + d2 := by omega
    rw [decide_eq_false hym]
    rcases h7 with h | h
    · simp [h]
    · simp [h]

end CalendarServer

namespace CalendarServer

set_option maxRecDepth 100000

/-- C25: for a date `date` that `time.Parse` accepts as `t` and a calendar
whose stored event dates are all accepted by `time.Parse`, `GetEventsForMonth`
returns no error and the stored events, each once, whose user is `userID` and
whose date is a date of the year and month of `t`: every day of that month,
from the first to the last, and no other day, whichever day of the month `t`
is. -/
theorem getEventsForMonth_spec (c : Calendar) (date userID : Str) (t : Time)
    (hd : timeParse date = some t) (hs : ∀ e ∈ c.stored, timeParse e.Date ≠ none) :
    GetEventsForMonth c date userID
      = (c.stored.filter (fun e => decide (e.UserID = userID) && inMonthOf t e.Date), none) ∧
    (∀ e, e ∈ (GetEventsForMonth c date userID).1 ↔
      e ∈ c.stored ∧ e.UserID = userID ∧
        ∃ day, timeParse e.Date = some ⟨t.year, t.month, day⟩ ∧
          1 ≤ day ∧ day ≤ daysIn t.year t.month) := by
  have hmain : GetEventsForMonth c date userID
      = (c.stored.filter (fun e => decide (e.UserID = userID) && inMonthOf t e.Date),
          none) := by
    simp only [GetEventsForMonth, hd, Prod.mk.injEq, and_true]
    apply List.filter_congr
    intro e he
    cases hte : timeParse e.Date with
    | none => exact absurd hte (hs e he)
    | some te =>
      have := month_range t te date e.Date hd hte
      rw [Bool.and_assoc, this]
      simp only [inMonthOf, hte]
  refine ⟨hmain, ?_⟩
  intro e
  rw [hmain]
  simp only [List.mem_filter, Bool.and_eq_true, decide_eq_true_eq]
  constructor
  · rintro ⟨he, hu, hin⟩
    refine ⟨he, hu, ?_⟩
    cases hte : timeParse e.Date with
    | none => simp [inMonthOf, hte] at hin
    | some te =>
      simp only [inMonthOf, hte, decide_eq_true_eq] at hin
      obtain ⟨y, m, d, rfl, -, -, -, hd1, hd2, -⟩ := timeParse_some _ _ hte
      simp only at hin
      refine ⟨d, ?_, by omega, ?_⟩
      · rw [← hin.1, ← hin.2]
      · rw [← hin.1, ← hin.2]; exact hd2
  · rintro ⟨he, hu, day, hp, -, -⟩
    exact ⟨he, hu, by simp [inMonthOf, hp]⟩

/-- C25 at the calendar and the call of `TestGetEventsForMonth`: the three
events of `user1` in December 2023 are returned. -/
theorem getEventsForMonth_spec_witness :
    timeParse (bytes "2023-12-15") = some ⟨2023, 12, 15⟩ ∧
    GetEventsForMonth monthTestCalendar (bytes "2023-12-15") (bytes "user1")
      = (monthTestCalendar.stored.filter (fun e =>
          decide (e.UserID = bytes "user1") && inMonthOf ⟨2023, 12, 15⟩ e.Date), none) ∧
    (GetEventsForMonth monthTestCalendar (bytes "2023-12-15") (bytes "user1")).1.length = 3 :=
  ⟨by decide,
    (getEventsForMonth_spec monthTestCalendar (bytes "2023-12-15") (bytes "user1")
      ⟨2023, 12, 15⟩ (by decide) (by decide)).1,
    by decide⟩

/-- C24 fails in the last week of the year 9999: the end of the week of
`9999-12-26` is formatted as `10000-01-01`, which as a string is below every date
of the year 9999, so the event of `user1` stored on `9999-12-26`, the first of
the 7 days, is not returned.  On the calendar of `TestGetEventsForWeek` the
three events of the week are returned. -/
theorem getEventsForWeek_year_end :
    timeParse (bytes "9999-12-26") = some ⟨9999, 12, 26⟩ ∧
    yearEndCalendar.stored
      = [⟨1, bytes "user1", bytes "Last week", [], bytes "9999-12-26"⟩] ∧
    ((Time.mk 9999 12 26).AddDate 0 0 6).Format = bytes "10000-01-01" ∧
    GetEventsForWeek yearEndCalendar (bytes "9999-12-26") (bytes "user1") = ([], none) ∧
    (GetEventsForWeek weekTestCalendar (bytes "2023-12-31") (bytes "user1")).1.length = 3 := by
  refine ⟨by decide, by decide, by decide, by decide, by decide⟩

end CalendarServer


namespace CalendarServer

/-! ## The order of the days -/

theorem timeParse_valid (s : Str) (t : Time) (h : timeParse s = some t) :
    t.valid ∧ t.year ≤ 9999 ∧ s = t.Format := by
  obtain ⟨y, m, d, rfl, hy, hm1, hm2, hd1, hd2, rfl⟩ := timeParse_some s t h
  have hb := daysIn_bounds (y : Int) (m : Int)
  refine ⟨⟨by simp only; omega, by simp only; omega, by simp only; omega,
    by simp only; omega, hd2⟩, by simp only; omega, ?_⟩
  rw [format_dateStr y m d hy (by omega) (by omega)]

theorem nextDay_valid (t : Time) (h : t.valid) : (nextDay t).valid := by
  obtain ⟨h1, h2, h3, h4, h5⟩ := h
  have hb := daysIn_bounds t.year (t.month + 1)
  have hb1 := daysIn_bounds (t.year + 1) 1
  unfold nextDay
  split_ifs with c1 c2
  · exact ⟨h1, h2, h3, by simp only; omega, by simp only; omega⟩
  · exact ⟨h1, by simp only; omega, by simp only; omega, by simp only; omega,
      by simp only; omega⟩
  · exact ⟨by simp only; omega, by simp only; omega, by simp only; omega,
      by simp only; omega, by simp only; omega⟩

theorem key_lt_nextDay (t : Time) (h : t.valid) : t.key < (nextDay t).key := by
  obtain ⟨h1, h2, h3, h4, h5⟩ := h
  have hb := daysIn_bounds t.year t.month
  unfold nextDay
  split_ifs with c1 c2 <;> simp only [Time.key] <;> omega

theorem nextDay_least (t u : Time) (ht : t.valid) (hu : u.valid) (h : t.key < u.key) :
    (nextDay t).key ≤ u.key := by
  obtain ⟨h1, h2, h3, h4, h5⟩ := ht
  obtain ⟨u1, u2, u3, u4, u5⟩ := hu
  have hb := daysIn_bounds t.year t.month
  have hbu := daysIn_bounds u.year u.month
  simp only [Time.key] at h
  unfold nextDay
  split_ifs with c1 c2
  · simp only [Time.key]; omega
  · simp only [Time.key]
    by_cases heq : u.year = t.year ∧ u.month = t.month
    · rw [heq.1, heq.2] at u5
      omega
    · omega
  · simp only [Time.key]
    by_cases heq : u.year = t.year ∧ u.month = t.month
    · rw [heq.1, heq.2] at u5
      omega
    · omega

theorem key_injective (t u : Time) (ht : t.valid) (hu : u.valid) (h : t.key = u.key) :
    t = u := by
  obtain ⟨h1, h2, h3, h4, h5⟩ := ht
  obtain ⟨u1, u2, u3, u4, u5⟩ := hu
  have hb := daysIn_bounds t.year t.month
  have hbu := daysIn_bounds u.year u.month
  simp only [Time.key] at h
  cases t with
  | mk a b c =>
    cases u with
    | mk a2 b2 c2 =>
      simp only at *
      simp only [Time.mk.injEq]
      omega

theorem iterate_nextDay_valid (n : Nat) (t : Time) (h : t.valid) :
    (Nat.iterate nextDay n t).valid := by
  induction n generalizing t with
  | zero => exact h
  | succ n ih => exact ih (nextDay t) (nextDay_valid t h)

theorem between_iterate (n : Nat) (t u : Time) (ht : t.valid) (hu : u.valid) :
    (t.key ≤ u.key ∧ u.key ≤ (Nat.iterate nextDay n t).key) ↔
      ∃ i, i ≤ n ∧ u = Nat.iterate nextDay i t := by
  induction n generalizing t with
  | zero =>
    constructor
    · rintro ⟨h1, h2⟩
      exact ⟨0, le_refl _, (key_injective t u ht hu (le_antisymm h1 h2)).symm⟩
    · rintro ⟨i, hi, rfl⟩
      have : i = 0 := by omega
      subst this
      exact ⟨le_refl _, le_refl _⟩
  | succ n ih =>
    have ih2 := ih (nextDay t) (nextDay_valid t ht)
    constructor
    · rintro ⟨h1, h2⟩
      by_cases he : t.key = u.key
      · exact ⟨0, by omega, (key_injective t u ht hu he).symm⟩
      · have hlt : t.key < u.key := by omega
        obtain ⟨i, hi, hiu⟩ := ih2.mp ⟨nextDay_least t u ht hu hlt, h2⟩
        exact ⟨i + 1, by omega, hiu⟩
    · rintro ⟨i, hi, hiu⟩
      cases i with
      | zero =>
        subst hiu
        have hmono : ∀ k (v : Time), v.valid → v.key ≤ (Nat.iterate nextDay k v).key := by
          intro k
          induction k with
          | zero => intro v _; exact le_refl _
          | succ k ihk =>
            intro v hv
            have := ihk (nextDay v) (nextDay_valid v hv)
            have := key_lt_nextDay v hv
            simp only [Function.iterate_succ, Function.comp_apply]
            omega
        exact ⟨le_refl _, hmono (n + 1) _ ht⟩
      | succ i =>
        have := ih2.mpr ⟨i, by omega, hiu⟩
        have hlt := key_lt_nextDay t ht
        exact ⟨by omega, this.2⟩

end CalendarServer

namespace CalendarServer

/-! ## GetEventsForWeek before the last week of the year 9999 -/

theorem iterate_from_first (y m : Int) (k : Nat) (h : (1 : Int) + k ≤ daysIn y m) :
    Nat.iterate nextDay k ⟨y, m, 1⟩ = ⟨y, m, 1 + k⟩ := by
  induction k with
  | zero => simp
  | succ k ih =>
    rw [Function.iterate_succ_apply', ih (by push_cast at h ⊢; omega)]
    have hlt : (1 : Int) + k < daysIn y m := by push_cast at h; omega
    simp only [nextDay, hlt, if_true, Time.mk.injEq, true_and]
    push_cast
    omega

theorem shiftDays_nat (t : Time) (i : Nat) :
    shiftDays t (i : Int) = Nat.iterate nextDay i t := by
  simp [shiftDays]

theorem addDate_six (t : Time) (h : t.valid) :
    t.AddDate 0 0 6 = Nat.iterate nextDay 6 t := by
  obtain ⟨h1, h2, h3, h4, h5⟩ := h
  obtain ⟨y, m, d⟩ := t
  simp only at h1 h2 h3 h4 h5
  obtain ⟨k, hk⟩ := Int.eq_ofNat_of_zero_le (show (0 : Int) ≤ d - 1 by omega)
  have e1 : (m - 1) / 12 = 0 := by omega
  have e2 : (m - 1) % 12 + 1 = m := by omega
  have e3 : d + 6 - 1 = ((6 + k : Nat) : Int) := by push_cast; omega
  have e4 : d = 1 + (k : Int) := by omega
  simp only [Time.AddDate, timeDate, add_zero, e1, e2, e3, shiftDays, Int.toNat_ofNat,
    Int.ofNat_nonneg, if_true]
  rw [Function.iterate_add_apply, iterate_from_first y m k (by omega), e4]

theorem strLe_format (t u : Time) (ht : t.valid) (hu : u.valid) (hty : t.year ≤ 9999)
    (huy : u.year ≤ 9999) :
    strLe t.Format u.Format = decide (t.key ≤ u.key) := by
  obtain ⟨h1, h2, h3, h4, h5⟩ := ht
  obtain ⟨u1, u2, u3, u4, u5⟩ := hu
  have hb := daysIn_bounds t.year t.month
  have hbu := daysIn_bounds u.year u.month
  obtain ⟨y, m, d⟩ := t
  obtain ⟨y2, m2, d2⟩ := u
  simp only at h1 h2 h3 h4 h5 u1 u2 u3 u4 u5 hty huy hb hbu
  obtain ⟨yn, rfl⟩ := Int.eq_ofNat_of_zero_le h1
  obtain ⟨mn, rfl⟩ := Int.eq_ofNat_of_zero_le (show (0 : Int) ≤ m by omega)
  obtain ⟨dn, rfl⟩ := Int.eq_ofNat_of_zero_le (show (0 : Int) ≤ d by omega)
  obtain ⟨yn2, rfl⟩ := Int.eq_ofNat_of_zero_le u1
  obtain ⟨mn2, rfl⟩ := Int.eq_ofNat_of_zero_le (show (0 : Int) ≤ m2 by omega)
  obtain ⟨dn2, rfl⟩ := Int.eq_ofNat_of_zero_le (show (0 : Int) ≤ d2 by omega)
  rw [format_dateStr yn mn dn (by omega) (by omega) (by omega),
    format_dateStr yn2 mn2 dn2 (by omega) (by omega) (by omega)]
  simp only [strLe]
  rw [strLt_dateStr _ _ _ _ _ _ (by omega) (by omega) (by omega) (by omega) (by omega)
    (by omega)]
  simp only [Time.key]
  by_cases hle : yn * 10000 + mn * 100 + dn ≤ yn2 * 10000 + mn2 * 100 + dn2
  · have h6 : ¬ (yn2 * 10000 + mn2 * 100 + dn2 < yn * 10000 + mn * 100 + dn) := by omega
    have h7 : (yn : Int) * 10000 + mn * 100 + dn ≤ (yn2 : Int) * 10000 + mn2 * 100 + dn2 := by
      omega
    simp [h6, h7]
  · have h6 : yn2 * 10000 + mn2 * 100 + dn2 < yn * 10000 + mn * 100 + dn := by omega
    have h7 : ¬ ((yn : Int) * 10000 + mn * 100 + dn ≤ (yn2 : Int) * 10000 + mn2 * 100 + dn2) := by
      omega
    simp [h6, h7]

theorem week_range (t te : Time) (date s : Str) (hd : timeParse date = some t)
    (hs : timeParse s = some te) (hy : (t.AddDate 0 0 6).year ≤ 9999) :
    (strLe date s && strLe s (t.AddDate 0 0 6).Format)
      = decide (te ∈ (List.range 7).map (fun (i : Nat) => shiftDays t (i : Int))) := by
  obtain ⟨hv, hty, rfl⟩ := timeParse_valid date t hd
  obtain ⟨hve, htey, rfl⟩ := timeParse_valid s te hs
  have h6 := addDate_six t hv
  have hv6 : (t.AddDate 0 0 6).valid := by
    rw [h6]; exact iterate_nextDay_valid 6 t hv
  rw [strLe_format t te hv hve hty htey, strLe_format te _ hve hv6 htey hy, h6]
  have hb := between_iterate 6 t te hv hve
  have hmem : te ∈ (List.range 7).map (fun (i : Nat) => shiftDays t (i : Int)) ↔
      ∃ i, i ≤ 6 ∧ te = Nat.iterate nextDay i t := by
    simp only [List.mem_map, List.mem_range, shiftDays_nat]
    constructor
    · rintro ⟨i, hi, rfl⟩
      exact ⟨i, by omega, rfl⟩
    · rintro ⟨i, hi, rfl⟩
      exact ⟨i, by omega, rfl⟩
  rw [← Bool.decide_and]
  exact decide_eq_decide.mpr (hb.trans hmem.symm)

end CalendarServer

namespace CalendarServer

/-- While the 7 days that start with the day of `date` end in a year of 4
digits (the start is at most `9999-12-25`), `GetEventsForWeek` returns the
stored events of the user whose date is one of these 7 days. -/
theorem getEventsForWeek_through_9999 (c : Calendar) (date userID : Str) (t : Time)
    (hd : timeParse date = some t) (hs : ∀ e ∈ c.stored, timeParse e.Date ≠ none)
    (hy : (t.AddDate 0 0 6).year ≤ 9999) :
    GetEventsForWeek c date userID
      = (c.stored.filter (fun e => decide (e.UserID = userID) && inWeekOf t e.Date), none) := by
  simp only [GetEventsForWeek, hd, Prod.mk.injEq, and_true]
  apply List.filter_congr
  intro e he
  cases hte : timeParse e.Date with
  | none => exact absurd hte (hs e he)
  | some te =>
    have := week_range t te date e.Date hd hte hy
    rw [Bool.and_assoc, this]
    simp only [inWeekOf, hte]

/-- A date that `time.Parse` rejects gives the error of `GetEventsForWeek`. -/
theorem getEventsForWeek_malformed (c : Calendar) (date userID : Str)
    (h : timeParse date = none) :
    GetEventsForWeek c date userID = ([], some "invalid date format") := by
  simp only [GetEventsForWeek, h]

end CalendarServer


namespace CalendarServer

set_option maxRecDepth 100000

/-- The week of `TestGetEventsForWeek`: the call returns the events of `user1`
on the 7 days from `2023-12-31`, which are three. -/
theorem getEventsForWeek_test :
    GetEventsForWeek weekTestCalendar (bytes "2023-12-31") (bytes "user1")
      = (weekTestCalendar.stored.filter (fun e =>
          decide (e.UserID = bytes "user1") && inWeekOf ⟨2023, 12, 31⟩ e.Date), none) ∧
    (weekTestCalendar.stored.filter (fun e =>
        decide (e.UserID = bytes "user1") && inWeekOf ⟨2023, 12, 31⟩ e.Date)).length = 3 :=
  ⟨getEventsForWeek_through_9999 weekTestCalendar (bytes "2023-12-31") (bytes "user1")
      ⟨2023, 12, 31⟩ (by decide) (by decide) (by decide),
    by decide⟩

end CalendarServer
